import Mathlib

/-!
# RParserProject: name index, lookups and worker state machine

A shallow embedding of `src/RParserProject.cpp`.

* `String` / `Path` of the source are byte strings; here they are `List Char`.
* `Set<T>` (a `std::set`) is a strictly increasing list, `Map<String, V>`
  (a `std::map`) is a list of pairs with strictly increasing keys.  The
  operations are written so that they keep these shapes; they are total on
  every list, and theorems that need the shape say so (`SetWF`, `MapWF`).
* The language front-end (documents, symbols, the symbol visitor) is outside
  the file; a document is represented by what the code reads from it.
* The worker thread, `index` and the readers of the name index are a
  transition system over the critical sections that the mutex delimits
  (`Engine`).
* `findSymbol`, `references`, `processJob` and `onDocumentUpdated` take what
  they ask the front-end (`FrontEnd`) as functions; the scopes of a document
  are an ordered forest (`ScopeForest`), a scope followed by its siblings.
-/

namespace RParser

/-! ## Strings -/

/-- Byte string (`String` in the source). -/
abbrev Str := List Char

/-- File path (`Path` in the source, a `String`). -/
abbrev Path := List Char

/-- The scope separator `"::"`. -/
def sep : Str := [':', ':']

/-- A qualified name: the components joined by `"::"`
(`overview.prettyName` of a list of names). -/
def joinNames : List Str → Str
  | [] => []
  | [a] => a
  | a :: b :: rest => a ++ sep ++ joinNames (b :: rest)

/-- Source: `String::operator<`: lexicographic order, a proper prefix sorts first. -/
def strLt : Str → Str → Bool
  | [], [] => false
  | [], _ :: _ => true
  | _ :: _, [] => false
  | a :: as, b :: bs => if a < b then true else if b < a then false else strLt as bs

/-- Modelled from the spec: `String::startsWith` (rct, not under src), the
prefix test used by the prefix lookup. -/
def startsWith (s pre : Str) : Bool := pre.isPrefixOf s

/-- Modelled from the spec: `String::endsWith` (rct, not under src), the
test that `name` matches a path's tail. -/
def endsWith (s suf : Str) : Bool := suf.isSuffixOf s

/-- Source: `String::mid(from)`: the rest of the string from index `from`. -/
def mid (s : Str) (start : Nat) : Str := s.drop start

/-- Modelled from the spec: `Path::fileName` (rct, not under src), the bare
file name: what follows the last `/` of the path. -/
def Path.fileName (p : Path) : Str := (p.reverse.takeWhile (fun c => c != '/')).reverse

/-! ## Sets (`Set<String>`, `Set<Path>`) -/

/-- Source: `std::set::insert`: ordered insertion, an equal element is kept once. -/
def setInsert (x : Str) : List Str → List Str
  | [] => [x]
  | y :: ys =>
    if strLt x y then x :: y :: ys
    else if strLt y x then y :: setInsert x ys
    else y :: ys

/-- Source: `Set::operator+=` (unite): insert every element of `b` into `a`. -/
def setUnite (a b : List Str) : List Str := b.foldl (fun acc x => setInsert x acc) a

/-- Source: `Set::contains` (two strings are equivalent under `strLt` exactly when
they are equal, see `strLt_connex`). -/
def setContains (a : List Str) (x : Str) : Bool := a.contains x

/-- Source: `Set::operator-`: the elements of `a` that are not in `b`. -/
def setMinus (a b : List Str) : List Str := a.filter (fun x => !setContains b x)

/-- Source: `Set::intersects`. -/
def setIntersects (a b : List Str) : Bool := a.any (fun x => setContains b x)

/-- Source: `Set::intersected`. -/
def setIntersected (a b : List Str) : List Str := a.filter (fun x => setContains b x)

/-- Source: `List<Path>::toSet`. -/
def toSet (l : List Str) : List Str := setUnite [] l

/-- A well-formed set: strictly increasing. -/
def SetWF (a : List Str) : Prop := a.Pairwise (fun x y => strLt x y = true)

instance (a : List Str) : Decidable (SetWF a) :=
  inferInstanceAs (Decidable (a.Pairwise (fun x y => strLt x y = true)))

/-! ## Name-index entries and the name map -/

/-- Source: `RParserProject::RParserName`: the defining paths and the name spellings
of one key. -/
structure RParserName where
  paths : List Path := []
  names : List Str := []
deriving DecidableEq, Repr, Inhabited

/-- Source: `RParserName::merge`. -/
def RParserName.merge (self other : RParserName) : RParserName :=
  { paths := setUnite self.paths other.paths
    names := setUnite self.names other.names }

/-- A well-formed entry: both members are well-formed sets. -/
def RParserName.WF (e : RParserName) : Prop := SetWF e.paths ∧ SetWF e.names

instance (e : RParserName) : Decidable e.WF :=
  inferInstanceAs (Decidable (SetWF e.paths ∧ SetWF e.names))

/-- Source: `Map<String, RParserName>`: pairs in key order. -/
abbrev NameMap := List (Str × RParserName)

/-- Source: `names[k].merge(v)`: `operator[]` creates an empty entry when the key is
missing, then the entry is merged with `v`. -/
def mapMerge (k : Str) (v : RParserName) : NameMap → NameMap
  | [] => [(k, RParserName.merge {} v)]
  | (k', e) :: rest =>
    if strLt k k' then (k, RParserName.merge {} v) :: (k', e) :: rest
    else if strLt k' k then (k', e) :: mapMerge k v rest
    else (k', e.merge v) :: rest

/-- Source: `Map::find`: the entry of key `k`, if any. -/
def mapFind (k : Str) : NameMap → Option RParserName
  | [] => none
  | (k', e) :: rest => if k' = k then some e else mapFind k rest

/-- Source: `Map::lower_bound`: the entries from the first key not less than `k` on. -/
def lowerBound (k : Str) : NameMap → NameMap
  | [] => []
  | (k', e) :: rest => if strLt k' k then lowerBound k rest else (k', e) :: rest

/-- A well-formed map: keys strictly increasing. -/
def MapWF (m : NameMap) : Prop := m.Pairwise (fun x y => strLt x.1 y.1 = true)

instance (m : NameMap) : Decidable (MapWF m) :=
  inferInstanceAs (Decidable (m.Pairwise (fun (x y : Str × RParserName) => strLt x.1 y.1 = true)))

/-! ## Symbols and documents (what the code reads from the front-end) -/

/-- Source: `Project::Cursor::Kind`. -/
inductive CursorKind where
  | Invalid | Enum | MemberFunctionDeclaration | Namespace | Class | Variable | Reference | File
deriving DecidableEq, Repr, Inhabited

/-- The dynamic type of a `CPlusPlus::Symbol`, as tested by the `as...()`
casts of `symbolKind`. -/
inductive SymbolClass where
  | Enum | Function | Namespace | Template | NamespaceAlias | ForwardClassDeclaration
  | Class | UsingNamespaceDirective | UsingDeclaration | Declaration | Argument
  | TypenameArgument | BaseClass | Block | Other
deriving DecidableEq, Repr, Inhabited

/-- One scope of a symbol's `enclosingScope()` chain. -/
structure ScopeInfo where
  name : Str := []
  cls : SymbolClass := SymbolClass.Namespace
  /-- Source: `scope->identifier()`, `none` when null -/
  identifier : Option Str := none
deriving DecidableEq, Repr, Inhabited

/-- What the code reads from `symbol->type()->asFunctionType()`. -/
structure FunctionType where
  isVirtual : Bool := false
  isPureVirtual : Bool := false
deriving DecidableEq, Repr, Inhabited

/-- A `CPlusPlus::Symbol`, reduced to what the code reads from it. -/
structure Symbol where
  /-- Source: `symbol->fileName()` -/
  fileName : Path := []
  /-- Source: `LookupContext::fullyQualifiedName(symbol)`, each component through
  `overview.prettyName` -/
  fullyQualifiedName : List Str := []
  /-- Source: `overview.prettyName(symbol->name())` -/
  name : Str := []
  cls : SymbolClass := SymbolClass.Declaration
  /-- the chain of `enclosingScope()`, innermost first -/
  enclosing : List ScopeInfo := []
  line : Nat := 0
  column : Nat := 0
  /-- Source: `unit->tokenAt(sym->sourceLocation()).begin()` and `.end()` -/
  tokenBegin : Nat := 0
  tokenEnd : Nat := 0
  /-- Source: `symbol->identifier()`, `none` when null; its `size()` is the length -/
  identifier : Option Str := none
  /-- Source: `symbol->type()->asFunctionType()`, `none` when null -/
  functionType : Option FunctionType := none
deriving DecidableEq, Repr, Inhabited

/-- A `CPlusPlus::Document::Include`. -/
structure Include where
  fileName : Path := []
  line : Nat := 0
deriving DecidableEq, Repr, Inhabited

/-- Source: the token kinds that `findSymbol` tests (`prev.kind()`). -/
inductive TokenKind where
  | T_COLON_COLON | T_DOT | T_ARROW | T_DOT_STAR | T_ARROW_STAR | Other
deriving DecidableEq, Repr, Inhabited

/-- A `CPlusPlus::Token` with its start position
(`unit->getTokenStartPosition`). -/
structure Token where
  kind : TokenKind := TokenKind.Other
  /-- Source: `token.begin()` and `token.end()`, byte offsets -/
  start : Nat := 0
  stop : Nat := 0
  line : Nat := 0
  column : Nat := 0
  /-- the file of `getTokenStartPosition` -/
  file : Path := []
deriving DecidableEq, Repr, Inhabited

/-- A `CPlusPlus::Scope` as `ReallyFindScopeAt` sees it; `id` stands for the
identity of the scope object. -/
structure Scope where
  id : Nat := 0
  startOffset : Nat := 0
  endOffset : Nat := 0
deriving DecidableEq, Repr, Inhabited

/-- An ordered list of scopes, each with its member scopes (`memberAt(i)`, in
order): `node scope members next` is `scope` followed by the list `next`.
Only the members that `ReallyFindScopeAt` processes are kept (its `visit`
returns false for every other symbol). -/
inductive ScopeForest where
  | nil
  | node (scope : Scope) (members : ScopeForest) (next : ScopeForest)
deriving DecidableEq, Repr, Inhabited

/-- A `CPlusPlus::Document`: `globalNamespace` is `none` when
`doc->globalNamespace()` is null, otherwise the symbols that
`SymbolVisitor::accept(globalNamespace)` pre-visits, in visit order (the
pre-visit hook of `FindSymbols` always returns true, so every symbol is
visited). -/
structure Document where
  globalNamespace : Option (List Symbol) := none
  /-- Source: `doc->fileName()` -/
  fileName : Path := []
  /-- Source: `doc->includes()` -/
  includes : List Include := []
  /-- Source: `doc->utf8Source()` -/
  utf8Source : Str := []
  /-- the tokens of `doc->translationUnit()`, by index (`tokenAt`) -/
  tokens : List Token := []
  /-- the global namespace as a scope with its member scopes, `ScopeForest.nil`
  when `doc->globalNamespace()` is null -/
  scopes : ScopeForest := ScopeForest.nil
deriving DecidableEq, Repr, Inhabited

/-! ## FindSymbols -/

/-- Source: `FindSymbols::Mode`. -/
inductive FindMode where
  | Cursors | ListSymbols
deriving DecidableEq, Repr, Inhabited

/-- The visitor object `FindSymbols`. -/
structure FindSymbols where
  mode : FindMode
  syms : List Symbol := []
  names : NameMap := []

/-- One round of the `foreach` over `fullName` in `FindSymbols::preVisit`:
the accumulator is `(symbolName, seps)`. -/
def appendName (acc : Str × List Nat) (name : Str) : Str × List Nat :=
  let withSep : Str × List Nat :=
    if !acc.1.isEmpty then (acc.1 ++ sep, acc.2 ++ [(acc.1 ++ sep).length]) else acc
  (withSep.1 ++ name, withSep.2)

/-- The `foreach` over `fullName` in `FindSymbols::preVisit`. -/
def qualifiedName (fullName : List Str) : Str × List Nat :=
  fullName.foldl appendName ([], [])

/-- One round of the `foreach` over `seps` in `FindSymbols::preVisit`: the
accumulator is `(cur, names)`. -/
def insertSuffix (symbolName : Str) (acc : RParserName × NameMap) (s : Nat) :
    RParserName × NameMap :=
  let sub := mid symbolName s
  let cur : RParserName := { acc.1 with names := setInsert sub acc.1.names }
  (cur, mapMerge sub cur acc.2)

/-- The `ListSymbols` branch of `FindSymbols::preVisit`, on the member `names`. -/
def preVisitNames (names : NameMap) (symbol : Symbol) : NameMap :=
  let cur : RParserName := { paths := setInsert symbol.fileName [] }
  let q := qualifiedName symbol.fullyQualifiedName
  if q.1.isEmpty then names
  else
    let cur : RParserName := { cur with names := setInsert q.1 cur.names }
    let names := mapMerge q.1 cur names
    (q.2.foldl (insertSuffix q.1) (cur, names)).2

/-- Source: `FindSymbols::preVisit`. -/
def FindSymbols.preVisit (self : FindSymbols) (symbol : Symbol) : FindSymbols :=
  match self.mode with
  | FindMode.Cursors => { self with syms := self.syms ++ [symbol] }
  | FindMode.ListSymbols => { self with names := preVisitNames self.names symbol }

/-- Source: `FindSymbols::operator()`: clear, then visit. -/
def FindSymbols.call (mode : FindMode) (visited : List Symbol) : FindSymbols :=
  visited.foldl FindSymbols.preVisit { mode := mode }

/-- The keys under which `FindSymbols::preVisit` (mode `ListSymbols`) files a
symbol: its qualified name and the `mid` at every recorded separator. -/
def symbolKeys (symbol : Symbol) : List Str :=
  let q := qualifiedName symbol.fullyQualifiedName
  if q.1.isEmpty then [] else q.1 :: q.2.map (mid q.1)

/-- The loop of `nameMatch`; `rest` is what is left of `fullName`, last
component first (the order of `takeLast`). -/
def nameMatchLoop (name : Str) : List Str → Str → Bool
  | [], _ => false
  | n :: rest, full =>
    let full := n ++ (if !full.isEmpty then sep ++ full else full)
    if full = name then true else nameMatchLoop name rest full

/-- Source: `nameMatch`. -/
def nameMatch (symbol : Symbol) (name : Str) : Bool :=
  nameMatchLoop name symbol.fullyQualifiedName.reverse []

/-! ## Cursors -/

/-- Source: `Location`: file id, line, column. -/
structure Location where
  fileId : Nat := 0
  line : Nat := 0
  column : Nat := 0
deriving DecidableEq, Repr, Inhabited

/-- Modelled from the spec: `Project::Cursor` (declared in Project.h, not
under src), with the fields the code assigns; a default-constructed cursor has
null locations, kind `Invalid` and an empty name. -/
structure Cursor where
  location : Location := {}
  target : Location := {}
  kind : CursorKind := CursorKind.Invalid
  symbolName : Str := []
  start : Nat := 0
  stop : Nat := 0
deriving DecidableEq, Repr, Inhabited

/-- The file-id table and path resolution (`Location::insertFile`,
`Location::fileId`, `Path::resolved`), which live outside the file. -/
structure FileIds where
  insertFile : Path → Nat
  fileId : Path → Nat
  resolved : Path → Path
  /-- Source: `Location::path()`: the path of a file id -/
  path : Nat → Path := fun _ => []

/-- Source: `symbolKind`. -/
def symbolKind (sym : Symbol) : CursorKind :=
  match sym.cls with
  | SymbolClass.Enum => CursorKind.Enum
  | SymbolClass.Function => CursorKind.MemberFunctionDeclaration
  | SymbolClass.Namespace => CursorKind.Namespace
  | SymbolClass.ForwardClassDeclaration => CursorKind.Class
  | SymbolClass.Class => CursorKind.Class
  | SymbolClass.Declaration => CursorKind.Variable
  | SymbolClass.Argument => CursorKind.Variable
  | _ => CursorKind.Invalid

/-- Source: `QualifiedMode`. -/
inductive QualifiedMode where
  | All | Smart
deriving DecidableEq, Repr, Inhabited

/-- The `do ... while` of `rtagsQualified` after its first round: climb the
enclosing scopes while they are classes (or namespaces, in mode `All`). -/
def rtagsQualifiedLoop (mode : QualifiedMode) : List ScopeInfo → List Str → List Str
  | [], name => name
  | s :: rest, name =>
    if s.cls = SymbolClass.Class ∨ (mode = QualifiedMode.All ∧ s.cls = SymbolClass.Namespace) then
      rtagsQualifiedLoop mode rest (s.name :: name)
    else name

/-- Source: `rtagsQualified`. -/
def rtagsQualified (symbol : Symbol) (mode : QualifiedMode) : List Str :=
  let mode := if mode = QualifiedMode.Smart ∧ symbol.cls = SymbolClass.Namespace then
    QualifiedMode.All else mode
  rtagsQualifiedLoop mode symbol.enclosing [symbol.name]

/-- Source: `rtagsQualifiedName`: the components joined by `"::"`. -/
def rtagsQualifiedName (symbol : Symbol) (mode : QualifiedMode) : Str :=
  joinNames (rtagsQualified symbol mode)

/-- Source: `makeCursor`. -/
def makeCursor (ids : FileIds) (sym : Symbol) : Cursor :=
  { location := { fileId := ids.insertFile (ids.resolved sym.fileName),
                  line := sym.line, column := sym.column }
    start := sym.tokenBegin
    stop := sym.tokenEnd
    kind := symbolKind sym
    symbolName := rtagsQualifiedName sym QualifiedMode.Smart }

/-- The file cursor that `findCursors` adds for a path. -/
def fileCursor (ids : FileIds) (path : Path) : Cursor :=
  { kind := CursorKind.File
    location := { fileId := ids.fileId path, line := 1, column := 1 }
    target := { fileId := ids.fileId path, line := 1, column := 1 }
    symbolName := path }

/-- Modelled from the spec: `Set<Cursor>::insert` (the order of cursors is
declared in Project.h, not under src); the set is kept in insertion order and
a cursor equal in every field to one already in the set is not added again. -/
def cursorInsert (c : Cursor) (cs : List Cursor) : List Cursor :=
  if c ∈ cs then cs else cs ++ [c]

/-! ## The project: name index and snapshot -/

/-- The part of `RParserProject` that the index operations and the queries
use: the name index `names`, the snapshot of the model manager
(`manager->document`) and the include graph. -/
structure Project where
  names : NameMap := []
  documents : Path → Option Document := fun _ => none
  /-- Source: `headerToSource`, the include graph: included file to including
  source file -/
  headerToSource : List (Str × Str) := []

/-- Source: `RParserProject::dirtyFiles`. -/
def dirtyFiles (files : List Path) : NameMap → NameMap
  | [] => []
  | (k, e) :: rest =>
    if (setMinus e.paths files).isEmpty then dirtyFiles files rest
    else (k, e) :: dirtyFiles files rest

/-- Source: `RParserProject::mergeNames`. -/
def mergeNames (names lnames : NameMap) : NameMap :=
  lnames.foldl (fun acc kv => mapMerge kv.1 kv.2 acc) names

/-- The body of the `while` loop of `collectNames` for one file. -/
def collectFile (documents : Path → Option Document) (names : NameMap) (file : Path) :
    NameMap :=
  match documents file with
  | none => names
  | some doc =>
    let names :=
      match doc.globalNamespace with
      | some visited => mergeNames names (FindSymbols.call FindMode.ListSymbols visited).names
      | none => names
    let fileName := Path.fileName file
    let rname : RParserName := { names := setInsert fileName [], paths := setInsert file [] }
    mapMerge fileName rname names

/-- Source: `RParserProject::collectNames`. -/
def collectNames (self : Project) (files : List Path) : Project :=
  { self with names := files.foldl (collectFile self.documents) (dirtyFiles files self.names) }

/-- The `while` loop of `listSymbols`, from the iterator `name` on. -/
def listSymbolsScan (string : Str) (pass : Bool) (paths : List Path) :
    NameMap → List Str → List Str
  | [], ret => ret
  | (k, e) :: rest, ret =>
    if startsWith k string then
      listSymbolsScan string pass paths rest
        (if pass || setIntersects paths e.paths then setUnite ret e.names else ret)
    else ret

/-- Source: `RParserProject::listSymbols` (after the wait for `Idle`). -/
def listSymbols (self : Project) (string : Str) (pathFilter : List Path) : List Str :=
  let paths := toSet pathFilter
  let pass := paths.isEmpty
  listSymbolsScan string pass paths (lowerBound string self.names) []

/-- The prefix lookup as the specification words it: the union of the name sets
of all entries whose key starts with `text` and whose path set intersects the
filter (or the filter is empty). -/
def listSymbolsSpec (self : Project) (text : Str) (pathFilter : List Path) : List Str :=
  let paths := toSet pathFilter
  (self.names.filter
      (fun kv => startsWith kv.1 text && (paths.isEmpty || setIntersects paths kv.2.paths))).foldl
    (fun ret kv => setUnite ret kv.2.names) []

/-- The candidate paths of `findCursors`. -/
def findCandidates (self : Project) (string : Str) (pathFilter : List Path) : List Path :=
  let paths := toSet pathFilter
  let pass := paths.isEmpty
  match mapFind string self.names with
  | some e => if pass then setUnite [] e.paths else setUnite [] (setIntersected paths e.paths)
  | none => []

/-- The body of the candidate loop of `findCursors` for one path. -/
def findCursorsIn (ids : FileIds) (self : Project) (string : Str) (cursors : List Cursor)
    (path : Path) : List Cursor :=
  match self.documents path with
  | none => cursors
  | some doc =>
    let cursors :=
      match doc.globalNamespace with
      | some visited =>
        (FindSymbols.call FindMode.Cursors visited).syms.foldl
          (fun cs sym => if nameMatch sym string then cursorInsert (makeCursor ids sym) cs else cs)
          cursors
      | none => cursors
    if endsWith path string then cursorInsert (fileCursor ids path) cursors else cursors

/-- Source: `RParserProject::findCursors` (after the wait for `Idle`). -/
def findCursors (ids : FileIds) (self : Project) (string : Str) (pathFilter : List Path) :
    List Cursor :=
  (findCandidates self string pathFilter).foldl (findCursorsIn ids self string) []

/-- Source: `RParserProject::remove` (after the wait for `Idle`): the document is
released and dropped from the snapshot. -/
def remove (self : Project) (sourceFile : Path) : Project :=
  { self with documents := fun p => if p = sourceFile then none else self.documents p }

/-- The exact lookup of key `k` finds an entry whose path set holds `f`. -/
def HasPath (k : Str) (f : Path) (m : NameMap) : Prop :=
  ∃ e, mapFind k m = some e ∧ f ∈ e.paths

/-- The name indexes that `collectNames` builds: from the empty index, any
number of batches, each over any snapshot. -/
inductive BuiltIndex : NameMap → Prop
  | empty : BuiltIndex []
  | collect (self : Project) (files : List Path) :
      BuiltIndex self.names → BuiltIndex (collectNames self files).names

/-- Every name spelling stored in an entry ends with the entry's key. -/
def SuffixInv (m : NameMap) : Prop := ∀ kv ∈ m, ∀ n ∈ kv.2.names, kv.1 <:+ n

/-! ## A small project used to run the definitions -/

/-- A string literal as a byte string. -/
def str (s : String) : Str := s.toList

/-- The method `Outer::Inner::method`, declared in `/src/f.cpp`. -/
def exMethod : Symbol :=
  { fileName := str "/src/f.cpp"
    fullyQualifiedName := [str "Outer", str "Inner", str "method"]
    name := str "method"
    cls := SymbolClass.Function
    enclosing := [{ name := str "Inner", cls := SymbolClass.Class },
                  { name := str "Outer", cls := SymbolClass.Namespace }]
    line := 3
    column := 10
    tokenBegin := 41
    tokenEnd := 47 }

/-- The global namespace of `/src/f.cpp`: a symbol without a name. -/
def exGlobal : Symbol :=
  { fileName := str "/src/f.cpp", cls := SymbolClass.Namespace }

/-- The document of `/src/f.cpp`. -/
def exDoc : Document := { globalNamespace := some [exGlobal, exMethod] }

/-- A snapshot with the one document `/src/f.cpp`. -/
def exDocuments : Path → Option Document :=
  fun p => if p = str "/src/f.cpp" then some exDoc else none

/-- A project with an empty name index over `exDocuments`. -/
def exProject : Project := { documents := exDocuments }

/-- File ids for the examples: `/src/f.cpp` is file 1. -/
def exIds : FileIds :=
  { insertFile := fun p => if p = str "/src/f.cpp" then 1 else 2
    fileId := fun p => if p = str "/src/f.cpp" then 1 else 0
    resolved := fun p => p }

/-- The entry of `foo` contributed by `/src/a.cpp`. -/
def exEntryA : RParserName := { paths := [str "/src/a.cpp"], names := [str "foo"] }

/-- The entry of `foo` contributed by `/src/b.cpp`, where it is `N::foo`. -/
def exEntryB : RParserName := { paths := [str "/src/b.cpp"], names := [str "N::foo", str "foo"] }

/-- The project `exProject` after `/src/f.cpp` has been indexed. -/
def exIndexed : Project := collectNames exProject [str "/src/f.cpp"]

/-- The function `foo` as declared in file `file`. -/
def exFoo (file : Path) : Symbol :=
  { fileName := file, fullyQualifiedName := [str "foo"], name := str "foo",
    cls := SymbolClass.Function, line := 1, column := 6 }

/-- The global namespace of file `file`. -/
def exGlobalOf (file : Path) : Symbol := { fileName := file, cls := SymbolClass.Namespace }

/-- First snapshot: `/src/a.cpp` and `/src/b.cpp` both declare `foo`. -/
def exDocumentsV1 : Path → Option Document :=
  fun p =>
    if p = str "/src/a.cpp" then
      some { globalNamespace := some [exGlobalOf (str "/src/a.cpp"), exFoo (str "/src/a.cpp")] }
    else if p = str "/src/b.cpp" then
      some { globalNamespace := some [exGlobalOf (str "/src/b.cpp"), exFoo (str "/src/b.cpp")] }
    else none

/-- Second snapshot: `/src/a.cpp` has been edited and no longer declares `foo`. -/
def exDocumentsV2 : Path → Option Document :=
  fun p =>
    if p = str "/src/a.cpp" then
      some { globalNamespace := some [exGlobalOf (str "/src/a.cpp")] }
    else if p = str "/src/b.cpp" then
      some { globalNamespace := some [exGlobalOf (str "/src/b.cpp"), exFoo (str "/src/b.cpp")] }
    else none

/-- The index after the batch `{/src/a.cpp, /src/b.cpp}` over the first snapshot. -/
def exIndexedV1 : Project :=
  collectNames { documents := exDocumentsV1 } [str "/src/a.cpp", str "/src/b.cpp"]

/-- The index after `/src/a.cpp` has been reparsed (second snapshot) and the
batch `{/src/a.cpp}` has been collected. -/
def exIndexedV2 : Project :=
  collectNames { exIndexedV1 with documents := exDocumentsV2 } [str "/src/a.cpp"]

/-! ## The worker thread and the engine state

The mutex makes every critical section atomic, so the engine is a transition
system whose states are the points at which the worker does not hold the
mutex, and whose steps are the critical sections of `run`, of `index` and of
the readers of the name index.  The set `indexed`, the progress report and
the front-end calls made outside the mutex do not touch `state` or `jobs`
and are left out. -/

/-- Source: `RParserProject::State`, in the order of the enumeration. -/
inductive State where
  | Starting | Indexing | CollectingNames | Idle
deriving DecidableEq, Repr, Inhabited

/-- The position of a state in the order `Starting < Indexing <
CollectingNames < Idle`. -/
def State.rank : State → Nat
  | State.Starting => 0
  | State.Indexing => 1
  | State.CollectingNames => 2
  | State.Idle => 3

/-- Where the worker is in `run` while it does not hold the mutex. -/
inductive WorkerPc where
  /-- before the first `QMutexLocker locker(&mutex)` -/
  | Init
  /-- at the top of the `for (;;)`, before `locker.relock()` -/
  | LoopTop
  /-- inside `jobsAvailable.wait(&mutex)` -/
  | Waiting
  /-- inside `processJob(job)`, between `unlock` and `relock` -/
  | ProcessJob (job : Path)
  /-- inside `collectNames(indexed)`, between `unlock` and `relock` -/
  | CollectNames
  /-- an `assert` on the state has failed -/
  | Aborted
deriving DecidableEq, Repr, Inhabited

/-- The shared engine data under the mutex, the worker's position, and
whether a reader of the name index (`listSymbols`, `findCursors`) holds the
mutex, having passed `waitForState(GreaterOrEqual, Idle)`. -/
structure Engine where
  state : State := State.Starting
  jobs : List Path := []
  pc : WorkerPc := WorkerPc.Init
  reader : Bool := false
deriving DecidableEq, Repr, Inhabited

/-- Source: `RParserProject::changeState`. -/
def Engine.changeState (self : Engine) (st : State) : Engine :=
  if self.state = st then self else { self with state := st }

/-- Source: `RParserProject::WaitMode`. -/
inductive WaitMode where
  | GreaterOrEqual | Equal
deriving DecidableEq, Repr, Inhabited

/-- Source: `RParserProject::waitForState`, one round of its loop: `true` when
the caller passes (`break`), `false` when it goes to sleep in `wait.wait`. -/
def Engine.waitForState (self : Engine) (m : WaitMode) (st : State) : Bool :=
  match m with
  | WaitMode.GreaterOrEqual => decide (st.rank ≤ self.state.rank)
  | WaitMode.Equal => decide (self.state = st)

/-- The critical section of `run` from `locker.relock()` at the top of the
loop (or from a wake-up in `jobsAvailable.wait`) to the next release of the
mutex: wait when the queue is empty, otherwise set `Indexing` and take the
first job. -/
def Engine.takeOrWait (self : Engine) : Engine :=
  match self.jobs with
  | [] =>
    if self.state = State.Idle then { self with pc := WorkerPc.Waiting }
    else { self with pc := WorkerPc.Aborted }
  | job :: rest =>
    { self.changeState State.Indexing with jobs := rest, pc := WorkerPc.ProcessJob job }

/-- One critical section of the worker (`RParserProject::run`). -/
def Engine.workerStep (self : Engine) : Engine :=
  match self.pc with
  | WorkerPc.Init =>
    if self.state = State.Starting ∨ self.state = State.Indexing then
      { (if self.jobs.isEmpty then self.changeState State.Idle else self) with
        pc := WorkerPc.LoopTop }
    else { self with pc := WorkerPc.Aborted }
  | WorkerPc.LoopTop => self.takeOrWait
  | WorkerPc.Waiting => self.takeOrWait
  | WorkerPc.ProcessJob _ =>
    match self.jobs with
    | job :: rest => { self with jobs := rest, pc := WorkerPc.ProcessJob job }
    | [] => { self.changeState State.CollectingNames with pc := WorkerPc.CollectNames }
  | WorkerPc.CollectNames =>
    if !self.jobs.isEmpty then { self with pc := WorkerPc.LoopTop }
    else { self.changeState State.Idle with pc := WorkerPc.LoopTop }
  | WorkerPc.Aborted => self

/-- Source: `RParserProject::index`: enqueue the job and set `Indexing`. -/
def Engine.index (self : Engine) (path : Path) : Engine :=
  { self with jobs := self.jobs ++ [path], state := State.Indexing }

/-- What can happen next. -/
inductive Event where
  /-- the worker runs its next critical section -/
  | worker
  /-- some thread calls `index` (submit) -/
  | submit (path : Path)
  /-- a `listSymbols` or `findCursors` call locks the mutex and tests its wait
  condition -/
  | readerEnter
  /-- that call returns and unlocks the mutex -/
  | readerLeave
deriving DecidableEq, Repr, Inhabited

/-- One step of the engine.  While a reader holds the mutex, the worker and
`index` block on it: their events change nothing. -/
def Engine.step (self : Engine) : Event → Engine
  | Event.worker => if self.reader then self else self.workerStep
  | Event.submit path => if self.reader then self else self.index path
  | Event.readerEnter =>
    if self.reader then self
    else if self.waitForState WaitMode.GreaterOrEqual State.Idle then { self with reader := true }
    else self
  | Event.readerLeave => { self with reader := false }

/-- The engine after a sequence of events, from the state `self`. -/
def Engine.exec (self : Engine) (events : List Event) : Engine :=
  events.foldl Engine.step self

/-- The engine as constructed: state `Starting`, no job, worker not started. -/
def Engine.init : Engine := {}

/-- The worker is inside a batch: it has set `Indexing` and has not yet
decided between `Idle` and the next batch. -/
def WorkerPc.inBatch : WorkerPc → Bool
  | WorkerPc.ProcessJob _ => true
  | WorkerPc.CollectNames => true
  | _ => false

/-- The invariant of the engine: how the state goes with the worker's
position and the queue. -/
def Engine.Inv (self : Engine) : Prop :=
  (self.reader = true → self.state = State.Idle) ∧
  match self.pc with
  | WorkerPc.Init =>
    (self.state = State.Starting ∨ self.state = State.Indexing) ∧
    (self.jobs ≠ [] → self.state = State.Indexing)
  | WorkerPc.LoopTop =>
    (self.jobs = [] → self.state = State.Idle) ∧ (self.jobs ≠ [] → self.state = State.Indexing)
  | WorkerPc.Waiting =>
    (self.jobs = [] → self.state = State.Idle) ∧ (self.jobs ≠ [] → self.state = State.Indexing)
  | WorkerPc.ProcessJob _ => self.state = State.Indexing
  | WorkerPc.CollectNames =>
    (self.jobs = [] → self.state = State.CollectingNames) ∧
    (self.jobs ≠ [] → self.state = State.Indexing)
  | WorkerPc.Aborted => False

/-! ## Finding the scope at a location (`ReallyFindScopeAt`) -/

/-- The visitor object `ReallyFindScopeAt`. -/
structure ReallyFindScopeAt where
  line : Nat
  column : Nat
  scope : Option Scope := none
  foundStart : Nat := 0
  foundEnd : Nat := 0
deriving DecidableEq, Repr, Inhabited

/-- The location of the visitor lies in the range of `scope`: at or after the
position of its start offset and before the position of its end offset (the
two position tests of `ReallyFindScopeAt::process`). -/
def ReallyFindScopeAt.covers (getPosition : Nat → Nat × Nat) (self : ReallyFindScopeAt)
    (scope : Scope) : Bool :=
  decide ((self.line > (getPosition scope.startOffset).1 ∨
      (self.line = (getPosition scope.startOffset).1 ∧
        self.column ≥ (getPosition scope.startOffset).2)) ∧
    (self.line < (getPosition scope.endOffset).1 ∨
      (self.line = (getPosition scope.endOffset).1 ∧
        self.column < (getPosition scope.endOffset).2)))

/-- Source: `ReallyFindScopeAt::process` after its loop over the members: the
position tests and the update of the scope found so far. -/
def ReallyFindScopeAt.check (getPosition : Nat → Nat × Nat) (self : ReallyFindScopeAt)
    (scope : Scope) : ReallyFindScopeAt :=
  if self.covers getPosition scope then
    if self.scope.isNone ∨
        (scope.startOffset ≥ self.foundStart ∧ scope.endOffset ≤ self.foundEnd) then
      { self with foundStart := scope.startOffset, foundEnd := scope.endOffset,
                  scope := some scope }
    else self
  else self

/-- Source: `accept` over a list of scopes: each scope is processed, that is its
members are accepted first and then the scope itself is checked
(`ReallyFindScopeAt::process`). -/
def ReallyFindScopeAt.acceptAll (getPosition : Nat → Nat × Nat) :
    ScopeForest → ReallyFindScopeAt → ReallyFindScopeAt
  | ScopeForest.nil, self => self
  | ScopeForest.node scope members next, self =>
    ReallyFindScopeAt.acceptAll getPosition next
      ((ReallyFindScopeAt.acceptAll getPosition members self).check getPosition scope)

/-- Source: `ReallyFindScopeAt::process`. -/
def ReallyFindScopeAt.process (getPosition : Nat → Nat × Nat) (self : ReallyFindScopeAt)
    (scope : Scope) (members : ScopeForest) : ReallyFindScopeAt :=
  (ReallyFindScopeAt.acceptAll getPosition members self).check getPosition scope

/-- Source: `ReallyFindScopeAt::operator()` on a fresh visitor for
`(line, column)`: accept the symbol, return the scope found. -/
def reallyFindScopeAt (getPosition : Nat → Nat × Nat) (line column : Nat)
    (symbol : ScopeForest) : Option Scope :=
  (ReallyFindScopeAt.acceptAll getPosition symbol { line := line, column := column }).scope

/-- The scopes of a forest, each before its members. -/
def ScopeForest.scopes : ScopeForest → List Scope
  | ScopeForest.nil => []
  | ScopeForest.node scope members next => scope :: (members.scopes ++ next.scopes)

/-- The top-level scopes of a forest (the siblings). -/
def ScopeForest.roots : ScopeForest → List Scope
  | ScopeForest.nil => []
  | ScopeForest.node scope _ next => scope :: next.roots

/-- The offset range of `inner` lies within that of `outer`. -/
def Scope.within (inner outer : Scope) : Prop :=
  outer.startOffset ≤ inner.startOffset ∧ inner.endOffset ≤ outer.endOffset

/-- The offset ranges of two scopes are disjoint. -/
def Scope.disjoint (a b : Scope) : Prop :=
  a.endOffset ≤ b.startOffset ∨ b.endOffset ≤ a.startOffset

/-- A well nested forest: the range of each member lies within that of its
parent, and the ranges of siblings are disjoint. -/
def ScopeForest.WellNested : ScopeForest → Prop
  | ScopeForest.nil => True
  | ScopeForest.node scope members next =>
    members.WellNested ∧ next.WellNested ∧
    (∀ c ∈ members.roots, c.within scope) ∧ (∀ d ∈ next.roots, scope.disjoint d)

/-- Positions are monotone in offsets (lexicographic order on line, column). -/
def MonotonePositions (getPosition : Nat → Nat × Nat) : Prop :=
  ∀ a b, a ≤ b →
    (getPosition a).1 < (getPosition b).1 ∨
    ((getPosition a).1 = (getPosition b).1 ∧ (getPosition a).2 ≤ (getPosition b).2)

/-! ## Maps with string keys (`Map<QString, QString>`, `Map<Path, RParserUnit*>`) -/

/-- Source: `map[k] = v` on a `std::map` with string keys: ordered insertion, the
value of an existing key is replaced. -/
def mapSet {β : Type} (k : Str) (v : β) : List (Str × β) → List (Str × β)
  | [] => [(k, v)]
  | (k', w) :: rest =>
    if strLt k k' then (k, v) :: (k', w) :: rest
    else if strLt k' k then (k', w) :: mapSet k v rest
    else (k', v) :: rest

/-- Source: `Map::find` on a map with string keys. -/
def mapGet {β : Type} (k : Str) : List (Str × β) → Option β
  | [] => none
  | (k', w) :: rest => if k' = k then some w else mapGet k rest

/-! ## The include graph (`DocumentParser::onDocumentUpdated`) -/

/-- Source: `DocumentParser::onDocumentUpdated`, the part that updates
`rparser->headerToSource`: every include of the document is mapped to the
document's file name. -/
def onDocumentUpdated (self : Project) (doc : Document) : Project :=
  if !doc.includes.isEmpty then
    { self with
      headerToSource :=
        doc.includes.foldl (fun m inc => mapSet inc.fileName doc.fileName m)
          self.headerToSource }
  else self

/-! ## Units and jobs (`processJob`, `RParserUnit::reindex`) -/

/-- Source: `SourceInformation::Build`: include paths and defines of one build. -/
structure Build where
  includePaths : List Path := []
  defines : List Str := []
deriving DecidableEq, Repr, Inhabited

/-- Source: `SourceInformation`: a source file and its build configurations. -/
structure SourceInformation where
  sourceFile : Path := []
  builds : List Build := []
deriving DecidableEq, Repr, Inhabited

/-- Source: `RParserJob`. -/
structure RParserJob where
  info : SourceInformation := {}
deriving DecidableEq, Repr, Inhabited

/-- Source: `RParserUnit`. -/
structure RParserUnit where
  info : SourceInformation := {}
deriving DecidableEq, Repr, Inhabited

/-- One round of the `while` loop of `RParserUnit::reindex`, as the front-end
sees it: the preprocessor runs on `file` with the define document of
`defines` and with the include paths `includePaths`. -/
structure PreprocessorRun where
  file : Path := []
  defines : List Str := []
  includePaths : List Path := []
deriving DecidableEq, Repr, Inhabited

/-- Source: the static `globalDefines` of `RParserUnit::reindex`. -/
def globalDefines : List Str := ["__GNUC__=4".toList]

/-- Source: `RParserUnit::reindex`: one preprocessor run per build of the unit's
own `info`; `incs` is the static list of system include paths. -/
def RParserUnit.reindex (self : RParserUnit) (incs : List Path) : List PreprocessorRun :=
  self.info.builds.map fun build =>
    { file := self.info.sourceFile
      defines := build.defines ++ globalDefines
      includePaths := build.includePaths ++ incs }

/-- Source: `RParserProject::findUnit`. -/
def findUnit (units : List (Path × RParserUnit)) (path : Path) : Option RParserUnit :=
  mapGet path units

/-- Source: `RParserProject::processJob`: the units afterwards and the
preprocessor runs made. -/
def processJob (units : List (Path × RParserUnit)) (incs : List Path) (job : RParserJob) :
    List (Path × RParserUnit) × List PreprocessorRun :=
  let fileName := job.info.sourceFile
  match findUnit units fileName with
  | some unit => (units, unit.reindex incs)
  | none =>
    let unit : RParserUnit := { info := job.info }
    (mapSet fileName unit units, unit.reindex incs)

/-! ## Resolving the symbol at a location (`findSymbol`) -/

/-- A `CPlusPlus::LookupItem`: `declaration` is `none` when
`r.declaration()` is null. -/
structure LookupItem where
  declaration : Option Symbol := none
deriving DecidableEq, Repr, Inhabited

/-- A `CPlusPlus::AST` node: its token range. -/
structure AstNode where
  firstToken : Nat := 0
  lastToken : Nat := 0
deriving DecidableEq, Repr, Inhabited

/-- A `CPlusPlus::Usage`. -/
structure Usage where
  path : Path := []
  line : Nat := 0
  col : Nat := 0
  lineText : Str := []
deriving DecidableEq, Repr, Inhabited

/-- What the code asks the language front-end while it resolves symbols and
references. -/
structure FrontEnd where
  /-- Source: `doc->lastVisibleSymbolAt(line, column)` -/
  lastVisibleSymbolAt : Document → Nat → Nat → Option Symbol := fun _ _ _ => none
  /-- Source: `unit->getPosition(offset, &line, &column)` -/
  getPosition : Document → Nat → Nat × Nat := fun _ _ => (0, 0)
  /-- Source: `ASTPath(doc)(line, column)`, outermost node first -/
  astPath : Document → Nat → Nat → List AstNode := fun _ _ _ => []
  /-- Source: `typeOfExpression(code, scope, Preprocess)`, initialised with the
  document and with the bindings of the lookup context (second document) -/
  typeOfExpression : Document → Document → Str → Option Scope → List LookupItem :=
    fun _ _ _ _ => []
  /-- Source: `finder.findMatchingDefinition(sym, snapshot, strict)` -/
  findMatchingDefinition : Symbol → Bool → Option Symbol := fun _ _ => none
  /-- Source: `finder.findMatchingDeclaration(lookup, func)`, `func` the function
  type of the symbol -/
  findMatchingDeclaration : Document → Symbol → List Symbol := fun _ _ => []
  /-- Source: `finder.findMatchingClassDeclaration(fwd, snapshot)` -/
  findMatchingClassDeclaration : Symbol → Option Symbol := fun _ => none
  /-- the documents of `manager->snapshot()`, in iteration order -/
  snapshot : List Document := []
  /-- Source: `doc->control()->findIdentifier(chars, size)` is not null -/
  findIdentifier : Document → Str → Bool := fun _ _ => false
  /-- Source: `CPlusPlus::FindUsages` run on one document: `find(symbol)`,
  `find.usages()` -/
  usagesIn : Document → Symbol → List Usage := fun _ _ => []

/-- Source: `RParserProject::FindSymbolMode`. -/
inductive FindSymbolMode where
  | Declaration | Definition | Swap
deriving DecidableEq, Repr, Inhabited

/-- Source: `makeLocation`. -/
def makeLocation (ids : FileIds) (sym : Symbol) : Location :=
  { fileId := ids.insertFile (ids.resolved sym.fileName), line := sym.line,
    column := sym.column }

/-- The test of the "found outright" branch of `findSymbol` on a candidate
whose identifier has `idSize` characters. -/
def outrightHit (candidate : Symbol) (idSize : Nat) (line column : Nat) : Bool :=
  decide (candidate.line = line ∧ candidate.column ≤ column ∧
    candidate.column + idSize ≥ column)

/-- Source: `findSymbol`, "First, try to find the symbol outright". -/
def findOutright (fe : FrontEnd) (doc : Document) (line column : Nat) : Option Symbol :=
  match fe.lastVisibleSymbolAt doc line column with
  | some candidate =>
    match candidate.identifier with
    | some id => if outrightHit candidate id.length line column then some candidate else none
    | none => none
  | none => none

/-- The first loop of `canonicalSymbol`, from the last result backwards
(`results` is given last result first): the scan for a virtual method. -/
def canonicalVirtualScan : List LookupItem → Option Symbol
  | [] => none
  | r :: rest =>
    match r.declaration with
    | none => none
    | some decl =>
      match decl.enclosing with
      | [] => none
      | classScope :: _ =>
        if classScope.cls = SymbolClass.Class then
          if classScope.identifier.isSome ∧ classScope.identifier = decl.identifier then
            canonicalVirtualScan rest
          else
            match decl.functionType with
            | some funTy => if funTy.isVirtual then some decl else canonicalVirtualScan rest
            | none => canonicalVirtualScan rest
        else canonicalVirtualScan rest

/-- The second loop of `canonicalSymbol`. -/
def canonicalFirst : List LookupItem → Option Symbol
  | [] => none
  | r :: rest =>
    match r.declaration with
    | some decl => some decl
    | none => canonicalFirst rest

/-- Source: `canonicalSymbol`, on the results of `typeOfExpression`. -/
def canonicalSymbolOf (results : List LookupItem) : Option Symbol :=
  match canonicalVirtualScan results.reverse with
  | some decl => some decl
  | none => canonicalFirst results

/-- Source: `canonicalSymbol`. -/
def canonicalSymbol (fe : FrontEnd) (doc lookupDoc : Document) (scope : Option Scope)
    (code : Str) : Option Symbol :=
  canonicalSymbolOf (fe.typeOfExpression doc lookupDoc code scope)

/-- Source: `findSymbol`, the two calls of `findMatchingDefinition`: strict
first, then relaxed. -/
def matchingDefinition (fe : FrontEnd) (sym : Symbol) : Option Symbol :=
  match fe.findMatchingDefinition sym true with
  | some definition => some definition
  | none => fe.findMatchingDefinition sym false

/-- Source: `findSymbol`, the substitution step after a symbol has been found:
declaration and definition of a function are exchanged according to `mode`, a
forward class declaration is replaced by its class. Symbols are compared as
records (the source compares pointers). -/
def select (fe : FrontEnd) (lookupDoc : Document) (sym : Symbol) (mode : FindSymbolMode) :
    Symbol :=
  match sym.functionType with
  | some _ =>
    match matchingDefinition fe sym with
    | some definition =>
      if sym ≠ definition then
        if mode = FindSymbolMode.Definition ∨ mode = FindSymbolMode.Swap then definition
        else sym
      else if mode ≠ FindSymbolMode.Definition then
        match fe.findMatchingDeclaration lookupDoc sym with
        | first :: _ => first
        | [] => sym
      else sym
    | none => sym
  | none =>
    if sym.cls = SymbolClass.ForwardClassDeclaration then
      match fe.findMatchingClassDeclaration sym with
      | some cls => cls
      | none => sym
    else sym

/-- Source: `findSymbol`, the backward scan for `endIndex`: `n` is
`endIndex + 1`, the result is the index at which the scan stops, `-1` when it
runs below zero. -/
def scanEndIndex (tokens : List Token) (line column : Nat) : Nat → Int
  | 0 => -1
  | n + 1 =>
    let t := tokens.getD n {}
    if t.line < line ∨ (t.line = line ∧ t.column ≤ column) then (n : Int)
    else scanEndIndex tokens line column n

/-- The token before `startIndex` is an accessor token (`::`, `.`, `->`, `.*`,
`->*`). -/
def isAccessor (kind : TokenKind) : Bool :=
  match kind with
  | TokenKind.T_COLON_COLON => true
  | TokenKind.T_DOT => true
  | TokenKind.T_ARROW => true
  | TokenKind.T_DOT_STAR => true
  | TokenKind.T_ARROW_STAR => true
  | TokenKind.Other => false

/-- What `findSymbol` comes to. -/
inductive FindResult where
  /-- `assert(startIndex <= endIndex && endIndex >= 0)` failed -/
  | assertFailed
  /-- `return 0` -/
  | notFound
  /-- the symbol returned and the location written to `loc` -/
  | found (sym : Symbol) (loc : Location)
deriving DecidableEq, Repr, Inhabited

/-- Source: `findSymbol`, the loop over the AST path ("See if we can parse it");
`asts` is given innermost node first, the order of `takeLast`. -/
def findByExpression (ids : FileIds) (fe : FrontEnd) (doc lookupDoc : Document)
    (scope : Option Scope) (line column : Nat) : List AstNode → FindResult
  | [] => FindResult.notFound
  | ast :: rest =>
    let startIndex := ast.firstToken
    let endIndex := scanEndIndex doc.tokens line column ast.lastToken
    if ¬ ((startIndex : Int) ≤ endIndex ∧ 0 ≤ endIndex) then FindResult.assertFailed
    else if startIndex > 0 ∧ isAccessor (doc.tokens.getD (startIndex - 1) {}).kind then
      findByExpression ids fe doc lookupDoc scope line column rest
    else
      let start := doc.tokens.getD startIndex {}
      let last := doc.tokens.getD endIndex.toNat {}
      let expression := (doc.utf8Source.drop start.start).take (last.stop - start.start)
      match canonicalSymbol fe doc lookupDoc scope expression with
      | some sym =>
        FindResult.found sym
          { fileId := ids.fileId (ids.resolved start.file), line := start.line,
            column := start.column }
      | none => findByExpression ids fe doc lookupDoc scope line column rest

/-- The global namespace of a document as a scope, `none` when it is null. -/
def globalScope : ScopeForest → Option Scope
  | ScopeForest.nil => none
  | ScopeForest.node scope _ _ => some scope

/-- Source: `RParserProject::findSymbol`; `lookupDoc` is the document of the
lookup context, `src` is `doc->utf8Source()`. -/
def findSymbol (ids : FileIds) (fe : FrontEnd) (doc : Document) (srcLoc : Location)
    (mode : FindSymbolMode) (lookupDoc : Document) : FindResult :=
  let line := srcLoc.line
  let column := srcLoc.column
  let first : FindResult :=
    match findOutright fe doc line column with
    | some sym => FindResult.found sym (makeLocation ids sym)
    | none =>
      let scope :=
        match reallyFindScopeAt (fe.getPosition doc) line column doc.scopes with
        | some scope => some scope
        | none => globalScope doc.scopes
      findByExpression ids fe doc lookupDoc scope line column (fe.astPath doc line column).reverse
  match first with
  | FindResult.found sym loc => FindResult.found (select fe lookupDoc sym mode) loc
  | other => other

/-! ## References (`findUsages`, `RParserProject::references`) -/

/-- Source: `findUsages`: the usages of the symbol in every document of the
snapshot that knows the symbol's identifier. -/
def findUsages (fe : FrontEnd) (symbol : Symbol) : List Usage :=
  match symbol.identifier with
  | none => []
  | some symbolId =>
    fe.snapshot.foldl
      (fun usages doc =>
        if fe.findIdentifier doc symbolId then usages ++ fe.usagesIn doc symbol else usages)
      []

/-- The query flags that `references` reads (`QueryMessage::NoContext`,
`FindVirtuals`, `AllReferences`). -/
structure QueryFlags where
  noContext : Bool := false
  findVirtuals : Bool := false
  allReferences : Bool := false
deriving DecidableEq, Repr, Inhabited

/-- A line written to the connection: a usage line (`path:line:col`, with the
kind and the source line text when context is wanted) or a plain text line. -/
inductive OutLine where
  | usage (path : Path) (line column : Nat) (context : Option (CursorKind × Str))
  | text (s : Str)
deriving DecidableEq, Repr, Inhabited

/-- The sentinel line that ends the output of `references`: one backquote. -/
def sentinel : OutLine := OutLine.text [Char.ofNat 96]

/-- The symbol on which a usage sits: the last visible symbol at
`(usage.line, usage.col + 1)` of the usage's document, when the document
exists and the symbol starts exactly at that position. -/
def usageHit (fe : FrontEnd) (self : Project) (usage : Usage) : Option Symbol :=
  match self.documents usage.path with
  | some doc =>
    match fe.lastVisibleSymbolAt doc usage.line (usage.col + 1) with
    | some refsym =>
      if refsym.line = usage.line ∧ refsym.column = usage.col + 1 then some refsym else none
    | none => none
  | none => none

/-- Source: `references`, the body of the loop over the usages after the path
filter: the kind with which the usage is written, `none` when the loop goes
on to the next usage (`continue`). -/
def referenceKind (fe : FrontEnd) (self : Project) (wantVirtuals wantAll : Bool)
    (usage : Usage) : Option CursorKind :=
  let kind : Option CursorKind :=
    match self.documents usage.path with
    | some doc =>
      match fe.lastVisibleSymbolAt doc usage.line (usage.col + 1) with
      | some refsym =>
        if refsym.line = usage.line ∧ refsym.column = usage.col + 1 then
          if wantVirtuals ∧ ¬ wantAll then
            match refsym.functionType with
            | some funTy =>
              if funTy.isVirtual ∨ funTy.isPureVirtual then
                some CursorKind.MemberFunctionDeclaration
              else none
            | none => none
          else if wantAll then some (symbolKind refsym)
          else none
        else some CursorKind.Reference
      | none => some CursorKind.Reference
    | none => some CursorKind.Reference
  match kind with
  | some k => if k = CursorKind.Reference ∧ (wantVirtuals ∧ ¬ wantAll) then none else some k
  | none => none

/-- Source: `references`, the two `conn->write` calls of the loop: the line
written for a usage of kind `kind`. -/
def usageLine (flags : QueryFlags) (usage : Usage) (kind : CursorKind) : OutLine :=
  if !flags.noContext then
    OutLine.usage usage.path usage.line (usage.col + 1) (some (kind, usage.lineText))
  else OutLine.usage usage.path usage.line (usage.col + 1) none

/-- Source: `references`, one round of the loop over the usages: the line
written for the usage, if any. -/
def referenceLine (fe : FrontEnd) (self : Project) (flags : QueryFlags) (paths : List Path)
    (usage : Usage) : Option OutLine :=
  let pass := paths.isEmpty
  if !pass && !setContains paths usage.path then none
  else
    match referenceKind fe self flags.findVirtuals flags.allReferences usage with
    | some kind => some (usageLine flags usage kind)
    | none => none

/-- Source: `RParserProject::references` (after the wait for `CollectingNames`):
the lines written to the connection. -/
def references (ids : FileIds) (fe : FrontEnd) (self : Project) (location : Location)
    (flags : QueryFlags) (pathFilters : List Path) : List OutLine :=
  match self.documents (ids.path location.fileId) with
  | none => []
  | some doc =>
    let altDoc : Option Document :=
      match mapGet (ids.path location.fileId) self.headerToSource with
      | some src => self.documents src
      | none => none
    let lookupDoc := altDoc.getD doc
    match findSymbol ids fe doc location FindSymbolMode.Declaration lookupDoc with
    | FindResult.found sym _ =>
      let usages := findUsages fe sym
      let paths := toSet pathFilters
      usages.filterMap (referenceLine fe self flags paths) ++ [sentinel]
    | _ => []

/-! ## Inputs used to run the queries -/

/-- The declaration `void Foo::bar();` in `/src/foo.h`. -/
def exDecl : Symbol :=
  { fileName := str "/src/foo.h", fullyQualifiedName := [str "Foo", str "bar"],
    name := str "bar", cls := SymbolClass.Declaration,
    enclosing := [{ name := str "Foo", cls := SymbolClass.Class, identifier := some (str "Foo") }],
    line := 3, column := 10, identifier := some (str "bar"), functionType := some {} }

/-- The definition `void Foo::bar() {}` in `/src/foo.cpp`. -/
def exDefn : Symbol :=
  { fileName := str "/src/foo.cpp", fullyQualifiedName := [str "Foo", str "bar"],
    name := str "bar", cls := SymbolClass.Function,
    line := 7, column := 11, identifier := some (str "bar"), functionType := some {} }

/-- A front-end that knows `exDefn` as the definition of `exDecl` and of
itself, and `exDecl` as the declaration of `exDefn`; the last visible symbol
on line 3 of any document is `exDecl`. -/
def exFrontEnd : FrontEnd :=
  { findMatchingDefinition := fun sym strict =>
      if strict then none else if sym = exDecl ∨ sym = exDefn then some exDefn else none
    findMatchingDeclaration := fun _ sym => if sym = exDefn then [exDecl] else []
    lastVisibleSymbolAt := fun _ line _ => if line = 3 then some exDecl else none }

/-- A project whose snapshot holds the one document `/src/foo.h`, which has
no global namespace. -/
def exFooProject : Project :=
  { documents := fun p =>
      if p = str "/src/foo.h" then some { fileName := str "/src/foo.h" } else none }

/-- The usage of `bar` at line 3, column 10 of `/src/foo.h` (columns of usages
count from 0). -/
def exUsage : Usage :=
  { path := str "/src/foo.h", line := 3, col := 9, lineText := str "  void bar();" }

/-- File ids for `exFooProject`: `/src/foo.h` is file 1, `/src/gone.cpp`,
which has no document, is file 2. -/
def exFooIds : FileIds :=
  { insertFile := fun p => if p = str "/src/foo.h" then 1 else 2
    fileId := fun p => if p = str "/src/foo.h" then 1 else 2
    resolved := fun p => p
    path := fun n => if n = 1 then str "/src/foo.h" else str "/src/gone.cpp" }

/-- The unit of `/src/a.cpp` with the one build `-DOLD -I/old`. -/
def exUnitOld : RParserUnit :=
  { info := { sourceFile := str "/src/a.cpp"
              builds := [{ includePaths := [str "/old"], defines := [str "OLD"] }] } }

/-- A job for `/src/a.cpp` with the one build `-DNEW -I/new`. -/
def exJobNew : RParserJob :=
  { info := { sourceFile := str "/src/a.cpp"
              builds := [{ includePaths := [str "/new"], defines := [str "NEW"] }] } }

/-- The document `/src/a.cpp`, which includes `/src/h.h`. -/
def exDocA : Document :=
  { fileName := str "/src/a.cpp", includes := [{ fileName := str "/src/h.h", line := 1 }] }

/-- The document `/src/b.cpp`, which includes `/src/h.h` too. -/
def exDocB : Document :=
  { fileName := str "/src/b.cpp", includes := [{ fileName := str "/src/h.h", line := 2 }] }

/-- Positions for the examples: everything on line 1, the column is the
offset plus one. -/
def exGetPosition : Nat → Nat × Nat := fun offset => (1, offset + 1)

/-- A global namespace (scope 0, offsets 0 to 50) with the namespace scope 1
(offsets 10 to 40), whose only member is the scope 2 with the same range, whose
member is the block scope 3 (offsets 30 to 35). -/
def exScopes : ScopeForest :=
  ScopeForest.node { id := 0, startOffset := 0, endOffset := 50 }
    (ScopeForest.node { id := 1, startOffset := 10, endOffset := 40 }
      (ScopeForest.node { id := 2, startOffset := 10, endOffset := 40 }
        (ScopeForest.node { id := 3, startOffset := 30, endOffset := 35 }
          ScopeForest.nil ScopeForest.nil)
        ScopeForest.nil)
      ScopeForest.nil)
    ScopeForest.nil

/-- A declaration without an enclosing scope. -/
def exOrphan : Symbol :=
  { fileName := str "/src/foo.h", name := str "x", line := 1, column := 5,
    identifier := some (str "x") }

/-- Lookup results: first `exOrphan`, then `exDecl`. -/
def exResults : List LookupItem :=
  [{ declaration := some exOrphan }, { declaration := some exDecl }]

/-! ## Index keys and name suffixes -/

/-- The non-empty right-suffixes of a list, longest first. -/
def suffixes {α : Type} : List α → List (List α)
  | [] => []
  | a :: as => (a :: as) :: suffixes as

/-- What the `foreach` of `FindSymbols::preVisit` appends to a non-empty
`symbolName` for the components `rest`: each after a separator. -/
def tailJoin : List Str → Str
  | [] => []
  | c :: cs => sep ++ c ++ tailJoin cs

/-- The separator positions that the `foreach` of `FindSymbols::preVisit`
records for the components `rest` when `symbolName` has `n` characters. -/
def sepsFrom (n : Nat) : List Str → List Nat
  | [] => []
  | c :: cs => (n + 2) :: sepsFrom (n + 2 + c.length) cs

/-! ## The end-token scan of `findSymbol` -/

/-- The token starts at or before `(line, column)`: the test that ends the
backward scan for `endIndex`. -/
def Token.startsAtOrBefore (t : Token) (line column : Nat) : Prop :=
  t.line < line ∨ (t.line = line ∧ t.column ≤ column)

instance (t : Token) (line column : Nat) : Decidable (t.startsAtOrBefore line column) :=
  inferInstanceAs (Decidable (t.line < line ∨ (t.line = line ∧ t.column ≤ column)))

/-- Token start positions do not decrease with the token index. -/
def MonotoneTokens (tokens : List Token) : Prop :=
  ∀ j, j < tokens.length → ∀ i, i ≤ j →
    (tokens.getD i {}).line < (tokens.getD j {}).line ∨
    ((tokens.getD i {}).line = (tokens.getD j {}).line ∧
      (tokens.getD i {}).column ≤ (tokens.getD j {}).column)

instance (tokens : List Token) : Decidable (MonotoneTokens tokens) :=
  inferInstanceAs (Decidable (∀ j, j < tokens.length → ∀ i, i ≤ j →
    (tokens.getD i {}).line < (tokens.getD j {}).line ∨
    ((tokens.getD i {}).line = (tokens.getD j {}).line ∧
      (tokens.getD i {}).column ≤ (tokens.getD j {}).column)))

/-! ## The define documents (`RParserUnit::defineDocument`) -/

/-- A document made by `snapshot.preprocessedDocument(source, name)`: the
source it was preprocessed from and its name. -/
structure DefineDocument where
  source : Str := []
  name : Str := []
deriving DecidableEq, Repr, Inhabited

/-- Source: `defineDocument`, the line generated for one define: `#define NAME`
when the define has no `=`, otherwise `#define NAME VALUE`, split at the first
`=`. -/
def defineLine (d : Str) : Str :=
  match d.dropWhile (fun c => c != '=') with
  | [] => "#define ".toList ++ d
  | _ :: value => "#define ".toList ++ d.takeWhile (fun c => c != '=') ++ [' '] ++ value

/-- Source: `defineDocument`, the source `defsrc` generated from the defines:
one line per define, each followed by a newline. -/
def defineSource (defines : List Str) : Str :=
  defines.foldl (fun defsrc d => defsrc ++ defineLine d ++ ['\n']) []

/-- Source: `defines.join(QLatin1String(":"))`, the key of the cache
`defineDocs`. -/
def defineKey (defines : List Str) : Str := List.intercalate [':'] defines

/-- Source: `RParserUnit::defineDocument`: the cache `defineDocs` afterwards and
the document returned. -/
def defineDocument (defineDocs : List (Str × DefineDocument)) (name : Str)
    (defines : List Str) : List (Str × DefineDocument) × DefineDocument :=
  match mapGet (defineKey defines) defineDocs with
  | some doc => (defineDocs, doc)
  | none =>
    let doc : DefineDocument :=
      { source := defineSource defines
        name := "<rparserdefines_".toList ++ name ++ ">".toList }
    (mapSet (defineKey defines) doc defineDocs, doc)

/-- The cache after a sequence of `defineDocument` calls, each given by its
`name` and its defines. -/
def defineCalls (defineDocs : List (Str × DefineDocument)) (calls : List (Str × List Str)) :
    List (Str × DefineDocument) :=
  calls.foldl (fun cache call => (defineDocument cache call.1 call.2).1) defineDocs

/-! ## Tokens used to run the end-token scan -/

/-- The tokens of `x = obj.method(1);` on line 3, then `return` on line 4. -/
def exTokens : List Token :=
  [ { start := 20, stop := 21, line := 3, column := 5 },
    { start := 22, stop := 23, line := 3, column := 7 },
    { start := 24, stop := 27, line := 3, column := 9 },
    { kind := TokenKind.T_DOT, start := 27, stop := 28, line := 3, column := 12 },
    { start := 28, stop := 34, line := 3, column := 13 },
    { start := 34, stop := 35, line := 3, column := 19 },
    { start := 35, stop := 36, line := 3, column := 20 },
    { start := 36, stop := 37, line := 3, column := 21 },
    { start := 37, stop := 38, line := 3, column := 22 },
    { start := 43, stop := 49, line := 4, column := 5 } ]

/-- The AST path at `(3, 10)`, innermost node first: `obj`, `obj.method(1)`,
the expression statement and the enclosing block up to `return`. -/
def exAsts : List AstNode :=
  [ { firstToken := 2, lastToken := 3 },
    { firstToken := 2, lastToken := 8 },
    { firstToken := 0, lastToken := 9 },
    { firstToken := 0, lastToken := 10 } ]

/-! ## Define lists used to run `defineDocument` -/

/-- The defines of `-DA=1:B -D__GNUC__=4`. -/
def exDefinesA : List Str := [str "A=1:B", str "__GNUC__=4"]

/-- The defines of `-DA=1 -DB -D__GNUC__=4`. -/
def exDefinesB : List Str := [str "A=1", str "B", str "__GNUC__=4"]

/-! ## The string order -/

theorem strLt_irrefl (a : Str) : strLt a a = false := by
  induction a with
  | nil => rfl
  | cons c cs ih => simp [strLt, ih]

theorem strLt_trans {a b c : Str} (hab : strLt a b = true) (hbc : strLt b c = true) :
    strLt a c = true := by
  induction a generalizing b c with
  | nil =>
    cases b with
    | nil => simp [strLt] at hab
    | cons y ys =>
      cases c with
      | nil => simp [strLt] at hbc
      | cons z zs => rfl
  | cons x xs ih =>
    cases b with
    | nil => simp [strLt] at hab
    | cons y ys =>
      cases c with
      | nil => simp [strLt] at hbc
      | cons z zs =>
        simp only [strLt] at hab hbc ⊢
        by_cases hxy : x < y
        · by_cases hyz : y < z
          · simp [lt_trans hxy hyz]
          · by_cases hzy : z < y
            · simp [hyz, hzy] at hbc
            · have hyz' : y = z := le_antisymm (not_lt.mp hzy) (not_lt.mp hyz)
              subst hyz'
              simp [hxy]
        · by_cases hyx : y < x
          · simp [hxy, hyx] at hab
          · have hxy' : x = y := le_antisymm (not_lt.mp hyx) (not_lt.mp hxy)
            subst hxy'
            simp only [hxy, if_false] at hab
            by_cases hxz : x < z
            · simp [hxz]
            · by_cases hzx : z < x
              · simp [hxz, hzx] at hbc
              · simp only [hxz, hzx, if_false] at hbc ⊢
                exact ih hab hbc

theorem strLt_asymm {a b : Str} (hab : strLt a b = true) : strLt b a = false := by
  cases h : strLt b a with
  | false => rfl
  | true =>
    have := strLt_trans hab h
    rw [strLt_irrefl] at this
    exact absurd this (by decide)

/-- Two strings of which neither is less than the other are equal. -/
theorem strLt_connex {a b : Str} (hab : strLt a b = false) (hba : strLt b a = false) :
    a = b := by
  induction a generalizing b with
  | nil =>
    cases b with
    | nil => rfl
    | cons y ys => simp [strLt] at hab
  | cons x xs ih =>
    cases b with
    | nil => simp [strLt] at hba
    | cons y ys =>
      simp only [strLt] at hab hba
      by_cases hxy : x < y
      · simp [hxy] at hab
      · by_cases hyx : y < x
        · simp [hyx] at hba
        · have hxy' : x = y := le_antisymm (not_lt.mp hyx) (not_lt.mp hxy)
          subst hxy'
          simp only [hxy, if_false] at hab hba
          rw [ih hab hba]

theorem strLt_ne {a b : Str} (hab : strLt a b = true) : a ≠ b := by
  intro h
  subst h
  rw [strLt_irrefl] at hab
  exact absurd hab (by decide)

/-! ## Sets -/

theorem mem_setInsert {x z : Str} {l : List Str} : z ∈ setInsert x l ↔ z = x ∨ z ∈ l := by
  induction l with
  | nil => simp [setInsert]
  | cons y ys ih =>
    simp only [setInsert]
    by_cases h1 : strLt x y = true
    · simp [h1]
    · by_cases h2 : strLt y x = true
      · rw [if_neg h1, if_pos h2]
        simp only [List.mem_cons, ih]
        tauto
      · have hxy : x = y := strLt_connex (by simpa using h1) (by simpa using h2)
        subst hxy
        rw [if_neg h1, if_neg h2]
        simp

theorem mem_setUnite {z : Str} {a b : List Str} : z ∈ setUnite a b ↔ z ∈ a ∨ z ∈ b := by
  unfold setUnite
  induction b generalizing a with
  | nil => simp
  | cons y ys ih =>
    simp only [List.foldl_cons, ih, mem_setInsert, List.mem_cons]
    tauto

theorem mem_toSet {z : Str} {l : List Str} : z ∈ toSet l ↔ z ∈ l := by
  simp [toSet, mem_setUnite]

theorem setContains_iff {a : List Str} {x : Str} : setContains a x = true ↔ x ∈ a := by
  simp [setContains]

theorem mem_setMinus {z : Str} {a b : List Str} : z ∈ setMinus a b ↔ z ∈ a ∧ z ∉ b := by
  simp [setMinus, setContains]

theorem mem_setIntersected {z : Str} {a b : List Str} :
    z ∈ setIntersected a b ↔ z ∈ a ∧ z ∈ b := by
  simp [setIntersected, setContains]

theorem setIntersects_iff {a b : List Str} :
    setIntersects a b = true ↔ ∃ z, z ∈ a ∧ z ∈ b := by
  simp [setIntersects, setContains]

theorem setWF_nil : SetWF [] := List.Pairwise.nil

theorem setWF_setInsert {x : Str} {l : List Str} (h : SetWF l) : SetWF (setInsert x l) := by
  induction l with
  | nil => simp [setInsert, SetWF]
  | cons y ys ih =>
    have hy : ∀ z ∈ ys, strLt y z = true := (List.pairwise_cons.mp h).1
    have hys : SetWF ys := (List.pairwise_cons.mp h).2
    simp only [setInsert]
    by_cases h1 : strLt x y = true
    · simp only [h1, if_true]
      refine List.pairwise_cons.mpr ⟨?_, h⟩
      intro z hz
      rcases List.mem_cons.mp hz with rfl | hz
      · exact h1
      · exact strLt_trans h1 (hy z hz)
    · by_cases h2 : strLt y x = true
      · rw [if_neg h1, if_pos h2]
        refine List.pairwise_cons.mpr ⟨?_, ih hys⟩
        intro z hz
        rcases mem_setInsert.mp hz with rfl | hz
        · exact h2
        · exact hy z hz
      · rw [if_neg h1, if_neg h2]
        exact h

theorem setWF_setUnite {a b : List Str} (h : SetWF a) : SetWF (setUnite a b) := by
  unfold setUnite
  induction b generalizing a with
  | nil => simpa using h
  | cons y ys ih => exact ih (setWF_setInsert h)

/-- Inserting an element that a well-formed set already holds changes nothing. -/
theorem setInsert_of_mem {x : Str} {l : List Str} (h : SetWF l) (hx : x ∈ l) :
    setInsert x l = l := by
  induction l with
  | nil => simp at hx
  | cons y ys ih =>
    have hy : ∀ z ∈ ys, strLt y z = true := (List.pairwise_cons.mp h).1
    have hys : SetWF ys := (List.pairwise_cons.mp h).2
    simp only [setInsert]
    rcases List.mem_cons.mp hx with rfl | hx
    · simp [strLt_irrefl]
    · have h1 : strLt y x = true := hy x hx
      simp [h1, strLt_asymm h1, ih hys hx]

/-- Uniting a well-formed set with elements it already holds changes nothing. -/
theorem setUnite_of_subset {a b : List Str} (h : SetWF a) (hb : ∀ x ∈ b, x ∈ a) :
    setUnite a b = a := by
  unfold setUnite
  induction b with
  | nil => rfl
  | cons y ys ih =>
    simp only [List.foldl_cons]
    rw [setInsert_of_mem h (hb y (List.mem_cons_self _ _))]
    exact ih (fun x hx => hb x (List.mem_cons_of_mem _ hx))

/-! ## The name map -/

theorem mapWF_nil : MapWF [] := List.Pairwise.nil

theorem mem_of_mapFind {k : Str} {e : RParserName} {m : NameMap} (h : mapFind k m = some e) :
    (k, e) ∈ m := by
  induction m with
  | nil => simp [mapFind] at h
  | cons kv rest ih =>
    obtain ⟨k0, e0⟩ := kv
    simp only [mapFind] at h
    by_cases hk : k0 = k
    · rw [if_pos hk] at h
      cases h
      subst hk
      exact List.mem_cons_self _ _
    · rw [if_neg hk] at h
      exact List.mem_cons_of_mem _ (ih h)

theorem mapFind_of_mem {k : Str} {e : RParserName} {m : NameMap} (hwf : MapWF m)
    (h : (k, e) ∈ m) : mapFind k m = some e := by
  induction m with
  | nil => simp at h
  | cons kv rest ih =>
    obtain ⟨k0, e0⟩ := kv
    have h0 := (List.pairwise_cons.mp hwf).1
    simp only [mapFind]
    rcases List.mem_cons.mp h with heq | hmem
    · cases heq
      simp
    · have hlt : strLt k0 k = true := h0 (k, e) hmem
      rw [if_neg (strLt_ne hlt)]
      exact ih (List.pairwise_cons.mp hwf).2 hmem

theorem mapFind_none_of_lt {k k0 : Str} {e0 : RParserName} {rest : NameMap}
    (hwf : MapWF ((k0, e0) :: rest)) (hlt : strLt k k0 = true) :
    mapFind k ((k0, e0) :: rest) = none := by
  cases h : mapFind k ((k0, e0) :: rest) with
  | none => rfl
  | some e =>
    exfalso
    rcases List.mem_cons.mp (mem_of_mapFind h) with heq | hmem
    · cases heq
      rw [strLt_irrefl] at hlt
      exact absurd hlt (by decide)
    · have h1 : strLt k0 k = true := (List.pairwise_cons.mp hwf).1 (k, e) hmem
      rw [strLt_asymm h1] at hlt
      exact absurd hlt (by decide)

theorem keys_mapMerge {k k1 : Str} {v : RParserName} {m : NameMap} :
    k1 ∈ (mapMerge k v m).map Prod.fst ↔ k1 = k ∨ k1 ∈ m.map Prod.fst := by
  induction m with
  | nil => simp [mapMerge]
  | cons kv rest ih =>
    obtain ⟨k0, e0⟩ := kv
    simp only [mapMerge]
    by_cases h1 : strLt k k0 = true
    · rw [if_pos h1]
      simp
    · by_cases h2 : strLt k0 k = true
      · rw [if_neg h1, if_pos h2]
        simp only [List.map_cons, List.mem_cons, ih]
        tauto
      · have hk : k = k0 := strLt_connex (by simpa using h1) (by simpa using h2)
        subst hk
        rw [if_neg h1, if_neg h2]
        simp

theorem mapWF_mapMerge {k : Str} {v : RParserName} {m : NameMap} (hwf : MapWF m) :
    MapWF (mapMerge k v m) := by
  induction m with
  | nil => simp [mapMerge, MapWF]
  | cons kv rest ih =>
    obtain ⟨k0, e0⟩ := kv
    have h0 := (List.pairwise_cons.mp hwf).1
    have hrest : MapWF rest := (List.pairwise_cons.mp hwf).2
    simp only [mapMerge]
    by_cases h1 : strLt k k0 = true
    · rw [if_pos h1]
      refine List.pairwise_cons.mpr ⟨?_, hwf⟩
      intro kv hkv
      rcases List.mem_cons.mp hkv with rfl | hkv
      · exact h1
      · exact strLt_trans h1 (h0 kv hkv)
    · by_cases h2 : strLt k0 k = true
      · rw [if_neg h1, if_pos h2]
        refine List.pairwise_cons.mpr ⟨?_, ih hrest⟩
        intro kv hkv
        have hk : kv.1 ∈ (mapMerge k v rest).map Prod.fst := List.mem_map_of_mem _ hkv
        rcases keys_mapMerge.mp hk with hk | hk
        · rw [hk]
          exact h2
        · obtain ⟨kv', hkv', heq⟩ := List.mem_map.mp hk
          rw [← heq]
          exact h0 kv' hkv'
      · rw [if_neg h1, if_neg h2]
        exact List.pairwise_cons.mpr ⟨h0, hrest⟩

/-- What `Map::find` sees after `names[k].merge(v)` on a well-formed map. -/
theorem mapFind_mapMerge {k k1 : Str} {v : RParserName} {m : NameMap} (hwf : MapWF m) :
    mapFind k1 (mapMerge k v m) =
      if k1 = k then some (((mapFind k m).getD {}).merge v) else mapFind k1 m := by
  induction m with
  | nil =>
    by_cases hk : k1 = k
    · subst hk
      simp [mapMerge, mapFind]
    · have hk' : ¬ k = k1 := fun h => hk h.symm
      simp [mapMerge, mapFind, hk, hk']
  | cons kv rest ih =>
    obtain ⟨k0, e0⟩ := kv
    have hrest : MapWF rest := (List.pairwise_cons.mp hwf).2
    simp only [mapMerge]
    by_cases h1 : strLt k k0 = true
    · rw [if_pos h1]
      by_cases hk : k1 = k
      · subst hk
        rw [mapFind_none_of_lt hwf h1]
        simp [mapFind]
      · have hk' : ¬ k = k1 := fun h => hk h.symm
        rw [if_neg hk]
        conv_lhs => rw [mapFind]
        rw [if_neg hk']
    · by_cases h2 : strLt k0 k = true
      · rw [if_neg h1, if_pos h2]
        have hne : k0 ≠ k := strLt_ne h2
        by_cases hk : k1 = k
        · subst hk
          simp only [mapFind, if_neg hne, if_true]
          rw [ih hrest]
          simp
        · rw [if_neg hk]
          simp only [mapFind]
          by_cases hk0 : k0 = k1
          · simp [hk0]
          · rw [if_neg hk0, if_neg hk0, ih hrest, if_neg hk]
      · have hkk : k = k0 := strLt_connex (by simpa using h1) (by simpa using h2)
        subst hkk
        rw [if_neg h1, if_neg h2]
        by_cases hk : k1 = k
        · subst hk
          simp [mapFind]
        · have hk' : ¬ k = k1 := fun h => hk h.symm
          simp [mapFind, hk, hk']

theorem hasPath_mapMerge_self {k : Str} {f : Path} {v : RParserName} {m : NameMap}
    (hwf : MapWF m) (hf : f ∈ v.paths) : HasPath k f (mapMerge k v m) := by
  refine ⟨((mapFind k m).getD {}).merge v, ?_, ?_⟩
  · rw [mapFind_mapMerge hwf, if_pos rfl]
  · simp only [RParserName.merge, mem_setUnite]
    exact Or.inr hf

theorem hasPath_mapMerge_mono {k k2 : Str} {f : Path} {v : RParserName} {m : NameMap}
    (hwf : MapWF m) (h : HasPath k f m) : HasPath k f (mapMerge k2 v m) := by
  obtain ⟨e, he, hf⟩ := h
  by_cases hk : k = k2
  · subst hk
    refine ⟨((mapFind k m).getD {}).merge v, ?_, ?_⟩
    · rw [mapFind_mapMerge hwf, if_pos rfl]
    · rw [he]
      simp only [Option.getD_some, RParserName.merge, mem_setUnite]
      exact Or.inl hf
  · exact ⟨e, by rw [mapFind_mapMerge hwf, if_neg hk, he], hf⟩

theorem dirtyFiles_eq_filter (files : List Path) (m : NameMap) :
    dirtyFiles files m = m.filter (fun kv => !(setMinus kv.2.paths files).isEmpty) := by
  induction m with
  | nil => rfl
  | cons kv rest ih =>
    obtain ⟨k, e⟩ := kv
    simp only [dirtyFiles, List.filter_cons]
    by_cases h : (setMinus e.paths files).isEmpty = true
    · simp [h, ih]
    · simp [h, ih]

theorem mapWF_dirtyFiles {files : List Path} {m : NameMap} (hwf : MapWF m) :
    MapWF (dirtyFiles files m) := by
  rw [dirtyFiles_eq_filter]
  exact List.Pairwise.filter _ hwf

theorem insertSuffix_fold_mono {q : Str} (seps : List Nat) (cur : RParserName)
    (names : NameMap) (hwf : MapWF names) :
    MapWF (seps.foldl (insertSuffix q) (cur, names)).2 ∧
    (∀ k f, HasPath k f names → HasPath k f (seps.foldl (insertSuffix q) (cur, names)).2) := by
  induction seps generalizing cur names with
  | nil => exact ⟨hwf, fun _ _ h => h⟩
  | cons s rest ih =>
    simp only [List.foldl_cons]
    have hwf1 : MapWF (insertSuffix q (cur, names) s).2 := mapWF_mapMerge hwf
    obtain ⟨h1, h3⟩ := ih (insertSuffix q (cur, names) s).1 (insertSuffix q (cur, names) s).2 hwf1
    exact ⟨h1, fun k f hk => h3 k f (hasPath_mapMerge_mono hwf hk)⟩

theorem insertSuffix_fold_has {q : Str} {f : Path} (seps : List Nat) (cur : RParserName)
    (names : NameMap) (hwf : MapWF names) (hf : f ∈ cur.paths) :
    ∀ s ∈ seps, HasPath (mid q s) f (seps.foldl (insertSuffix q) (cur, names)).2 := by
  induction seps generalizing cur names with
  | nil => simp
  | cons s rest ih =>
    simp only [List.foldl_cons]
    have hwf1 : MapWF (insertSuffix q (cur, names) s).2 := mapWF_mapMerge hwf
    have hf1 : f ∈ (insertSuffix q (cur, names) s).1.paths := hf
    intro s1 hs1
    rcases List.mem_cons.mp hs1 with rfl | hs1
    · exact (insertSuffix_fold_mono rest _ _ hwf1).2 _ _ (hasPath_mapMerge_self hwf hf)
    · exact ih _ _ hwf1 hf1 s1 hs1

theorem mapWF_preVisitNames {names : NameMap} {symbol : Symbol} (hwf : MapWF names) :
    MapWF (preVisitNames names symbol) := by
  unfold preVisitNames
  by_cases hq : (qualifiedName symbol.fullyQualifiedName).1.isEmpty = true
  · simp only [hq, if_true]
    exact hwf
  · simp only [hq]
    exact (insertSuffix_fold_mono _ _ _ (mapWF_mapMerge hwf)).1

theorem hasPath_preVisitNames_mono {names : NameMap} {symbol : Symbol} {k : Str} {f : Path}
    (hwf : MapWF names) (h : HasPath k f names) : HasPath k f (preVisitNames names symbol) := by
  unfold preVisitNames
  by_cases hq : (qualifiedName symbol.fullyQualifiedName).1.isEmpty = true
  · simp only [hq, if_true]
    exact h
  · simp only [hq]
    exact (insertSuffix_fold_mono _ _ _ (mapWF_mapMerge hwf)).2 k f
      (hasPath_mapMerge_mono hwf h)

/-- After the pre-visit of a symbol with a non-empty name, the full name and
every `mid` at a recorded separator are keys whose paths hold the symbol's file. -/
theorem hasPath_preVisitNames_self {names : NameMap} {symbol : Symbol} (hwf : MapWF names)
    (hq : (qualifiedName symbol.fullyQualifiedName).1 ≠ []) :
    HasPath (qualifiedName symbol.fullyQualifiedName).1 symbol.fileName
      (preVisitNames names symbol) ∧
    ∀ s ∈ (qualifiedName symbol.fullyQualifiedName).2,
      HasPath (mid (qualifiedName symbol.fullyQualifiedName).1 s) symbol.fileName
        (preVisitNames names symbol) := by
  unfold preVisitNames
  have hq' : ¬ (qualifiedName symbol.fullyQualifiedName).1.isEmpty = true := by
    simpa [List.isEmpty_iff] using hq
  simp only [hq']
  constructor
  · exact (insertSuffix_fold_mono _ _ _ (mapWF_mapMerge hwf)).2 _ _
      (hasPath_mapMerge_self hwf (by simp [setInsert]))
  · exact insertSuffix_fold_has _ _ _ (mapWF_mapMerge hwf) (by simp [setInsert])

theorem call_listSymbols_names (visited : List Symbol) (fs : FindSymbols)
    (hm : fs.mode = FindMode.ListSymbols) :
    (visited.foldl FindSymbols.preVisit fs).names = visited.foldl preVisitNames fs.names := by
  induction visited generalizing fs with
  | nil => rfl
  | cons s rest ih =>
    simp only [List.foldl_cons]
    have h1 : (fs.preVisit s).mode = FindMode.ListSymbols := by
      simp [FindSymbols.preVisit, hm]
    rw [ih _ h1]
    simp [FindSymbols.preVisit, hm]

theorem call_cursors_syms (visited : List Symbol) (fs : FindSymbols)
    (hm : fs.mode = FindMode.Cursors) :
    (visited.foldl FindSymbols.preVisit fs).syms = fs.syms ++ visited := by
  induction visited generalizing fs with
  | nil => simp
  | cons s rest ih =>
    simp only [List.foldl_cons]
    have h1 : (fs.preVisit s).mode = FindMode.Cursors := by
      simp [FindSymbols.preVisit, hm]
    rw [ih _ h1]
    simp [FindSymbols.preVisit, hm]

theorem foldl_preVisitNames (visited : List Symbol) (names : NameMap) (hwf : MapWF names) :
    MapWF (visited.foldl preVisitNames names) ∧
    (∀ k f, HasPath k f names → HasPath k f (visited.foldl preVisitNames names)) ∧
    (∀ symbol ∈ visited, (qualifiedName symbol.fullyQualifiedName).1 ≠ [] →
      HasPath (qualifiedName symbol.fullyQualifiedName).1 symbol.fileName
        (visited.foldl preVisitNames names) ∧
      ∀ s ∈ (qualifiedName symbol.fullyQualifiedName).2,
        HasPath (mid (qualifiedName symbol.fullyQualifiedName).1 s) symbol.fileName
          (visited.foldl preVisitNames names)) := by
  induction visited generalizing names with
  | nil => exact ⟨hwf, fun _ _ h => h, by simp⟩
  | cons s rest ih =>
    simp only [List.foldl_cons]
    obtain ⟨h1, h2, h3⟩ := ih (preVisitNames names s) (mapWF_preVisitNames hwf)
    refine ⟨h1, fun k f h => h2 k f (hasPath_preVisitNames_mono hwf h), ?_⟩
    intro symbol hsym hq
    rcases List.mem_cons.mp hsym with rfl | hsym
    · obtain ⟨ha, hb⟩ := hasPath_preVisitNames_self hwf hq
      exact ⟨h2 _ _ ha, fun s hs => h2 _ _ (hb s hs)⟩
    · exact h3 symbol hsym hq

theorem mergeNames_spec (lnames names : NameMap) (hwf : MapWF names) :
    MapWF (mergeNames names lnames) ∧
    (∀ k f, HasPath k f names → HasPath k f (mergeNames names lnames)) ∧
    (∀ k e f, (k, e) ∈ lnames → f ∈ e.paths → HasPath k f (mergeNames names lnames)) := by
  unfold mergeNames
  induction lnames generalizing names with
  | nil => exact ⟨hwf, fun _ _ h => h, by simp⟩
  | cons kv rest ih =>
    simp only [List.foldl_cons]
    obtain ⟨h1, h2, h3⟩ := ih (mapMerge kv.1 kv.2 names) (mapWF_mapMerge hwf)
    refine ⟨h1, fun k f h => h2 k f (hasPath_mapMerge_mono hwf h), ?_⟩
    intro k e f hmem hf
    rcases List.mem_cons.mp hmem with rfl | hmem
    · exact h2 _ _ (hasPath_mapMerge_self hwf hf)
    · exact h3 k e f hmem hf

theorem collectFile_spec (documents : Path → Option Document) (names : NameMap) (file : Path)
    (hwf : MapWF names) :
    MapWF (collectFile documents names file) ∧
    (∀ k f, HasPath k f names → HasPath k f (collectFile documents names file)) := by
  unfold collectFile
  cases hd : documents file with
  | none => exact ⟨hwf, fun _ _ h => h⟩
  | some doc =>
    cases hg : doc.globalNamespace with
    | none =>
      simp only [hg]
      exact ⟨mapWF_mapMerge hwf, fun k f h => hasPath_mapMerge_mono hwf h⟩
    | some visited =>
      simp only [hg]
      obtain ⟨h1, h2, _⟩ := mergeNames_spec
        (FindSymbols.call FindMode.ListSymbols visited).names names hwf
      exact ⟨mapWF_mapMerge h1, fun k f h => hasPath_mapMerge_mono h1 (h2 k f h)⟩

theorem foldl_collectFile (documents : Path → Option Document) (files : List Path)
    (names : NameMap) (hwf : MapWF names) :
    MapWF (files.foldl (collectFile documents) names) ∧
    (∀ k f, HasPath k f names → HasPath k f (files.foldl (collectFile documents) names)) := by
  induction files generalizing names with
  | nil => exact ⟨hwf, fun _ _ h => h⟩
  | cons file rest ih =>
    simp only [List.foldl_cons]
    obtain ⟨h1, h2⟩ := collectFile_spec documents names file hwf
    obtain ⟨h3, h4⟩ := ih (collectFile documents names file) h1
    exact ⟨h3, fun k f h => h4 k f (h2 k f h)⟩

/-- Source: `collectNames` keeps the name index well-formed. -/
theorem mapWF_collectNames (self : Project) (files : List Path) (hwf : MapWF self.names) :
    MapWF (collectNames self files).names :=
  (foldl_collectFile self.documents files _ (mapWF_dirtyFiles hwf)).1

/-- What one file of the batch is sure to leave in the index at the end of
`collectNames`, given what its own round leaves. -/
theorem collectNames_of_round (self : Project) (files : List Path) (file : Path) (k : Str)
    (f : Path) (hwf : MapWF self.names) (hfile : file ∈ files)
    (hround : ∀ names, MapWF names → HasPath k f (collectFile self.documents names file)) :
    HasPath k f (collectNames self files).names := by
  unfold collectNames
  simp only []
  have key : ∀ (l : List Path) (names : NameMap), MapWF names → file ∈ l →
      HasPath k f (l.foldl (collectFile self.documents) names) := by
    intro l
    induction l with
    | nil => intro _ _ h; simp at h
    | cons x rest ih =>
      intro names hn hmem
      simp only [List.foldl_cons]
      have hx := collectFile_spec self.documents names x hn
      by_cases hxf : x = file
      · subst hxf
        exact (foldl_collectFile self.documents rest _ hx.1).2 k f (hround names hn)
      · rcases List.mem_cons.mp hmem with h | h
        · exact absurd h.symm hxf
        · exact ih _ hx.1 h
  exact key files _ (mapWF_dirtyFiles hwf) hfile

theorem qualifiedName_three {o i m : Str} (ho : o ≠ []) :
    qualifiedName [o, i, m] =
      (o ++ sep ++ i ++ sep ++ m, [(o ++ sep).length, (o ++ sep ++ i ++ sep).length]) := by
  have h1 : o.isEmpty = false := by
    cases o with
    | nil => exact absurd rfl ho
    | cons c cs => rfl
  simp [qualifiedName, appendName, h1, ho]

theorem mid_append (a b : Str) : mid (a ++ b) a.length = b := by
  simp [mid]

/-- The names that the `ListSymbols` visitor collects are the fold of
`preVisitNames` over the visited symbols. -/
theorem call_names (visited : List Symbol) :
    (FindSymbols.call FindMode.ListSymbols visited).names = visited.foldl preVisitNames [] :=
  call_listSymbols_names visited { mode := FindMode.ListSymbols } rfl

/-- A key that the visitor of the file's document records for path `f` is in
the index with `f` after the file's round of `collectNames`. -/
theorem collectFile_of_local (documents : Path → Option Document) (names : NameMap)
    (file : Path) (doc : Document) (visited : List Symbol) (k : Str) (f : Path)
    (hwf : MapWF names) (hdoc : documents file = some doc)
    (hns : doc.globalNamespace = some visited)
    (hloc : HasPath k f (visited.foldl preVisitNames [])) :
    HasPath k f (collectFile documents names file) := by
  unfold collectFile
  simp only [hdoc, hns]
  obtain ⟨e, he, hf⟩ := hloc
  obtain ⟨h1, _, h3⟩ := mergeNames_spec
    (FindSymbols.call FindMode.ListSymbols visited).names names hwf
  refine hasPath_mapMerge_mono h1 (h3 k e f ?_ hf)
  rw [call_names]
  exact mem_of_mapFind he

/-- C1 (suffix indexing): if file `f` of the batch has a document with a symbol
whose fully-qualified name components are `[outer, inner, method]`, all
non-empty, and whose file is `f`, then after `collectNames(batch)` the exact
lookups of `method`, `inner::method` and `outer::inner::method` each find an
entry whose path set contains `f`. -/
theorem suffix_indexing (self : Project) (batch : List Path) (f : Path) (doc : Document)
    (visited : List Symbol) (symbol : Symbol) (outer inner method : Str)
    (hwf : MapWF self.names) (hf : f ∈ batch) (hdoc : self.documents f = some doc)
    (hns : doc.globalNamespace = some visited) (hsym : symbol ∈ visited)
    (hname : symbol.fullyQualifiedName = [outer, inner, method])
    (houter : outer ≠ []) (hinner : inner ≠ []) (hmethod : method ≠ [])
    (hfile : symbol.fileName = f) :
    (∃ e, mapFind method (collectNames self batch).names = some e ∧ f ∈ e.paths) ∧
    (∃ e, mapFind (inner ++ sep ++ method) (collectNames self batch).names = some e ∧
      f ∈ e.paths) ∧
    (∃ e, mapFind (outer ++ sep ++ inner ++ sep ++ method) (collectNames self batch).names
      = some e ∧ f ∈ e.paths) := by
  have hq : qualifiedName [outer, inner, method] = _ := qualifiedName_three houter
  have hne : (qualifiedName symbol.fullyQualifiedName).1 ≠ [] := by
    rw [hname, hq]
    simp [houter, hinner, hmethod]
  obtain ⟨hfull, hsub⟩ := (foldl_preVisitNames visited [] mapWF_nil).2.2 symbol hsym hne
  rw [hname, hq, hfile] at hfull hsub
  have h1 := hsub (outer ++ sep).length (by simp)
  have h2 := hsub (outer ++ sep ++ inner ++ sep).length (by simp)
  have e1 : mid (outer ++ sep ++ inner ++ sep ++ method) (outer ++ sep).length
      = inner ++ sep ++ method := by
    rw [← mid_append (outer ++ sep) (inner ++ sep ++ method)]
    simp
  rw [mid_append] at h2
  rw [e1] at h1
  refine ⟨?_, ?_, ?_⟩
  · exact collectNames_of_round self batch f _ f hwf hf
      (fun names hn => collectFile_of_local _ names f doc visited _ f hn hdoc hns h2)
  · exact collectNames_of_round self batch f _ f hwf hf
      (fun names hn => collectFile_of_local _ names f doc visited _ f hn hdoc hns h1)
  · exact collectNames_of_round self batch f _ f hwf hf
      (fun names hn => collectFile_of_local _ names f doc visited _ f hn hdoc hns hfull)

/-- The hypotheses of `suffix_indexing` hold for `Outer::Inner::method` of
`/src/f.cpp`, which is then found under its three suffixes. -/
theorem suffix_indexing_witness :
    (∃ e, mapFind (str "method") (collectNames exProject [str "/src/f.cpp"]).names = some e ∧
      str "/src/f.cpp" ∈ e.paths) ∧
    (∃ e, mapFind (str "Inner" ++ sep ++ str "method")
      (collectNames exProject [str "/src/f.cpp"]).names = some e ∧ str "/src/f.cpp" ∈ e.paths) ∧
    (∃ e, mapFind (str "Outer" ++ sep ++ str "Inner" ++ sep ++ str "method")
      (collectNames exProject [str "/src/f.cpp"]).names = some e ∧ str "/src/f.cpp" ∈ e.paths) :=
  suffix_indexing exProject [str "/src/f.cpp"] (str "/src/f.cpp") exDoc [exGlobal, exMethod]
    exMethod (str "Outer") (str "Inner") (str "method") mapWF_nil (by decide) (by decide) rfl
    (by decide) rfl (by decide) (by decide) (by decide) rfl

/-- C2 (idempotent name merge): `RParserName::merge` is the union of the path
sets and of the name sets; merging `b` into `a` twice gives the same entry as
merging it once, and merging `a` into itself leaves `a` unchanged. -/
theorem merge_idempotent (a b : RParserName) (ha : a.WF) :
    (∀ p, p ∈ (a.merge b).paths ↔ p ∈ a.paths ∨ p ∈ b.paths) ∧
    (∀ n, n ∈ (a.merge b).names ↔ n ∈ a.names ∨ n ∈ b.names) ∧
    (a.merge b).merge b = a.merge b ∧
    a.merge a = a := by
  obtain ⟨hp, hn⟩ := ha
  refine ⟨fun p => mem_setUnite, fun n => mem_setUnite, ?_, ?_⟩
  · simp only [RParserName.merge]
    rw [setUnite_of_subset (setWF_setUnite hp) (fun x hx => mem_setUnite.mpr (Or.inr hx)),
      setUnite_of_subset (setWF_setUnite hn) (fun x hx => mem_setUnite.mpr (Or.inr hx))]
  · cases a with
    | mk paths names =>
      simp only [RParserName.merge]
      rw [setUnite_of_subset hp (fun x hx => hx), setUnite_of_subset hn (fun x hx => hx)]

/-- The entry `exEntryA` is well-formed, and `merge_idempotent` holds for it
and `exEntryB`. -/
theorem merge_idempotent_witness :
    exEntryA.WF ∧
    (∀ p, p ∈ (exEntryA.merge exEntryB).paths ↔ p ∈ exEntryA.paths ∨ p ∈ exEntryB.paths) ∧
    (∀ n, n ∈ (exEntryA.merge exEntryB).names ↔ n ∈ exEntryA.names ∨ n ∈ exEntryB.names) ∧
    (exEntryA.merge exEntryB).merge exEntryB = exEntryA.merge exEntryB ∧
    exEntryA.merge exEntryA = exEntryA :=
  ⟨by decide, merge_idempotent exEntryA exEntryB (by decide)⟩

theorem mapFind_filter {k : Str} {m : NameMap} (p : Str × RParserName → Bool)
    (hwf : MapWF m) :
    mapFind k (m.filter p) = (mapFind k m).bind (fun e => if p (k, e) then some e else none) := by
  induction m with
  | nil => rfl
  | cons kv rest ih =>
    obtain ⟨k0, e0⟩ := kv
    have hrest : MapWF rest := (List.pairwise_cons.mp hwf).2
    by_cases hk : k0 = k
    · subst hk
      have hnone : mapFind k0 rest = none := by
        cases h : mapFind k0 rest with
        | none => rfl
        | some e =>
          have hlt := (List.pairwise_cons.mp hwf).1 (k0, e) (mem_of_mapFind h)
          rw [strLt_irrefl] at hlt
          exact absurd hlt (by decide)
      by_cases hp : p (k0, e0) = true
      · simp [List.filter_cons, hp, mapFind]
      · simp [List.filter_cons, hp, mapFind, ih hrest, hnone]
    · by_cases hp : p (k0, e0) = true
      · simp [List.filter_cons, hp, mapFind, hk, ih hrest]
      · simp [List.filter_cons, hp, mapFind, hk, ih hrest]

/-- Counterexample to C3: every entry of the index `exIndexed` has the path
set `{/src/f.cpp}`, and after `remove(/src/f.cpp)` the prefix lookup of `Outer`
still returns `Outer::Inner::method`. -/
theorem remove_keeps_listed :
    (∀ kv ∈ (remove exIndexed (str "/src/f.cpp")).names, kv.2.paths = [str "/src/f.cpp"]) ∧
    listSymbols (remove exIndexed (str "/src/f.cpp")) (str "Outer") [] =
      [str "Outer::Inner::method"] := by
  decide

/-- C3 as amended: `remove(p)` leaves the name index as it is, so `listSymbols`
returns after `remove(p)` what it returned before; an entry whose path set is
exactly `{p}` is erased by the invalidation step (`dirtyFiles`) of a later
`collectNames` whose batch contains `p`. -/
theorem remove_leaves_names (self : Project) (p : Path) (string : Str) (filter : List Path)
    (batch : List Path) (k : Str) (e : RParserName) (hwf : MapWF self.names)
    (hp : p ∈ batch) (hk : mapFind k self.names = some e) (he : e.paths = [p]) :
    (remove self p).names = self.names ∧
    listSymbols (remove self p) string filter = listSymbols self string filter ∧
    mapFind k (dirtyFiles batch (remove self p).names) = none := by
  refine ⟨rfl, rfl, ?_⟩
  have hn : (remove self p).names = self.names := rfl
  rw [hn, dirtyFiles_eq_filter, mapFind_filter _ hwf, hk]
  have hempty : setMinus e.paths batch = [] := by
    rw [he]
    simp [setMinus, setContains, hp]
  simp [hempty]

/-- The hypotheses of `remove_leaves_names` hold for the entry `method` of
`exIndexed` and the path `/src/f.cpp`. -/
theorem remove_leaves_names_witness :
    (remove exIndexed (str "/src/f.cpp")).names = exIndexed.names ∧
    listSymbols (remove exIndexed (str "/src/f.cpp")) (str "meth") [] =
      listSymbols exIndexed (str "meth") [] ∧
    mapFind (str "method")
      (dirtyFiles [str "/src/f.cpp"] (remove exIndexed (str "/src/f.cpp")).names) = none :=
  remove_leaves_names exIndexed (str "/src/f.cpp") (str "meth") [] [str "/src/f.cpp"]
    (str "method")
    { paths := [str "/src/f.cpp"],
      names := [str "Inner::method", str "Outer::Inner::method", str "method"] }
    (by decide) (by decide) (by decide) rfl

/-- C4 at the failing input: `/src/a.cpp` and `/src/b.cpp` both declared `foo`;
`/src/a.cpp` is edited so that no symbol of its document is filed under `foo`
(and its bare file name is not `foo`); after `collectNames({/src/a.cpp})` the
entry `foo`, shared with `/src/b.cpp`, still lists `/src/a.cpp`. -/
theorem stale_path_in_shared_entry :
    mapFind (str "foo") exIndexedV2.names =
      some { paths := [str "/src/a.cpp", str "/src/b.cpp"], names := [str "foo"] } ∧
    exDocumentsV2 (str "/src/a.cpp") =
      some { globalNamespace := some [exGlobalOf (str "/src/a.cpp")] } ∧
    (∀ symbol ∈ [exGlobalOf (str "/src/a.cpp")], str "foo" ∉ symbolKeys symbol) ∧
    Path.fileName (str "/src/a.cpp") ≠ str "foo" := by
  decide

/-! ## The prefix lookup -/

theorem startsWith_not_lt {k s : Str} (h : startsWith k s = true) : strLt k s = false := by
  induction s generalizing k with
  | nil => cases k <;> rfl
  | cons c cs ih =>
    cases k with
    | nil => simp [startsWith, List.isPrefixOf] at h
    | cons d ds =>
      simp only [startsWith, List.isPrefixOf, Bool.and_eq_true, beq_iff_eq] at h
      obtain ⟨hcd, hrest⟩ := h
      subst hcd
      simp only [strLt, lt_irrefl, if_false]
      exact ih hrest

theorem startsWith_between {s k k2 : Str} (h1 : strLt k s = false) (h2 : strLt k k2 = true)
    (h3 : startsWith k2 s = true) : startsWith k s = true := by
  induction s generalizing k k2 with
  | nil => simp [startsWith, List.isPrefixOf]
  | cons c cs ih =>
    cases k2 with
    | nil => simp [startsWith, List.isPrefixOf] at h3
    | cons c2 k2s =>
      simp only [startsWith, List.isPrefixOf, Bool.and_eq_true, beq_iff_eq] at h3
      obtain ⟨hc, hrest⟩ := h3
      subst hc
      cases k with
      | nil => simp [strLt] at h1
      | cons d ds =>
        simp only [strLt] at h1 h2
        by_cases hdc : d < c
        · simp [hdc] at h1
        · by_cases hcd : c < d
          · simp [hdc, hcd] at h2
          · have hcd' : d = c := le_antisymm (not_lt.mp hcd) (not_lt.mp hdc)
            subst hcd'
            simp only [hdc, if_false] at h1 h2
            simp only [startsWith, List.isPrefixOf, beq_self_eq_true, Bool.true_and]
            exact ih h1 h2 hrest

/-- On a well-formed map, the keys that start with `s` are those met by the
scan from `lower_bound(s)` up to the first key that does not start with `s`. -/
theorem takeWhile_lowerBound {s : Str} {m : NameMap} (hwf : MapWF m) :
    (lowerBound s m).takeWhile (fun kv => startsWith kv.1 s) =
      m.filter (fun kv => startsWith kv.1 s) := by
  have above : ∀ (l : NameMap), MapWF l → (∀ kv ∈ l, strLt kv.1 s = false) →
      l.takeWhile (fun kv => startsWith kv.1 s) = l.filter (fun kv => startsWith kv.1 s) := by
    intro l
    induction l with
    | nil => intro _ _; rfl
    | cons kv rest ih =>
      intro hl hge
      have hrest : MapWF rest := (List.pairwise_cons.mp hl).2
      have hge' : ∀ kv ∈ rest, strLt kv.1 s = false :=
        fun kv2 h => hge kv2 (List.mem_cons_of_mem _ h)
      by_cases hp : startsWith kv.1 s = true
      · simp [List.takeWhile_cons, List.filter_cons, hp, ih hrest hge']
      · simp only [List.takeWhile_cons, List.filter_cons, hp]
        symm
        simp only [Bool.false_eq_true, if_false]
        rw [List.filter_eq_nil_iff]
        intro kv2 hkv2 hp2
        exact hp (startsWith_between (hge kv (List.mem_cons_self _ _))
          ((List.pairwise_cons.mp hl).1 kv2 hkv2) hp2)
  induction m with
  | nil => rfl
  | cons kv rest ih =>
    obtain ⟨k, e⟩ := kv
    have hrest : MapWF rest := (List.pairwise_cons.mp hwf).2
    simp only [lowerBound]
    by_cases hlt : strLt k s = true
    · have hp : startsWith k s = false := by
        cases h : startsWith k s with
        | false => rfl
        | true =>
          rw [startsWith_not_lt h] at hlt
          exact absurd hlt (by decide)
      simp [hlt, List.filter_cons, hp, ih hrest]
    · rw [if_neg hlt]
      apply above _ hwf
      intro kv2 hkv2
      rcases List.mem_cons.mp hkv2 with rfl | hmem
      · simpa using hlt
      · cases h : strLt kv2.1 s with
        | false => rfl
        | true =>
          have := strLt_trans ((List.pairwise_cons.mp hwf).1 kv2 hmem) h
          exact absurd this hlt

theorem listSymbolsScan_eq (string : Str) (pass : Bool) (paths : List Path) (m : NameMap)
    (ret : List Str) :
    listSymbolsScan string pass paths m ret =
      ((m.takeWhile (fun kv => startsWith kv.1 string)).filter
        (fun kv => pass || setIntersects paths kv.2.paths)).foldl
        (fun ret kv => setUnite ret kv.2.names) ret := by
  induction m generalizing ret with
  | nil => rfl
  | cons kv rest ih =>
    obtain ⟨k, e⟩ := kv
    simp only [listSymbolsScan]
    by_cases hp : startsWith k string = true
    · by_cases hq : (pass || setIntersects paths e.paths) = true
      · simp [hp, hq, List.takeWhile_cons, List.filter_cons, ih]
      · simp only [hp, hq, List.takeWhile_cons, List.filter_cons, if_true, ih]
        simp
    · simp [hp, List.takeWhile_cons]

theorem mem_foldl_setUnite {x : Str} (l : NameMap) (init : List Str) :
    x ∈ l.foldl (fun ret kv => setUnite ret kv.2.names) init ↔
      x ∈ init ∨ ∃ kv ∈ l, x ∈ kv.2.names := by
  induction l generalizing init with
  | nil => simp
  | cons kv rest ih =>
    simp only [List.foldl_cons, ih, mem_setUnite, List.mem_cons, exists_eq_or_imp]
    tauto

theorem toSet_isEmpty (l : List Str) : (toSet l).isEmpty = true ↔ l = [] := by
  constructor
  · intro h
    cases l with
    | nil => rfl
    | cons x xs =>
      have hx : x ∈ toSet (x :: xs) := mem_toSet.mpr (List.mem_cons_self _ _)
      rw [List.isEmpty_iff] at h
      rw [h] at hx
      simp at hx
  · intro h
    subst h
    rfl

/-- C5 (prefix lookup is complete): on a sorted name index the lower-bound scan
of `listSymbols` returns exactly the union of the name sets of all entries
whose key starts with `text` and whose path set intersects the filter (or the
filter is empty): no matching key is missed. -/
theorem listSymbols_complete (self : Project) (text : Str) (pathFilter : List Path)
    (hwf : MapWF self.names) :
    listSymbols self text pathFilter = listSymbolsSpec self text pathFilter ∧
    ∀ x, x ∈ listSymbols self text pathFilter ↔
      ∃ k e, (k, e) ∈ self.names ∧ startsWith k text = true ∧
        (pathFilter = [] ∨ ∃ p, p ∈ pathFilter ∧ p ∈ e.paths) ∧ x ∈ e.names := by
  have heq : listSymbols self text pathFilter = listSymbolsSpec self text pathFilter := by
    unfold listSymbols listSymbolsSpec
    simp only []
    rw [listSymbolsScan_eq, takeWhile_lowerBound hwf, List.filter_filter]
    congr 1
    apply List.filter_congr
    intro kv _
    rw [Bool.and_comm]
  refine ⟨heq, ?_⟩
  intro x
  rw [heq]
  unfold listSymbolsSpec
  simp only []
  rw [mem_foldl_setUnite]
  simp only [List.not_mem_nil, false_or, List.mem_filter, Bool.and_eq_true, Bool.or_eq_true,
    toSet_isEmpty, setIntersects_iff, mem_toSet]
  constructor
  · rintro ⟨⟨k, e⟩, ⟨hmem, hp, hf⟩, hx⟩
    exact ⟨k, e, hmem, hp, hf, hx⟩
  · rintro ⟨k, e, hmem, hp, hf, hx⟩
    exact ⟨(k, e), ⟨hmem, hp, hf⟩, hx⟩

/-- C5 at the index `exIndexed`, the prefix `In` and the filter `{/src/f.cpp}`. -/
theorem listSymbols_complete_witness :
    MapWF exIndexed.names ∧
    (listSymbols exIndexed (str "In") [str "/src/f.cpp"] =
        listSymbolsSpec exIndexed (str "In") [str "/src/f.cpp"] ∧
      ∀ x, x ∈ listSymbols exIndexed (str "In") [str "/src/f.cpp"] ↔
        ∃ k e, (k, e) ∈ exIndexed.names ∧ startsWith k (str "In") = true ∧
          ([str "/src/f.cpp"] = [] ∨ ∃ p, p ∈ [str "/src/f.cpp"] ∧ p ∈ e.paths) ∧
          x ∈ e.names) :=
  ⟨by decide, listSymbols_complete exIndexed (str "In") [str "/src/f.cpp"] (by decide)⟩

theorem mem_lowerBound {s : Str} {m : NameMap} {kv : Str × RParserName}
    (h : kv ∈ lowerBound s m) : kv ∈ m := by
  induction m with
  | nil => simp [lowerBound] at h
  | cons kv0 rest ih =>
    obtain ⟨k0, e0⟩ := kv0
    simp only [lowerBound] at h
    by_cases hlt : strLt k0 s = true
    · rw [if_pos hlt] at h
      exact List.mem_cons_of_mem _ (ih h)
    · rw [if_neg hlt] at h
      exact h

/-- Every string that `listSymbols` returns is stored in an entry whose key
starts with the text and whose paths pass the filter. -/
theorem listSymbols_sound {self : Project} {text : Str} {pathFilter : List Path} {x : Str}
    (hx : x ∈ listSymbols self text pathFilter) :
    ∃ k e, (k, e) ∈ self.names ∧ startsWith k text = true ∧
      (pathFilter = [] ∨ ∃ p, p ∈ pathFilter ∧ p ∈ e.paths) ∧ x ∈ e.names := by
  unfold listSymbols at hx
  simp only [] at hx
  rw [listSymbolsScan_eq, mem_foldl_setUnite] at hx
  simp only [List.not_mem_nil, false_or, List.mem_filter, Bool.or_eq_true, toSet_isEmpty,
    setIntersects_iff, mem_toSet] at hx
  obtain ⟨⟨k, e⟩, ⟨htw, hf⟩, hxe⟩ := hx
  have hp : startsWith k text = true := by
    have := List.mem_takeWhile_imp htw
    simpa using this
  exact ⟨k, e, mem_lowerBound ((List.takeWhile_sublist _).subset htw), hp, hf, hxe⟩

/-! ## Names end with their key -/

theorem suffixInv_mapMerge {k : Str} {v : RParserName} {m : NameMap} (hm : SuffixInv m)
    (hv : ∀ n ∈ v.names, k <:+ n) : SuffixInv (mapMerge k v m) := by
  induction m with
  | nil =>
    intro kv hkv n hn
    simp only [mapMerge, List.mem_singleton] at hkv
    subst hkv
    simp only [RParserName.merge, mem_setUnite] at hn
    rcases hn with hn | hn
    · simp at hn
    · exact hv n hn
  | cons kv0 rest ih =>
    obtain ⟨k0, e0⟩ := kv0
    have hrest : SuffixInv rest := fun kv h => hm kv (List.mem_cons_of_mem _ h)
    simp only [mapMerge]
    by_cases h1 : strLt k k0 = true
    · rw [if_pos h1]
      intro kv hkv n hn
      rcases List.mem_cons.mp hkv with rfl | hkv
      · simp only [RParserName.merge, mem_setUnite] at hn
        rcases hn with hn | hn
        · simp at hn
        · exact hv n hn
      · exact hm kv hkv n hn
    · by_cases h2 : strLt k0 k = true
      · rw [if_neg h1, if_pos h2]
        intro kv hkv n hn
        rcases List.mem_cons.mp hkv with rfl | hkv
        · exact hm _ (List.mem_cons_self _ _) n hn
        · exact ih hrest kv hkv n hn
      · have hk : k = k0 := strLt_connex (by simpa using h1) (by simpa using h2)
        subst hk
        rw [if_neg h1, if_neg h2]
        intro kv hkv n hn
        rcases List.mem_cons.mp hkv with rfl | hkv
        · simp only [RParserName.merge, mem_setUnite] at hn
          rcases hn with hn | hn
          · exact hm _ (List.mem_cons_self _ _) n hn
          · exact hv n hn
        · exact hrest kv hkv n hn

theorem drop_suffix_drop (q : Str) {t s : Nat} (h : t ≤ s) : q.drop s <:+ q.drop t := by
  have : q.drop s = (q.drop t).drop (s - t) := by
    rw [List.drop_drop]
    congr 1
    omega
  rw [this]
  exact List.drop_suffix _ _

theorem suffixInv_insertSuffix_fold {q : Str} (seps : List Nat) (cur : RParserName)
    (names : NameMap) (hm : SuffixInv names) (hs : seps.Pairwise (fun a b => a ≤ b))
    (hcur : ∀ n ∈ cur.names, ∃ t, n = q.drop t ∧ ∀ s ∈ seps, t ≤ s) :
    SuffixInv (seps.foldl (insertSuffix q) (cur, names)).2 := by
  induction seps generalizing cur names with
  | nil => exact hm
  | cons s rest ih =>
    simp only [List.foldl_cons]
    have hs1 := (List.pairwise_cons.mp hs).1
    apply ih _ _ _ (List.pairwise_cons.mp hs).2
    · intro n hn
      simp only [insertSuffix, mid, mem_setInsert] at hn
      rcases hn with rfl | hn
      · exact ⟨s, rfl, hs1⟩
      · obtain ⟨t, ht, hle⟩ := hcur n hn
        exact ⟨t, ht, fun s2 h2 => hle s2 (List.mem_cons_of_mem _ h2)⟩
    · apply suffixInv_mapMerge hm
      intro n hn
      simp only [mid, mem_setInsert] at hn
      rcases hn with rfl | hn
      · exact List.suffix_refl _
      · obtain ⟨t, ht, hle⟩ := hcur n hn
        rw [ht]
        exact drop_suffix_drop q (hle s (List.mem_cons_self _ _))

theorem foldl_appendName_seps (fullName : List Str) (acc : Str × List Nat)
    (hp : acc.2.Pairwise (fun a b => a ≤ b)) (hl : ∀ s ∈ acc.2, s ≤ acc.1.length) :
    (fullName.foldl appendName acc).2.Pairwise (fun a b => a ≤ b) ∧
    ∀ s ∈ (fullName.foldl appendName acc).2, s ≤ (fullName.foldl appendName acc).1.length := by
  induction fullName generalizing acc with
  | nil => exact ⟨hp, hl⟩
  | cons name rest ih =>
    simp only [List.foldl_cons]
    apply ih
    · unfold appendName
      by_cases he : acc.1.isEmpty = true
      · simpa [he] using hp
      · simp only [he]
        simp only [Bool.not_false, if_true]
        rw [List.pairwise_append]
        refine ⟨hp, by simp, ?_⟩
        intro a ha b hb
        simp only [List.mem_singleton] at hb
        subst hb
        have := hl a ha
        simp only [List.length_append]
        omega
    · unfold appendName
      by_cases he : acc.1.isEmpty = true
      · intro s hs
        simp only [he, Bool.not_true] at hs
        have := hl s (by simpa using hs)
        simp only [he, Bool.not_true, List.length_append]
        simp only [Bool.false_eq_true, if_false]
        omega
      · intro s hs
        simp only [he, Bool.not_false, if_true, List.mem_append, List.mem_singleton] at hs
        simp only [he, Bool.not_false, if_true, List.length_append]
        rcases hs with hs | hs
        · have := hl s hs
          omega
        · subst hs
          simp only [List.length_append]
          omega

theorem qualifiedName_seps_sorted (fullName : List Str) :
    (qualifiedName fullName).2.Pairwise (fun a b => a ≤ b) :=
  (foldl_appendName_seps fullName ([], []) List.Pairwise.nil (by simp)).1

theorem suffixInv_preVisitNames {names : NameMap} {symbol : Symbol} (hm : SuffixInv names) :
    SuffixInv (preVisitNames names symbol) := by
  unfold preVisitNames
  by_cases hq : (qualifiedName symbol.fullyQualifiedName).1.isEmpty = true
  · simp only [hq, if_true]
    exact hm
  · simp only [hq]
    apply suffixInv_insertSuffix_fold _ _ _ _ (qualifiedName_seps_sorted _)
    · intro n hn
      simp only [setInsert, List.mem_singleton] at hn
      exact ⟨0, by simpa using hn, fun _ _ => Nat.zero_le _⟩
    · apply suffixInv_mapMerge hm
      intro n hn
      simp only [setInsert, List.mem_singleton] at hn
      rw [hn]

theorem suffixInv_foldl_preVisitNames (visited : List Symbol) (names : NameMap)
    (hm : SuffixInv names) : SuffixInv (visited.foldl preVisitNames names) := by
  induction visited generalizing names with
  | nil => exact hm
  | cons s rest ih => exact ih _ (suffixInv_preVisitNames hm)

theorem suffixInv_mergeNames (lnames names : NameMap) (hm : SuffixInv names)
    (hl : SuffixInv lnames) : SuffixInv (mergeNames names lnames) := by
  unfold mergeNames
  induction lnames generalizing names with
  | nil => exact hm
  | cons kv rest ih =>
    simp only [List.foldl_cons]
    apply ih
    · exact suffixInv_mapMerge hm (hl kv (List.mem_cons_self _ _))
    · exact fun kv2 h => hl kv2 (List.mem_cons_of_mem _ h)

theorem suffixInv_collectFile (documents : Path → Option Document) (names : NameMap)
    (file : Path) (hm : SuffixInv names) : SuffixInv (collectFile documents names file) := by
  unfold collectFile
  have hfile : ∀ n ∈ (setInsert (Path.fileName file) []), Path.fileName file <:+ n := by
    intro n hn
    simp only [setInsert, List.mem_singleton] at hn
    rw [hn]
  cases hd : documents file with
  | none => exact hm
  | some doc =>
    cases hg : doc.globalNamespace with
    | none =>
      simp only [hg]
      exact suffixInv_mapMerge hm hfile
    | some visited =>
      simp only [hg]
      apply suffixInv_mapMerge _ hfile
      apply suffixInv_mergeNames _ _ hm
      rw [call_names]
      exact suffixInv_foldl_preVisitNames visited [] (by intro kv h; simp at h)

theorem suffixInv_collectNames (self : Project) (files : List Path) (hm : SuffixInv self.names) :
    SuffixInv (collectNames self files).names := by
  unfold collectNames
  simp only []
  have h0 : SuffixInv (dirtyFiles files self.names) := by
    rw [dirtyFiles_eq_filter]
    exact fun kv h => hm kv (List.mem_of_mem_filter h)
  generalize dirtyFiles files self.names = m at h0
  induction files generalizing m with
  | nil => exact h0
  | cons f rest ih => exact ih _ (suffixInv_collectFile _ _ _ h0)

theorem suffixInv_of_built {m : NameMap} (h : BuiltIndex m) : SuffixInv m := by
  induction h with
  | empty => intro kv h; simp at h
  | collect self files _ ih => exact suffixInv_collectNames self files ih

theorem mapWF_of_built {m : NameMap} (h : BuiltIndex m) : MapWF m := by
  induction h with
  | empty => exact mapWF_nil
  | collect self files _ ih => exact mapWF_collectNames self files ih

/-- Counterexample to C6: in the index that `collectNames` builds for
`/src/f.cpp`, the prefix lookup of `meth` returns `Outer::Inner::method`, which
does not start with `meth`. -/
theorem listSymbols_returns_unprefixed :
    BuiltIndex exIndexed.names ∧
    str "Outer::Inner::method" ∈ listSymbols exIndexed (str "meth") [] ∧
    startsWith (str "Outer::Inner::method") (str "meth") = false :=
  ⟨BuiltIndex.collect exProject _ BuiltIndex.empty, by decide, by decide⟩

/-- C6 as amended: for every index built by `collectNames`, every string in the
result of `listSymbols(text, filter)` is a name spelling stored in an entry
whose key has `text` as a prefix (and whose path set meets the filter, when
there is one), and the string ends with that key; the string itself need not
start with `text`. -/
theorem listSymbols_prefixed_keys (self : Project) (text : Str) (pathFilter : List Path)
    (x : Str) (hb : BuiltIndex self.names) (hx : x ∈ listSymbols self text pathFilter) :
    ∃ k e, (k, e) ∈ self.names ∧ startsWith k text = true ∧
      (pathFilter = [] ∨ ∃ p, p ∈ pathFilter ∧ p ∈ e.paths) ∧ x ∈ e.names ∧
      endsWith x k = true := by
  obtain ⟨k, e, hmem, hp, hf, hxe⟩ := listSymbols_sound hx
  refine ⟨k, e, hmem, hp, hf, hxe, ?_⟩
  have := suffixInv_of_built hb (k, e) hmem x hxe
  simpa [endsWith] using this

/-- C6 as amended, at the index `exIndexed`, the text `meth` and the returned
string `Outer::Inner::method`. -/
theorem listSymbols_prefixed_keys_witness :
    ∃ k e, (k, e) ∈ exIndexed.names ∧ startsWith k (str "meth") = true ∧
      (([] : List Path) = [] ∨ ∃ p, p ∈ ([] : List Path) ∧ p ∈ e.paths) ∧
      str "Outer::Inner::method" ∈ e.names ∧
      endsWith (str "Outer::Inner::method") k = true :=
  listSymbols_prefixed_keys exIndexed (str "meth") [] (str "Outer::Inner::method")
    (BuiltIndex.collect exProject _ BuiltIndex.empty) (by decide)

/-! ## nameMatch -/

theorem joinNames_cons (n : Str) (suf : List Str) :
    joinNames (n :: suf) = n ++ (if suf = [] then [] else sep ++ joinNames suf) := by
  cases suf with
  | nil => simp [joinNames]
  | cons b rest => simp [joinNames]

theorem joinNames_eq_nil {l : List Str} (hl : ∀ c ∈ l, c ≠ []) : joinNames l = [] ↔ l = [] := by
  cases l with
  | nil => simp [joinNames]
  | cons a rest =>
    have ha : a ≠ [] := hl a (List.mem_cons_self _ _)
    rw [joinNames_cons]
    simp [ha]

theorem nameMatchLoop_iff (name : Str) (rest suf : List Str) (hr : ∀ c ∈ rest, c ≠ [])
    (hs : ∀ c ∈ suf, c ≠ []) :
    nameMatchLoop name rest (joinNames suf) = true ↔
      ∃ taken, taken ≠ [] ∧ taken <+: rest ∧ name = joinNames (taken.reverse ++ suf) := by
  induction rest generalizing suf with
  | nil =>
    simp only [nameMatchLoop, Bool.false_eq_true, false_iff]
    rintro ⟨taken, hne, hpre, _⟩
    exact hne (List.prefix_nil.mp hpre)
  | cons n rest ih =>
    have hfull : n ++ (if !(joinNames suf).isEmpty then sep ++ joinNames suf else joinNames suf)
        = joinNames (n :: suf) := by
      rw [joinNames_cons]
      by_cases hsuf : suf = []
      · subst hsuf
        simp [joinNames]
      · have : joinNames suf ≠ [] := fun h => hsuf ((joinNames_eq_nil hs).mp h)
        simp [hsuf, List.isEmpty_iff, this]
    simp only [nameMatchLoop, hfull]
    by_cases heq : joinNames (n :: suf) = name
    · simp only [heq, if_true, true_iff]
      exact ⟨[n], by simp, by simp [List.prefix_cons_inj], by simp [heq]⟩
    · rw [if_neg heq]
      have hr' : ∀ c ∈ rest, c ≠ [] := fun c h => hr c (List.mem_cons_of_mem _ h)
      have hs' : ∀ c ∈ n :: suf, c ≠ [] := by
        intro c h
        rcases List.mem_cons.mp h with rfl | h
        · exact hr c (List.mem_cons_self _ _)
        · exact hs c h
      rw [ih (n :: suf) hr' hs']
      constructor
      · rintro ⟨taken, hne, hpre, hname⟩
        refine ⟨n :: taken, by simp, (List.prefix_cons_inj n).mpr hpre, ?_⟩
        simpa using hname
      · rintro ⟨taken, hne, hpre, hname⟩
        cases taken with
        | nil => exact absurd rfl hne
        | cons t0 taken2 =>
          obtain ⟨ht0, hpre2⟩ := List.cons_prefix_cons.mp hpre
          subst ht0
          cases taken2 with
          | nil =>
            exfalso
            apply heq
            simpa using hname.symm
          | cons t1 taken3 =>
            exact ⟨t1 :: taken3, by simp, hpre2, by simpa using hname⟩

/-- For a symbol whose name components are all non-empty, `nameMatch` holds
exactly for the `"::"`-joins of the non-empty right-suffixes of the components. -/
theorem nameMatch_iff (symbol : Symbol) (name : Str)
    (hne : ∀ c ∈ symbol.fullyQualifiedName, c ≠ []) :
    nameMatch symbol name = true ↔
      ∃ suf, suf ≠ [] ∧ suf <:+ symbol.fullyQualifiedName ∧ name = joinNames suf := by
  unfold nameMatch
  have h := nameMatchLoop_iff name symbol.fullyQualifiedName.reverse []
    (fun c h => hne c (List.mem_reverse.mp h)) (by simp)
  simp only [joinNames, List.append_nil] at h
  rw [h]
  constructor
  · rintro ⟨taken, hne2, hpre, hname⟩
    refine ⟨taken.reverse, by simpa using hne2, ?_, hname⟩
    rw [← List.reverse_prefix]
    simpa using hpre
  · rintro ⟨suf, hne2, hsuf, hname⟩
    refine ⟨suf.reverse, by simpa using hne2, List.reverse_prefix.mpr hsuf, ?_⟩
    simpa using hname

/-! ## findCursors -/

theorem mem_cursorInsert {c d : Cursor} {cs : List Cursor} :
    c ∈ cursorInsert d cs ↔ c = d ∨ c ∈ cs := by
  unfold cursorInsert
  by_cases h : d ∈ cs
  · rw [if_pos h]
    constructor
    · exact Or.inr
    · rintro (rfl | h2)
      · exact h
      · exact h2
  · rw [if_neg h]
    simp only [List.mem_append, List.mem_singleton]
    tauto

/-- Where a cursor of the symbol loop of `findCursors` comes from. -/
theorem mem_symbolLoop {ids : FileIds} {name : Str} (syms : List Symbol) (cs : List Cursor)
    {c : Cursor}
    (hc : c ∈ syms.foldl
      (fun cs sym => if nameMatch sym name then cursorInsert (makeCursor ids sym) cs else cs) cs) :
    c ∈ cs ∨ ∃ symbol ∈ syms, nameMatch symbol name = true ∧ c = makeCursor ids symbol := by
  induction syms generalizing cs with
  | nil => exact Or.inl hc
  | cons s rest ih =>
    simp only [List.foldl_cons] at hc
    rcases ih _ hc with h | ⟨symbol, hmem, hm, heq⟩
    · by_cases hs : nameMatch s name = true
      · rw [if_pos hs] at h
        rcases mem_cursorInsert.mp h with h | h
        · exact Or.inr ⟨s, List.mem_cons_self _ _, hs, h⟩
        · exact Or.inl h
      · rw [if_neg hs] at h
        exact Or.inl h
    · exact Or.inr ⟨symbol, List.mem_cons_of_mem _ hmem, hm, heq⟩

theorem symbolLoop_mono {ids : FileIds} {name : Str} (syms : List Symbol) (cs : List Cursor)
    {c : Cursor} (hc : c ∈ cs) :
    c ∈ syms.foldl
      (fun cs sym => if nameMatch sym name then cursorInsert (makeCursor ids sym) cs else cs) cs := by
  induction syms generalizing cs with
  | nil => exact hc
  | cons s rest ih =>
    simp only [List.foldl_cons]
    apply ih
    by_cases hs : nameMatch s name = true
    · rw [if_pos hs]
      exact mem_cursorInsert.mpr (Or.inr hc)
    · rw [if_neg hs]
      exact hc

theorem call_syms (visited : List Symbol) :
    (FindSymbols.call FindMode.Cursors visited).syms = visited := by
  unfold FindSymbols.call
  rw [call_cursors_syms visited _ rfl]
  rfl

theorem findCursorsIn_mono {ids : FileIds} {self : Project} {name : Str} {cs : List Cursor}
    {path : Path} {c : Cursor} (hc : c ∈ cs) : c ∈ findCursorsIn ids self name cs path := by
  unfold findCursorsIn
  cases hd : self.documents path with
  | none => exact hc
  | some doc =>
    simp only []
    have h1 : c ∈ (match doc.globalNamespace with
        | some visited =>
          (FindSymbols.call FindMode.Cursors visited).syms.foldl
            (fun cs sym =>
              if nameMatch sym name then cursorInsert (makeCursor ids sym) cs else cs) cs
        | none => cs) := by
      cases hg : doc.globalNamespace with
      | none => exact hc
      | some visited => exact symbolLoop_mono _ _ hc
    by_cases he : endsWith path name = true
    · rw [if_pos he]
      exact mem_cursorInsert.mpr (Or.inr h1)
    · rw [if_neg he]
      exact h1

theorem foldl_findCursorsIn_mono {ids : FileIds} {self : Project} {name : Str}
    (cand : List Path) {cs : List Cursor} {c : Cursor} (hc : c ∈ cs) :
    c ∈ cand.foldl (findCursorsIn ids self name) cs := by
  induction cand generalizing cs with
  | nil => exact hc
  | cons p rest ih => exact ih (findCursorsIn_mono hc)

/-- Where a cursor of one round of the candidate loop comes from. -/
theorem mem_findCursorsIn {ids : FileIds} {self : Project} {name : Str} {cs : List Cursor}
    {path : Path} {c : Cursor} (hc : c ∈ findCursorsIn ids self name cs path) :
    c ∈ cs ∨ (endsWith path name = true ∧ c = fileCursor ids path) ∨
      ∃ doc visited symbol, self.documents path = some doc ∧
        doc.globalNamespace = some visited ∧ symbol ∈ visited ∧
        nameMatch symbol name = true ∧ c = makeCursor ids symbol := by
  unfold findCursorsIn at hc
  cases hd : self.documents path with
  | none =>
    rw [hd] at hc
    exact Or.inl hc
  | some doc =>
    rw [hd] at hc
    simp only [] at hc
    have hsym : ∀ c, c ∈ (match doc.globalNamespace with
        | some visited =>
          (FindSymbols.call FindMode.Cursors visited).syms.foldl
            (fun cs sym =>
              if nameMatch sym name then cursorInsert (makeCursor ids sym) cs else cs) cs
        | none => cs) →
        c ∈ cs ∨ ∃ doc visited symbol, self.documents path = some doc ∧
          doc.globalNamespace = some visited ∧ symbol ∈ visited ∧
          nameMatch symbol name = true ∧ c = makeCursor ids symbol := by
      intro c hc
      cases hg : doc.globalNamespace with
      | none =>
        rw [hg] at hc
        exact Or.inl hc
      | some visited =>
        rw [hg] at hc
        simp only [call_syms] at hc
        rcases mem_symbolLoop _ _ hc with h | ⟨symbol, hmem, hm, heq⟩
        · exact Or.inl h
        · exact Or.inr ⟨doc, visited, symbol, hd, hg, hmem, hm, heq⟩
    by_cases he : endsWith path name = true
    · rw [if_pos he] at hc
      rcases mem_cursorInsert.mp hc with h | h
      · exact Or.inr (Or.inl ⟨he, h⟩)
      · rcases hsym c h with h | ⟨d, v, sy, h1, h2, h3, h4, h5⟩
        · exact Or.inl h
        · exact Or.inr (Or.inr ⟨d, v, sy, hd.symm.trans h1, h2, h3, h4, h5⟩)
    · rw [if_neg he] at hc
      rcases hsym c hc with h | ⟨d, v, sy, h1, h2, h3, h4, h5⟩
      · exact Or.inl h
      · exact Or.inr (Or.inr ⟨d, v, sy, hd.symm.trans h1, h2, h3, h4, h5⟩)

/-- Counterexample to C7: `findCursors("method")` yields the cursor of the symbol
`Outer::Inner::method`, whose fully qualified name is not `method`. -/
theorem findCursors_matches_bare_name :
    makeCursor exIds exMethod ∈ findCursors exIds exIndexed (str "method") [] ∧
    nameMatch exMethod (str "method") = true ∧
    joinNames exMethod.fullyQualifiedName = str "Outer::Inner::method" ∧
    joinNames exMethod.fullyQualifiedName ≠ str "method" := by
  decide

/-- C7 as amended: every cursor that `findCursors(name, filter)` yields is the
file cursor of a candidate path that ends with `name`, or the cursor of a
symbol of a candidate document for which `nameMatch` holds; for a symbol whose
name components are all non-empty this means that `name` is the `"::"`-join of
a non-empty right-suffix of the components (the fully qualified name is one of
them, the bare name another). -/
theorem findCursors_matches_suffix (ids : FileIds) (self : Project) (name : Str)
    (pathFilter : List Path) (c : Cursor) (hc : c ∈ findCursors ids self name pathFilter) :
    (∃ path, path ∈ findCandidates self name pathFilter ∧ endsWith path name = true ∧
      c = fileCursor ids path) ∨
    (∃ path doc visited symbol, path ∈ findCandidates self name pathFilter ∧
      self.documents path = some doc ∧ doc.globalNamespace = some visited ∧
      symbol ∈ visited ∧ c = makeCursor ids symbol ∧ nameMatch symbol name = true ∧
      ((∀ comp ∈ symbol.fullyQualifiedName, comp ≠ []) →
        ∃ suf, suf ≠ [] ∧ suf <:+ symbol.fullyQualifiedName ∧ name = joinNames suf)) := by
  unfold findCursors at hc
  have key : ∀ (l : List Path) (cs : List Cursor), (∀ p ∈ l, p ∈ findCandidates self name pathFilter) →
      c ∈ l.foldl (findCursorsIn ids self name) cs → c ∈ cs ∨
      (∃ path, path ∈ findCandidates self name pathFilter ∧ endsWith path name = true ∧
        c = fileCursor ids path) ∨
      (∃ path doc visited symbol, path ∈ findCandidates self name pathFilter ∧
        self.documents path = some doc ∧ doc.globalNamespace = some visited ∧
        symbol ∈ visited ∧ c = makeCursor ids symbol ∧ nameMatch symbol name = true ∧
        ((∀ comp ∈ symbol.fullyQualifiedName, comp ≠ []) →
          ∃ suf, suf ≠ [] ∧ suf <:+ symbol.fullyQualifiedName ∧ name = joinNames suf)) := by
    intro l
    induction l with
    | nil => intro cs _ h; exact Or.inl h
    | cons p rest ih =>
      intro cs hl h
      simp only [List.foldl_cons] at h
      have hp : p ∈ findCandidates self name pathFilter := hl p (List.mem_cons_self _ _)
      rcases ih _ (fun q hq => hl q (List.mem_cons_of_mem _ hq)) h with h1 | h1
      · rcases mem_findCursorsIn h1 with h2 | ⟨he, heq⟩ | ⟨doc, visited, symbol, hd, hg, hs, hm, heq⟩
        · exact Or.inl h2
        · exact Or.inr (Or.inl ⟨p, hp, he, heq⟩)
        · exact Or.inr (Or.inr ⟨p, doc, visited, symbol, hp, hd, hg, hs, heq, hm,
            fun hne => (nameMatch_iff symbol name hne).mp hm⟩)
      · exact Or.inr h1
  rcases key _ [] (fun _ h => h) hc with h | h
  · simp at h
  · exact h

/-- C7 as amended, at the cursor of `Outer::Inner::method` found by the name
`method`. -/
theorem findCursors_matches_suffix_witness :
    (∃ path, path ∈ findCandidates exIndexed (str "method") [] ∧
      endsWith path (str "method") = true ∧ makeCursor exIds exMethod = fileCursor exIds path) ∨
    (∃ path doc visited symbol, path ∈ findCandidates exIndexed (str "method") [] ∧
      exIndexed.documents path = some doc ∧ doc.globalNamespace = some visited ∧
      symbol ∈ visited ∧ makeCursor exIds exMethod = makeCursor exIds symbol ∧
      nameMatch symbol (str "method") = true ∧
      ((∀ comp ∈ symbol.fullyQualifiedName, comp ≠ []) →
        ∃ suf, suf ≠ [] ∧ suf <:+ symbol.fullyQualifiedName ∧ str "method" = joinNames suf)) :=
  findCursors_matches_suffix exIds exIndexed (str "method") [] (makeCursor exIds exMethod)
    (by decide)

theorem endsWith_fileName (p : Path) : endsWith p (Path.fileName p) = true := by
  unfold endsWith Path.fileName List.isSuffixOf
  rw [List.reverse_reverse, List.isPrefixOf_iff_prefix]
  exact List.takeWhile_prefix _

/-- After its round of `collectNames`, a file with a document is listed under
its bare file name. -/
theorem collectFile_fileName (documents : Path → Option Document) (names : NameMap)
    (file : Path) (doc : Document) (hwf : MapWF names) (hdoc : documents file = some doc) :
    HasPath (Path.fileName file) file (collectFile documents names file) := by
  unfold collectFile
  simp only [hdoc]
  apply hasPath_mapMerge_self
  · cases hg : doc.globalNamespace with
    | none => exact hwf
    | some visited => exact (mergeNames_spec _ names hwf).1
  · simp [setInsert]

/-- The candidate loop of `findCursors` adds the file cursor of every
candidate path that has a document and ends with the name. -/
theorem fileCursor_mem_foldl {ids : FileIds} {self : Project} {name : Str} (cand : List Path)
    (cs : List Cursor) (p : Path) (doc : Document) (hp : p ∈ cand)
    (hdoc : self.documents p = some doc) (he : endsWith p name = true) :
    fileCursor ids p ∈ cand.foldl (findCursorsIn ids self name) cs := by
  induction cand generalizing cs with
  | nil => simp at hp
  | cons q rest ih =>
    simp only [List.foldl_cons]
    by_cases hq : q = p
    · subst hq
      apply foldl_findCursorsIn_mono
      unfold findCursorsIn
      simp only [hdoc, he, if_true]
      exact mem_cursorInsert.mpr (Or.inl rfl)
    · rcases List.mem_cons.mp hp with h | h
      · exact absurd h.symm hq
      · exact ih _ h

/-- C8 (find by file name): for every path `p` of the batch that has a
document, after `collectNames(batch)` the result of `findCursors` for the bare
file name of `p` and an empty filter contains a cursor of kind `File` whose
location and target are `(file id of p, line 1, column 1)` and whose symbol
name is `p`. -/
theorem find_by_file_name (ids : FileIds) (self : Project) (batch : List Path) (p : Path)
    (doc : Document) (hwf : MapWF self.names) (hp : p ∈ batch)
    (hdoc : self.documents p = some doc) :
    ∃ c, c ∈ findCursors ids (collectNames self batch) (Path.fileName p) [] ∧
      c.kind = CursorKind.File ∧
      c.location = { fileId := ids.fileId p, line := 1, column := 1 } ∧
      c.target = { fileId := ids.fileId p, line := 1, column := 1 } ∧
      c.symbolName = p := by
  refine ⟨fileCursor ids p, ?_, rfl, rfl, rfl, rfl⟩
  obtain ⟨e, he, hpe⟩ := collectNames_of_round self batch p (Path.fileName p) p hwf hp
    (fun names hn => collectFile_fileName self.documents names p doc hn hdoc)
  unfold findCursors
  apply fileCursor_mem_foldl _ _ p doc _ hdoc (endsWith_fileName p)
  unfold findCandidates
  simp only [he]
  have hpass : (toSet ([] : List Path)).isEmpty = true := rfl
  rw [if_pos hpass]
  exact mem_setUnite.mpr (Or.inr hpe)

/-- C8 at the project `exProject`, the batch `{/src/f.cpp}` and the file name
`f.cpp`. -/
theorem find_by_file_name_witness :
    ∃ c, c ∈ findCursors exIds (collectNames exProject [str "/src/f.cpp"])
        (Path.fileName (str "/src/f.cpp")) [] ∧
      c.kind = CursorKind.File ∧
      c.location = { fileId := exIds.fileId (str "/src/f.cpp"), line := 1, column := 1 } ∧
      c.target = { fileId := exIds.fileId (str "/src/f.cpp"), line := 1, column := 1 } ∧
      c.symbolName = str "/src/f.cpp" :=
  find_by_file_name exIds exProject [str "/src/f.cpp"] (str "/src/f.cpp") exDoc mapWF_nil
    (by decide) (by decide)

/-! ## The engine state machine -/

theorem inv_init : Engine.init.Inv := by
  simp [Engine.Inv, Engine.init]

theorem inv_step (s : Engine) (e : Event) (h : s.Inv) : (s.step e).Inv := by
  obtain ⟨state, jobs, pc, reader⟩ := s
  cases e with
  | worker =>
    cases reader with
    | true => simpa [Engine.step] using h
    | false =>
      cases pc <;> cases state <;> cases jobs <;>
        simp_all [Engine.Inv, Engine.step, Engine.workerStep, Engine.takeOrWait,
          Engine.changeState]
  | submit path =>
    cases reader with
    | true => simpa [Engine.step] using h
    | false =>
      cases pc <;> cases state <;>
        simp_all [Engine.Inv, Engine.step, Engine.index]
  | readerEnter =>
    cases reader with
    | true => simpa [Engine.step] using h
    | false =>
      cases pc <;> cases state <;>
        simp_all [Engine.Inv, Engine.step, Engine.waitForState, State.rank]
  | readerLeave =>
    cases pc <;> simp_all [Engine.Inv, Engine.step]

theorem inv_exec (s : Engine) (events : List Event) (h : s.Inv) : (s.exec events).Inv := by
  unfold Engine.exec
  induction events generalizing s with
  | nil => exact h
  | cons e rest ih => exact ih _ (inv_step s e h)

/-- Every state that the engine reaches from its construction satisfies the
invariant. -/
theorem inv_reachable (events : List Event) : (Engine.init.exec events).Inv :=
  inv_exec _ events inv_init

/-- Counterexample to C9: the worker starts, `/src/a.cpp` is submitted, the
worker takes the job (state `Indexing`), finishes it and enters `collectNames`
(state `CollectingNames`); a submit of `/src/b.cpp` at that point takes the
state from `CollectingNames` back to `Indexing`. -/
theorem submit_regresses_state :
    (Engine.init.exec [Event.worker, Event.submit (str "/src/a.cpp"), Event.worker]).pc
      = WorkerPc.ProcessJob (str "/src/a.cpp") ∧
    (Engine.init.exec [Event.worker, Event.submit (str "/src/a.cpp"), Event.worker]).state
      = State.Indexing ∧
    (Engine.init.exec
      [Event.worker, Event.submit (str "/src/a.cpp"), Event.worker, Event.worker]).pc
      = WorkerPc.CollectNames ∧
    (Engine.init.exec
      [Event.worker, Event.submit (str "/src/a.cpp"), Event.worker, Event.worker]).state
      = State.CollectingNames ∧
    ((Engine.init.exec
      [Event.worker, Event.submit (str "/src/a.cpp"), Event.worker, Event.worker]).step
        (Event.submit (str "/src/b.cpp"))).state = State.Indexing ∧
    State.Indexing.rank < State.CollectingNames.rank := by
  decide

/-- C9 as amended: while the worker is inside a batch (from its setting
`Indexing` at the start of the batch until it next sets `Idle`), no step of the
worker moves the state to a smaller value in the order `Starting < Indexing <
CollectingNames < Idle`; a submit (`index`) step sets the state to `Indexing`
whatever it was, also from `CollectingNames`, and the worker, finding the queue
non-empty after `collectNames`, goes back to the top of its loop in state
`Indexing` without setting `Idle`. -/
theorem worker_steps_monotone (events : List Event) (path : Path)
    (hb : (Engine.init.exec events).pc.inBatch = true) :
    (Engine.init.exec events).state.rank
      ≤ ((Engine.init.exec events).step Event.worker).state.rank ∧
    ((Engine.init.exec events).step (Event.submit path)).state = State.Indexing ∧
    ((Engine.init.exec events).pc = WorkerPc.CollectNames →
      (Engine.init.exec events).jobs ≠ [] →
      ((Engine.init.exec events).step Event.worker).state = State.Indexing ∧
      ((Engine.init.exec events).step Event.worker).pc = WorkerPc.LoopTop) := by
  have h := inv_reachable events
  generalize Engine.init.exec events = s at h hb
  obtain ⟨state, jobs, pc, reader⟩ := s
  cases pc <;> cases state <;> cases jobs <;> cases reader <;>
    simp_all [Engine.Inv, Engine.step, Engine.workerStep, Engine.index, Engine.changeState,
      WorkerPc.inBatch, State.rank]

/-- The engine when the worker is inside `collectNames` for the batch
`{/src/a.cpp}`. -/
theorem worker_steps_monotone_witness :
    (Engine.init.exec
      [Event.worker, Event.submit (str "/src/a.cpp"), Event.worker, Event.worker]).pc.inBatch
      = true ∧
    ((Engine.init.exec
        [Event.worker, Event.submit (str "/src/a.cpp"), Event.worker, Event.worker]).state.rank
      ≤ ((Engine.init.exec
        [Event.worker, Event.submit (str "/src/a.cpp"), Event.worker, Event.worker]).step
          Event.worker).state.rank ∧
    ((Engine.init.exec
      [Event.worker, Event.submit (str "/src/a.cpp"), Event.worker, Event.worker]).step
        (Event.submit (str "/src/b.cpp"))).state = State.Indexing ∧
    ((Engine.init.exec
        [Event.worker, Event.submit (str "/src/a.cpp"), Event.worker, Event.worker]).pc
        = WorkerPc.CollectNames →
      (Engine.init.exec
        [Event.worker, Event.submit (str "/src/a.cpp"), Event.worker, Event.worker]).jobs ≠ [] →
      ((Engine.init.exec
        [Event.worker, Event.submit (str "/src/a.cpp"), Event.worker, Event.worker]).step
          Event.worker).state = State.Indexing ∧
      ((Engine.init.exec
        [Event.worker, Event.submit (str "/src/a.cpp"), Event.worker, Event.worker]).step
          Event.worker).pc = WorkerPc.LoopTop)) :=
  ⟨by decide,
    worker_steps_monotone
      [Event.worker, Event.submit (str "/src/a.cpp"), Event.worker, Event.worker]
      (str "/src/b.cpp") (by decide)⟩

/-- C10 (readers of the name index never overlap a rebuild): in every state the
engine reaches, while the worker is inside `collectNames` the state is
`CollectingNames` or `Indexing` and not `Idle`, and no `listSymbols` or
`findCursors` call is past its wait for `Idle` (holding the mutex) at that
time. -/
theorem readers_never_overlap_rebuild (events : List Event) :
    ((Engine.init.exec events).pc = WorkerPc.CollectNames →
      ((Engine.init.exec events).state = State.CollectingNames ∨
        (Engine.init.exec events).state = State.Indexing) ∧
      (Engine.init.exec events).state ≠ State.Idle) ∧
    ((Engine.init.exec events).reader = true → (Engine.init.exec events).state = State.Idle) ∧
    ¬ ((Engine.init.exec events).reader = true ∧
      (Engine.init.exec events).pc = WorkerPc.CollectNames) := by
  have h := inv_reachable events
  generalize Engine.init.exec events = s at h
  obtain ⟨state, jobs, pc, reader⟩ := s
  cases pc <;> cases state <;> cases jobs <;> cases reader <;> simp_all [Engine.Inv]

/-! ## Declaration and definition -/

/-- C11 (declaration/definition round trip): for a function declaration `decl`
and a definition `defn` with `decl ≠ defn`, where the definition lookup of the
front-end returns `defn` for both and `findMatchingDeclaration(defn)` returns a
list whose first element is `decl`: `select(decl, Definition) = defn` and
`select(defn, Declaration) = decl`, so resolving the declaration with mode
`Definition` and the result with mode `Declaration` returns to the
declaration. -/
theorem select_round_trip (fe : FrontEnd) (lookupDoc : Document) (decl defn : Symbol)
    (rest : List Symbol) (hdecl : decl.functionType ≠ none) (hdefn : defn.functionType ≠ none)
    (hne : decl ≠ defn) (h1 : matchingDefinition fe decl = some defn)
    (h2 : matchingDefinition fe defn = some defn)
    (h3 : fe.findMatchingDeclaration lookupDoc defn = decl :: rest) :
    select fe lookupDoc decl FindSymbolMode.Definition = defn ∧
    select fe lookupDoc defn FindSymbolMode.Declaration = decl ∧
    select fe lookupDoc (select fe lookupDoc decl FindSymbolMode.Definition)
      FindSymbolMode.Declaration = decl := by
  have e1 : select fe lookupDoc decl FindSymbolMode.Definition = defn := by
    unfold select
    cases hf : decl.functionType with
    | none => exact absurd hf hdecl
    | some ft => simp [h1, hne]
  have e2 : select fe lookupDoc defn FindSymbolMode.Declaration = decl := by
    unfold select
    cases hf : defn.functionType with
    | none => exact absurd hf hdefn
    | some ft => simp [h2, h3]
  exact ⟨e1, e2, by rw [e1, e2]⟩

/-- C11 at the declaration `exDecl` and the definition `exDefn`. -/
theorem select_round_trip_witness :
    select exFrontEnd {} exDecl FindSymbolMode.Definition = exDefn ∧
    select exFrontEnd {} exDefn FindSymbolMode.Declaration = exDecl ∧
    select exFrontEnd {} (select exFrontEnd {} exDecl FindSymbolMode.Definition)
      FindSymbolMode.Declaration = exDecl :=
  select_round_trip exFrontEnd {} exDecl exDefn [] (by decide) (by decide) (by decide)
    (by decide) (by decide) (by decide)

/-! ## References -/

/-- C12 (reference flag table): for a usage that passes the path filter, the
line written is the usage line of the kind that `referenceKind` gives, and
none when it gives none. With neither flag the usage is written iff it is not
a hit, with kind `Reference`; with `FindVirtuals` and not `AllReferences` iff
it is a hit on a symbol whose type is a virtual or pure-virtual function, with
kind `MemberFunctionDeclaration`; with `AllReferences` always, with kind
`symbolKind` of the symbol when it is a hit and `Reference` otherwise. -/
theorem reference_flag_table (fe : FrontEnd) (self : Project) (flags : QueryFlags)
    (paths : List Path) (usage : Usage) (hpass : paths = [] ∨ usage.path ∈ paths) :
    referenceLine fe self flags paths usage =
      (referenceKind fe self flags.findVirtuals flags.allReferences usage).map
        (usageLine flags usage) ∧
    referenceKind fe self false false usage =
      (match usageHit fe self usage with
        | some _ => none
        | none => some CursorKind.Reference) ∧
    referenceKind fe self true false usage =
      (match usageHit fe self usage with
        | some refsym =>
          match refsym.functionType with
          | some funTy =>
            if funTy.isVirtual = true ∨ funTy.isPureVirtual = true then
              some CursorKind.MemberFunctionDeclaration
            else none
          | none => none
        | none => none) ∧
    ∀ wantVirtuals, referenceKind fe self wantVirtuals true usage =
      (match usageHit fe self usage with
        | some refsym => some (symbolKind refsym)
        | none => some CursorKind.Reference) := by
  refine ⟨?_, ?_, ?_, ?_⟩
  · unfold referenceLine
    have hf : (!paths.isEmpty && !setContains paths usage.path) = false := by
      rcases hpass with h | h
      · subst h
        rfl
      · simp [setContains, h]
    simp only [hf]
    cases referenceKind fe self flags.findVirtuals flags.allReferences usage <;> simp
  · unfold referenceKind usageHit
    rcases hd : self.documents usage.path with _ | doc
    · simp
    · rcases hl : fe.lastVisibleSymbolAt doc usage.line (usage.col + 1) with _ | refsym
      · simp [hl]
      · by_cases hh : refsym.line = usage.line ∧ refsym.column = usage.col + 1
        · simp [hl, hh]
        · simp [hl, hh]
  · unfold referenceKind usageHit
    rcases hd : self.documents usage.path with _ | doc
    · simp
    · rcases hl : fe.lastVisibleSymbolAt doc usage.line (usage.col + 1) with _ | refsym
      · simp [hl]
      · by_cases hh : refsym.line = usage.line ∧ refsym.column = usage.col + 1
        · rcases hft : refsym.functionType with _ | funTy
          · simp [hl, hh, hft]
          · by_cases hv : funTy.isVirtual = true ∨ funTy.isPureVirtual = true
            · simp [hl, hh, hft, hv]
            · simp [hl, hh, hft, hv]
        · simp [hl, hh]
  · intro wantVirtuals
    unfold referenceKind usageHit
    rcases hd : self.documents usage.path with _ | doc
    · simp
    · rcases hl : fe.lastVisibleSymbolAt doc usage.line (usage.col + 1) with _ | refsym
      · simp [hl]
      · by_cases hh : refsym.line = usage.line ∧ refsym.column = usage.col + 1
        · simp [hl, hh]
        · simp [hl, hh]

/-- C12 at the usage `exUsage`, which sits on the declaration `exDecl`, with
the flag `FindVirtuals` and no path filter. -/
theorem reference_flag_table_witness :
    referenceLine exFrontEnd exFooProject { findVirtuals := true } [] exUsage =
      (referenceKind exFrontEnd exFooProject true false exUsage).map
        (usageLine { findVirtuals := true } exUsage) ∧
    referenceKind exFrontEnd exFooProject false false exUsage =
      (match usageHit exFrontEnd exFooProject exUsage with
        | some _ => none
        | none => some CursorKind.Reference) ∧
    referenceKind exFrontEnd exFooProject true false exUsage =
      (match usageHit exFrontEnd exFooProject exUsage with
        | some refsym =>
          match refsym.functionType with
          | some funTy =>
            if funTy.isVirtual = true ∨ funTy.isPureVirtual = true then
              some CursorKind.MemberFunctionDeclaration
            else none
          | none => none
        | none => none) ∧
    ∀ wantVirtuals, referenceKind exFrontEnd exFooProject wantVirtuals true exUsage =
      (match usageHit exFrontEnd exFooProject exUsage with
        | some refsym => some (symbolKind refsym)
        | none => some CursorKind.Reference) :=
  reference_flag_table exFrontEnd exFooProject { findVirtuals := true } [] exUsage (Or.inl rfl)

/-- When the document exists and the location resolves to a symbol,
`references` writes the usage lines and then the sentinel. -/
theorem references_of_found (ids : FileIds) (fe : FrontEnd) (self : Project)
    (location : Location) (flags : QueryFlags) (pathFilters : List Path) (doc : Document)
    (sym : Symbol) (loc : Location)
    (hdoc : self.documents (ids.path location.fileId) = some doc)
    (hsym : findSymbol ids fe doc location FindSymbolMode.Declaration
      ((match mapGet (ids.path location.fileId) self.headerToSource with
        | some src => self.documents src
        | none => none).getD doc) = FindResult.found sym loc) :
    references ids fe self location flags pathFilters =
      (findUsages fe sym).filterMap (referenceLine fe self flags (toSet pathFilters))
        ++ [sentinel] := by
  unfold references
  simp only [hdoc, hsym]

/-- C13 at the failing inputs: for a location in `/src/gone.cpp`, which has no
document, and for a location in `/src/foo.h` that resolves to no symbol,
`references` writes nothing at all, so no sentinel line ends the output. -/
theorem references_without_sentinel :
    exFooProject.documents (exFooIds.path 2) = none ∧
    references exFooIds exFrontEnd exFooProject { fileId := 2, line := 1, column := 1 } {} []
      = [] ∧
    exFooProject.documents (exFooIds.path 1) = some { fileName := str "/src/foo.h" } ∧
    findSymbol exFooIds exFrontEnd { fileName := str "/src/foo.h" }
      { fileId := 1, line := 5, column := 1 } FindSymbolMode.Declaration
      { fileName := str "/src/foo.h" } = FindResult.notFound ∧
    references exFooIds exFrontEnd exFooProject { fileId := 1, line := 5, column := 1 } {} []
      = [] ∧
    sentinel ∉ references exFooIds exFrontEnd exFooProject
      { fileId := 2, line := 1, column := 1 } {} [] := by
  decide

/-! ## Units and jobs -/

/-- C14 at the failing input: a unit for `/src/a.cpp` exists with the build
`-DOLD -I/old`, and a job for `/src/a.cpp` with the build `-DNEW -I/new` is
processed. The preprocessor runs with the old defines and include paths, and
the unit registered for the path still carries the old configuration. When
no unit exists yet, the job's configuration is used. -/
theorem processJob_keeps_old_configuration :
    exJobNew.info.builds ≠ exUnitOld.info.builds ∧
    processJob [(str "/src/a.cpp", exUnitOld)] [str "/usr/include"] exJobNew =
      ([(str "/src/a.cpp", exUnitOld)],
        [{ file := str "/src/a.cpp", defines := [str "OLD", str "__GNUC__=4"],
           includePaths := [str "/old", str "/usr/include"] }]) ∧
    findUnit (processJob [(str "/src/a.cpp", exUnitOld)] [str "/usr/include"] exJobNew).1
      (str "/src/a.cpp") = some exUnitOld ∧
    processJob [] [str "/usr/include"] exJobNew =
      ([(str "/src/a.cpp", { info := exJobNew.info })],
        [{ file := str "/src/a.cpp", defines := [str "NEW", str "__GNUC__=4"],
           includePaths := [str "/new", str "/usr/include"] }]) := by
  decide

/-! ## The include graph -/

theorem mapGet_mapSet_self {β : Type} (k : Str) (v : β) (m : List (Str × β)) :
    mapGet k (mapSet k v m) = some v := by
  induction m with
  | nil => simp [mapSet, mapGet]
  | cons kv rest ih =>
    obtain ⟨k0, w⟩ := kv
    simp only [mapSet]
    by_cases h1 : strLt k k0 = true
    · rw [if_pos h1]
      simp [mapGet]
    · by_cases h2 : strLt k0 k = true
      · rw [if_neg h1, if_pos h2]
        simp only [mapGet]
        rw [if_neg (strLt_ne h2)]
        exact ih
      · have hk : k = k0 := strLt_connex (by simpa using h1) (by simpa using h2)
        subst hk
        rw [if_neg h1, if_neg h2]
        simp [mapGet]

theorem mapGet_mapSet_ne {β : Type} {k k1 : Str} (v : β) (m : List (Str × β)) (hne : k1 ≠ k) :
    mapGet k1 (mapSet k v m) = mapGet k1 m := by
  have hne' : ¬ k = k1 := fun h => hne h.symm
  induction m with
  | nil => simp [mapSet, mapGet, hne']
  | cons kv rest ih =>
    obtain ⟨k0, w⟩ := kv
    simp only [mapSet]
    by_cases h1 : strLt k k0 = true
    · rw [if_pos h1]
      conv_lhs => rw [mapGet]
      rw [if_neg hne']
    · by_cases h2 : strLt k0 k = true
      · rw [if_neg h1, if_pos h2]
        simp only [mapGet]
        by_cases hk0 : k0 = k1
        · simp [hk0]
        · rw [if_neg hk0, if_neg hk0, ih]
      · have hk : k = k0 := strLt_connex (by simpa using h1) (by simpa using h2)
        subst hk
        rw [if_neg h1, if_neg h2]
        simp [mapGet, hne']

theorem mapGet_foldl_includes (file : Path) (includes : List Include) (m : List (Str × Str)) :
    (∀ h, h ∈ includes.map Include.fileName →
      mapGet h (includes.foldl (fun m inc => mapSet inc.fileName file m) m) = some file) ∧
    (∀ k, k ∉ includes.map Include.fileName →
      mapGet k (includes.foldl (fun m inc => mapSet inc.fileName file m) m) = mapGet k m) := by
  induction includes generalizing m with
  | nil => simp
  | cons inc rest ih =>
    simp only [List.foldl_cons, List.map_cons, List.mem_cons, not_or]
    obtain ⟨ih1, ih2⟩ := ih (mapSet inc.fileName file m)
    constructor
    · intro h hh
      by_cases hr : h ∈ rest.map Include.fileName
      · exact ih1 h hr
      · rcases hh with hh | hh
        · rw [ih2 h hr, hh, mapGet_mapSet_self]
        · exact absurd hh hr
    · rintro k ⟨hk1, hk2⟩
      rw [ih2 k hk2, mapGet_mapSet_ne _ _ hk1]

theorem onDocumentUpdated_headerToSource (self : Project) (d : Document) :
    (onDocumentUpdated self d).headerToSource =
      d.includes.foldl (fun m inc => mapSet inc.fileName d.fileName m) self.headerToSource := by
  unfold onDocumentUpdated
  cases hi : d.includes with
  | nil => simp
  | cons inc rest => simp

/-- C15 (the include graph keeps the latest includer): after
`onDocumentUpdated(d)` every include `h` of `d` maps to the file name of `d`,
every key `k` that is not an include of `d` keeps its previous value, and
after a further document `d2` that includes `h` too, `h` maps to `d2`. -/
theorem include_graph_latest (self : Project) (d d2 : Document) (h k : Path)
    (hh : h ∈ d.includes.map Include.fileName) (hk : k ∉ d.includes.map Include.fileName)
    (hh2 : h ∈ d2.includes.map Include.fileName) :
    mapGet h (onDocumentUpdated self d).headerToSource = some d.fileName ∧
    mapGet k (onDocumentUpdated self d).headerToSource = mapGet k self.headerToSource ∧
    mapGet h (onDocumentUpdated (onDocumentUpdated self d) d2).headerToSource
      = some d2.fileName := by
  refine ⟨?_, ?_, ?_⟩
  · rw [onDocumentUpdated_headerToSource]
    exact (mapGet_foldl_includes _ _ _).1 h hh
  · rw [onDocumentUpdated_headerToSource]
    exact (mapGet_foldl_includes _ _ _).2 k hk
  · rw [onDocumentUpdated_headerToSource]
    exact (mapGet_foldl_includes _ _ _).1 h hh2

/-- C15 at the documents `/src/a.cpp` and `/src/b.cpp`, which both include
`/src/h.h`, and the key `/src/other.h`. -/
theorem include_graph_latest_witness :
    mapGet (str "/src/h.h") (onDocumentUpdated {} exDocA).headerToSource
      = some exDocA.fileName ∧
    mapGet (str "/src/other.h") (onDocumentUpdated {} exDocA).headerToSource
      = mapGet (str "/src/other.h") ({} : Project).headerToSource ∧
    mapGet (str "/src/h.h") (onDocumentUpdated (onDocumentUpdated {} exDocA) exDocB).headerToSource
      = some exDocB.fileName :=
  include_graph_latest {} exDocA exDocB (str "/src/h.h") (str "/src/other.h") (by decide)
    (by decide) (by decide)

/-! ## The outright hit -/

/-- The outright test accepts the columns from the candidate's column up to
and including the column just past its identifier. -/
theorem outrightHit_iff (candidate : Symbol) (idSize line column : Nat) :
    outrightHit candidate idSize line column = true ↔
      candidate.line = line ∧ candidate.column ≤ column ∧
        column ≤ candidate.column + idSize := by
  simp [outrightHit]

/-- C16 at the failing input: the candidate `bar` is at line 3, column 10, and
its identifier has 3 characters, so its token covers the columns 10 to 12; at
the location (3, 13), where the column is the candidate's column plus the
identifier length, `findSymbol` takes the candidate as an outright hit. -/
theorem outright_hit_past_identifier :
    exDecl.identifier = some (str "bar") ∧ exDecl.line = 3 ∧ exDecl.column = 10 ∧
    (str "bar").length = 3 ∧
    outrightHit exDecl 3 3 13 = true ∧
    findOutright exFrontEnd {} 3 13 = some exDecl ∧
    findSymbol exFooIds exFrontEnd {} { fileId := 1, line := 3, column := 13 }
      FindSymbolMode.Declaration {} = FindResult.found exDecl (makeLocation exFooIds exDecl) ∧
    findOutright exFrontEnd {} 3 14 = none := by
  decide

/-! ## The scope at a location -/

theorem covers_congr (gp : Nat → Nat × Nat) {v w : ReallyFindScopeAt} (hl : v.line = w.line)
    (hc : v.column = w.column) (s : Scope) : v.covers gp s = w.covers gp s := by
  unfold ReallyFindScopeAt.covers
  rw [hl, hc]

theorem check_line_column (gp : Nat → Nat × Nat) (v : ReallyFindScopeAt) (s : Scope) :
    (v.check gp s).line = v.line ∧ (v.check gp s).column = v.column := by
  unfold ReallyFindScopeAt.check
  split
  · split <;> simp
  · simp

theorem acceptAll_line_column (gp : Nat → Nat × Nat) (f : ScopeForest) (v : ReallyFindScopeAt) :
    (ReallyFindScopeAt.acceptAll gp f v).line = v.line ∧
    (ReallyFindScopeAt.acceptAll gp f v).column = v.column := by
  induction f generalizing v with
  | nil => exact ⟨rfl, rfl⟩
  | node sc members next ihm ihn =>
    simp only [ReallyFindScopeAt.acceptAll]
    obtain ⟨h1, h2⟩ := ihn ((ReallyFindScopeAt.acceptAll gp members v).check gp sc)
    obtain ⟨h3, h4⟩ := check_line_column gp (ReallyFindScopeAt.acceptAll gp members v) sc
    obtain ⟨h5, h6⟩ := ihm v
    exact ⟨by rw [h1, h3, h5], by rw [h2, h4, h6]⟩

theorem covers_of_within {gp : Nat → Nat × Nat} (hm : MonotonePositions gp)
    {v : ReallyFindScopeAt} {inner outer : Scope} (hw : inner.within outer)
    (hc : v.covers gp inner = true) : v.covers gp outer = true := by
  unfold ReallyFindScopeAt.covers at hc ⊢
  have h1 := hm outer.startOffset inner.startOffset hw.1
  have h2 := hm inner.endOffset outer.endOffset hw.2
  simp only [decide_eq_true_eq] at hc ⊢
  omega

theorem not_covers_of_disjoint {gp : Nat → Nat × Nat} (hm : MonotonePositions gp)
    {v : ReallyFindScopeAt} {a b : Scope} (hd : a.disjoint b) (ha : v.covers gp a = true)
    (hb : v.covers gp b = true) : False := by
  unfold ReallyFindScopeAt.covers at ha hb
  simp only [decide_eq_true_eq] at ha hb
  rcases hd with h | h
  · have := hm a.endOffset b.startOffset h
    omega
  · have := hm b.endOffset a.startOffset h
    omega

theorem within_trans {a b c : Scope} (h1 : a.within b) (h2 : b.within c) : a.within c :=
  ⟨Nat.le_trans h2.1 h1.1, Nat.le_trans h1.2 h2.2⟩

/-- In a well nested forest the range of every scope lies within the range of
a top-level scope. -/
theorem within_root {f : ScopeForest} (hw : f.WellNested) {s : Scope} (hs : s ∈ f.scopes) :
    ∃ r ∈ f.roots, s.within r := by
  induction f with
  | nil => simp [ScopeForest.scopes] at hs
  | node sc members next ihm ihn =>
    obtain ⟨hwm, hwn, hin, _⟩ := hw
    simp only [ScopeForest.scopes, List.mem_cons, List.mem_append] at hs
    rcases hs with rfl | hs | hs
    · exact ⟨s, by simp [ScopeForest.roots], ⟨Nat.le_refl _, Nat.le_refl _⟩⟩
    · obtain ⟨c, hc, hsc⟩ := ihm hwm hs
      exact ⟨sc, by simp [ScopeForest.roots], within_trans hsc (hin c hc)⟩
    · obtain ⟨r, hr, hsr⟩ := ihn hwn hs
      exact ⟨r, by simp [ScopeForest.roots, hr], hsr⟩

theorem check_of_not_covers {gp : Nat → Nat × Nat} {v : ReallyFindScopeAt} {s : Scope}
    (h : v.covers gp s = false) : v.check gp s = v := by
  unfold ReallyFindScopeAt.check
  simp [h]

/-- A forest none of whose scopes covers the location leaves the visitor as
it is. -/
theorem acceptAll_of_not_covers {gp : Nat → Nat × Nat} (f : ScopeForest)
    (v : ReallyFindScopeAt) (h : ∀ s ∈ f.scopes, v.covers gp s = false) :
    ReallyFindScopeAt.acceptAll gp f v = v := by
  induction f generalizing v with
  | nil => rfl
  | node sc members next ihm ihn =>
    simp only [ReallyFindScopeAt.acceptAll]
    have hm : ReallyFindScopeAt.acceptAll gp members v = v :=
      ihm v (fun s hs => h s (by simp [ScopeForest.scopes, hs]))
    rw [hm, check_of_not_covers (h sc (by simp [ScopeForest.scopes]))]
    exact ihn v (fun s hs => h s (by simp [ScopeForest.scopes, hs]))

/-- What the visitor holds after a well nested forest, when it held no scope
before: either no scope of the forest covers the location and the visitor is
unchanged, or it holds a scope of the forest that covers the location, with
the bounds of that scope, and whose range lies within the range of every
scope of the forest that covers the location. -/
theorem acceptAll_spec {gp : Nat → Nat × Nat} (hm : MonotonePositions gp) (f : ScopeForest)
    (hw : f.WellNested) (v : ReallyFindScopeAt) (hv : v.scope = none) :
    ((∀ s ∈ f.scopes, v.covers gp s = false) ∧ ReallyFindScopeAt.acceptAll gp f v = v) ∨
    ∃ s, (ReallyFindScopeAt.acceptAll gp f v).scope = some s ∧ s ∈ f.scopes ∧
      v.covers gp s = true ∧
      (ReallyFindScopeAt.acceptAll gp f v).foundStart = s.startOffset ∧
      (ReallyFindScopeAt.acceptAll gp f v).foundEnd = s.endOffset ∧
      ∀ t ∈ f.scopes, v.covers gp t = true → s.within t := by
  induction f generalizing v with
  | nil => exact Or.inl ⟨by simp [ScopeForest.scopes], rfl⟩
  | node sc members next ihm ihn =>
    obtain ⟨hwm, hwn, hin, hdis⟩ := hw
    simp only [ReallyFindScopeAt.acceptAll]
    have hmem_within : ∀ t ∈ members.scopes, t.within sc := by
      intro t ht
      obtain ⟨c, hc, htc⟩ := within_root hwm ht
      exact within_trans htc (hin c hc)
    by_cases hsc : v.covers gp sc = true
    · -- the scope covers the location: nothing of `next` does
      have hnext : ∀ t ∈ next.scopes, v.covers gp t = false := by
        intro t ht
        cases hct : v.covers gp t with
        | false => rfl
        | true =>
          obtain ⟨d, hd, htd⟩ := within_root hwn ht
          exact (not_covers_of_disjoint hm (hdis d hd) hsc (covers_of_within hm htd hct)).elim
      have hlc1 := acceptAll_line_column gp members v
      have hcov1 : ∀ t, (ReallyFindScopeAt.acceptAll gp members v).covers gp t = v.covers gp t :=
        fun t => covers_congr gp hlc1.1 hlc1.2 t
      have hlc2 := check_line_column gp (ReallyFindScopeAt.acceptAll gp members v) sc
      have hnext2 : ∀ t ∈ next.scopes,
          ((ReallyFindScopeAt.acceptAll gp members v).check gp sc).covers gp t = false := by
        intro t ht
        rw [covers_congr gp (hlc2.1.trans hlc1.1) (hlc2.2.trans hlc1.2) t]
        exact hnext t ht
      rw [acceptAll_of_not_covers next _ hnext2]
      right
      rcases ihm hwm v hv with ⟨hnone, heq⟩ | ⟨sm, hsm, hsmem, hsmc, hfs, hfe, hmin⟩
      · -- no member covers the location: the scope itself is found
        rw [heq]
        refine ⟨sc, ?_, by simp [ScopeForest.scopes], hsc, ?_, ?_, ?_⟩
        · simp [ReallyFindScopeAt.check, hsc, hv]
        · simp [ReallyFindScopeAt.check, hsc, hv]
        · simp [ReallyFindScopeAt.check, hsc, hv]
        · intro t ht hct
          simp only [ScopeForest.scopes, List.mem_cons, List.mem_append] at ht
          rcases ht with rfl | ht | ht
          · exact ⟨Nat.le_refl _, Nat.le_refl _⟩
          · rw [hnone t ht] at hct
            exact absurd hct (by decide)
          · rw [hnext t ht] at hct
            exact absurd hct (by decide)
      · -- a member scope `sm` was found
        have hsmw : sm.within sc := hmem_within sm hsmem
        have hcsc : (ReallyFindScopeAt.acceptAll gp members v).covers gp sc = true := by
          rw [hcov1]
          exact hsc
        by_cases hcond : sc.startOffset ≥ (ReallyFindScopeAt.acceptAll gp members v).foundStart ∧
            sc.endOffset ≤ (ReallyFindScopeAt.acceptAll gp members v).foundEnd
        · have hcheck : (ReallyFindScopeAt.acceptAll gp members v).check gp sc =
              { ReallyFindScopeAt.acceptAll gp members v with
                foundStart := sc.startOffset, foundEnd := sc.endOffset, scope := some sc } := by
            simp [ReallyFindScopeAt.check, hcsc, hcond]
          rw [hcheck]
          refine ⟨sc, rfl, by simp [ScopeForest.scopes], hsc, rfl, rfl, ?_⟩
          rw [hfs, hfe] at hcond
          have hs1 : sc.startOffset = sm.startOffset := Nat.le_antisymm hsmw.1 hcond.1
          have hs2 : sc.endOffset = sm.endOffset := Nat.le_antisymm hcond.2 hsmw.2
          intro t ht hct
          simp only [ScopeForest.scopes, List.mem_cons, List.mem_append] at ht
          rcases ht with rfl | ht | ht
          · exact ⟨Nat.le_refl _, Nat.le_refl _⟩
          · have := hmin t ht hct
            exact ⟨by rw [hs1]; exact this.1, by rw [hs2]; exact this.2⟩
          · rw [hnext t ht] at hct
            exact absurd hct (by decide)
        · have hcheck : (ReallyFindScopeAt.acceptAll gp members v).check gp sc =
              ReallyFindScopeAt.acceptAll gp members v := by
            simp [ReallyFindScopeAt.check, hcsc, hcond, hsm]
          rw [hcheck]
          refine ⟨sm, hsm, by simp [ScopeForest.scopes, hsmem], hsmc, hfs, hfe, ?_⟩
          intro t ht hct
          simp only [ScopeForest.scopes, List.mem_cons, List.mem_append] at ht
          rcases ht with rfl | ht | ht
          · exact hsmw
          · exact hmin t ht hct
          · rw [hnext t ht] at hct
            exact absurd hct (by decide)
    · -- the scope does not cover the location: no member does either
      have hsc' : v.covers gp sc = false := by simpa using hsc
      have hmem : ∀ t ∈ members.scopes, v.covers gp t = false := by
        intro t ht
        cases hct : v.covers gp t with
        | false => rfl
        | true => exact absurd (covers_of_within hm (hmem_within t ht) hct) hsc
      rw [acceptAll_of_not_covers members v hmem, check_of_not_covers hsc']
      rcases ihn hwn v hv with ⟨hnone, heq⟩ | ⟨s, hs, hsmem, hsc2, hfs, hfe, hmin⟩
      · left
        refine ⟨?_, heq⟩
        intro t ht
        simp only [ScopeForest.scopes, List.mem_cons, List.mem_append] at ht
        rcases ht with rfl | ht | ht
        · exact hsc'
        · exact hmem t ht
        · exact hnone t ht
      · right
        refine ⟨s, hs, by simp [ScopeForest.scopes, hsmem], hsc2, hfs, hfe, ?_⟩
        intro t ht hct
        simp only [ScopeForest.scopes, List.mem_cons, List.mem_append] at ht
        rcases ht with rfl | ht | ht
        · rw [hsc'] at hct
          exact absurd hct (by decide)
        · rw [hmem t ht] at hct
          exact absurd hct (by decide)
        · exact hmin t ht hct

theorem start_lt_end_of_covers {gp : Nat → Nat × Nat} (hm : MonotonePositions gp)
    {v : ReallyFindScopeAt} {s : Scope} (hc : v.covers gp s = true) :
    s.startOffset < s.endOffset := by
  by_contra hlt
  have h := hm s.endOffset s.startOffset (Nat.le_of_not_lt hlt)
  unfold ReallyFindScopeAt.covers at hc
  simp only [decide_eq_true_eq] at hc
  omega

theorem exGetPosition_monotone : MonotonePositions exGetPosition := by
  intro a b h
  right
  simp only [exGetPosition, true_and]
  omega

theorem exScopes_wellNested : exScopes.WellNested := by
  simp [exScopes, ScopeForest.WellNested, ScopeForest.roots, Scope.within]

/-- C17 (smallest enclosing scope): for a well nested scope tree and monotone
positions, a scope returned by `ReallyFindScopeAt` is a visited scope whose
range satisfies `start <= location < end`, its range lies within the range of
every visited scope that contains the location, so none of them has a strictly
smaller range; and no scope is returned iff no visited scope contains the
location. -/
theorem smallest_enclosing_scope (gp : Nat → Nat × Nat) (line column : Nat)
    (tree : ScopeForest) (hm : MonotonePositions gp) (hw : tree.WellNested) :
    (∀ s, reallyFindScopeAt gp line column tree = some s →
      s ∈ tree.scopes ∧
      ({ line := line, column := column } : ReallyFindScopeAt).covers gp s = true ∧
      ∀ t ∈ tree.scopes,
        ({ line := line, column := column } : ReallyFindScopeAt).covers gp t = true →
        s.within t ∧ ¬ (t.endOffset - t.startOffset < s.endOffset - s.startOffset)) ∧
    (reallyFindScopeAt gp line column tree = none ↔
      ∀ t ∈ tree.scopes,
        ({ line := line, column := column } : ReallyFindScopeAt).covers gp t = false) := by
  unfold reallyFindScopeAt
  rcases acceptAll_spec hm tree hw { line := line, column := column } rfl with
    ⟨hnone, heq⟩ | ⟨s, hs, hsmem, hsc, _, _, hmin⟩
  · rw [heq]
    refine ⟨fun s h => by simp at h, ?_⟩
    simp only [true_iff]
    exact hnone
  · rw [hs]
    constructor
    · intro s2 h2
      have h2' : s = s2 := by simpa using h2
      subst h2'
      refine ⟨hsmem, hsc, ?_⟩
      intro t ht hct
      have hwt := hmin t ht hct
      refine ⟨hwt, ?_⟩
      have := hwt.1
      have := hwt.2
      omega
    · simp only [reduceCtorEq, false_iff]
      intro hall
      rw [hall s hsmem] at hsc
      exact absurd hsc (by decide)

/-- C17 at the tree `exScopes` and the location (1, 32), which lies in the
block scope 3. -/
theorem smallest_enclosing_scope_witness :
    MonotonePositions exGetPosition ∧ exScopes.WellNested ∧
    reallyFindScopeAt exGetPosition 1 32 exScopes =
      some { id := 3, startOffset := 30, endOffset := 35 } ∧
    ((∀ s, reallyFindScopeAt exGetPosition 1 32 exScopes = some s →
      s ∈ exScopes.scopes ∧
      ({ line := 1, column := 32 } : ReallyFindScopeAt).covers exGetPosition s = true ∧
      ∀ t ∈ exScopes.scopes,
        ({ line := 1, column := 32 } : ReallyFindScopeAt).covers exGetPosition t = true →
        s.within t ∧ ¬ (t.endOffset - t.startOffset < s.endOffset - s.startOffset)) ∧
    (reallyFindScopeAt exGetPosition 1 32 exScopes = none ↔
      ∀ t ∈ exScopes.scopes,
        ({ line := 1, column := 32 } : ReallyFindScopeAt).covers exGetPosition t = false)) :=
  ⟨exGetPosition_monotone, exScopes_wellNested, by decide,
    smallest_enclosing_scope exGetPosition 1 32 exScopes exGetPosition_monotone
      exScopes_wellNested⟩

/-- Counterexample to C18: in `exScopes` the scope 1 and its member, the scope
2, have the same offset range and both contain the location (1, 16), the
smaller scope 3 does not; `ReallyFindScopeAt` returns the scope 1, the
ancestor, not the scope 2. -/
theorem tie_returns_ancestor :
    reallyFindScopeAt exGetPosition 1 16 exScopes =
      some { id := 1, startOffset := 10, endOffset := 40 } ∧
    ({ line := 1, column := 16 } : ReallyFindScopeAt).covers exGetPosition
      { id := 1, startOffset := 10, endOffset := 40 } = true ∧
    ({ line := 1, column := 16 } : ReallyFindScopeAt).covers exGetPosition
      { id := 2, startOffset := 10, endOffset := 40 } = true ∧
    ({ line := 1, column := 16 } : ReallyFindScopeAt).covers exGetPosition
      { id := 3, startOffset := 30, endOffset := 35 } = false ∧
    reallyFindScopeAt exGetPosition 1 16 exScopes ≠
      some { id := 2, startOffset := 10, endOffset := 40 } := by
  decide

/-- C18 as amended: in a well nested tree, when a scope `sc` and a scope `d`
among its descendants have the same offset range, both contain the location,
and no descendant of `sc` that contains the location has a strictly smaller
range, `ReallyFindScopeAt` called on `sc` returns `sc`, the ancestor: the
members are processed before their scope, and a scope whose bounds equal the
bounds found so far replaces the scope found. -/
theorem ties_go_to_ancestor (gp : Nat → Nat × Nat) (line column : Nat) (sc d : Scope)
    (members : ScopeForest) (hm : MonotonePositions gp)
    (hw : (ScopeForest.node sc members ScopeForest.nil).WellNested)
    (hd : d ∈ members.scopes) (hs : d.startOffset = sc.startOffset)
    (he : d.endOffset = sc.endOffset)
    (hcov : ({ line := line, column := column } : ReallyFindScopeAt).covers gp d = true)
    (hsmall : ∀ t ∈ members.scopes,
      ({ line := line, column := column } : ReallyFindScopeAt).covers gp t = true →
      ¬ (t.endOffset - t.startOffset < d.endOffset - d.startOffset)) :
    reallyFindScopeAt gp line column (ScopeForest.node sc members ScopeForest.nil) = some sc := by
  obtain ⟨hwm, _, hin, _⟩ := hw
  unfold reallyFindScopeAt
  simp only [ReallyFindScopeAt.acceptAll]
  have hlc := acceptAll_line_column gp members { line := line, column := column }
  have hcsc : ({ line := line, column := column } : ReallyFindScopeAt).covers gp sc = true := by
    unfold ReallyFindScopeAt.covers at hcov ⊢
    rw [← hs, ← he]
    exact hcov
  have hcsc2 : (ReallyFindScopeAt.acceptAll gp members { line := line, column := column }).covers
      gp sc = true := by
    rw [covers_congr gp hlc.1 hlc.2 sc]
    exact hcsc
  rcases acceptAll_spec hm members hwm { line := line, column := column } rfl with
    ⟨hnone, _⟩ | ⟨s, _, hsmem, hsc, hfs, hfe, hmin⟩
  · rw [hnone d hd] at hcov
    exact absurd hcov (by decide)
  · have h1 := hmin d hd hcov
    have h2 := hsmall s hsmem hsc
    have h3 := start_lt_end_of_covers hm hsc
    have hw1 := h1.1
    have hw2 := h1.2
    have hcond : sc.startOffset ≥
          (ReallyFindScopeAt.acceptAll gp members { line := line, column := column }).foundStart ∧
        sc.endOffset ≤
          (ReallyFindScopeAt.acceptAll gp members { line := line, column := column }).foundEnd := by
      rw [hfs, hfe]
      constructor <;> omega
    simp [ReallyFindScopeAt.check, hcsc2, hcond]

/-- C18 as amended, at the scope 1 of `exScopes`, its member scope 2 and the
location (1, 16). -/
theorem ties_go_to_ancestor_witness :
    reallyFindScopeAt exGetPosition 1 16
      (ScopeForest.node { id := 1, startOffset := 10, endOffset := 40 }
        (ScopeForest.node { id := 2, startOffset := 10, endOffset := 40 }
          (ScopeForest.node { id := 3, startOffset := 30, endOffset := 35 }
            ScopeForest.nil ScopeForest.nil)
          ScopeForest.nil)
        ScopeForest.nil) = some { id := 1, startOffset := 10, endOffset := 40 } :=
  ties_go_to_ancestor exGetPosition 1 16 { id := 1, startOffset := 10, endOffset := 40 }
    { id := 2, startOffset := 10, endOffset := 40 }
    (ScopeForest.node { id := 2, startOffset := 10, endOffset := 40 }
      (ScopeForest.node { id := 3, startOffset := 30, endOffset := 35 }
        ScopeForest.nil ScopeForest.nil)
      ScopeForest.nil)
    exGetPosition_monotone
    (by simp [ScopeForest.WellNested, ScopeForest.roots, Scope.within])
    (by decide) rfl rfl (by decide) (by decide)

/-! ## canonicalSymbol -/

theorem canonicalFirst_spec (results : List LookupItem) :
    (canonicalFirst results = none ↔ ∀ r ∈ results, r.declaration = none) ∧
    ∀ decl, canonicalFirst results = some decl →
      ∃ pre r post, results = pre ++ r :: post ∧ (∀ p ∈ pre, p.declaration = none) ∧
        r.declaration = some decl := by
  induction results with
  | nil => simp [canonicalFirst]
  | cons r rest ih =>
    rcases hr : r.declaration with _ | d
    · simp only [canonicalFirst, hr, List.mem_cons, forall_eq_or_imp, true_and]
      refine ⟨ih.1, ?_⟩
      intro decl hdecl
      obtain ⟨pre, r2, post, heq, hpre, hr2⟩ := ih.2 decl hdecl
      refine ⟨r :: pre, r2, post, by rw [heq]; rfl, ?_, hr2⟩
      intro p hp
      rcases List.mem_cons.mp hp with rfl | hp
      · exact hr
      · exact hpre p hp
    · simp only [canonicalFirst, hr, List.mem_cons, forall_eq_or_imp]
      refine ⟨by simp, ?_⟩
      intro decl hdecl
      exact ⟨[], r, rest, rfl, by simp, by rw [hr]; exact hdecl⟩

/-- Counterexample to C19: for the results `exOrphan`, `exDecl` the
virtual-method scan selects nothing, and `canonicalSymbol` returns `exOrphan`,
whose enclosing scope is null, although the later result `exDecl` has an
enclosing scope. -/
theorem canonicalSymbol_returns_unscoped :
    canonicalVirtualScan exResults.reverse = none ∧
    canonicalSymbolOf exResults = some exOrphan ∧
    exOrphan.enclosing = [] ∧
    exDecl.enclosing ≠ [] := by
  decide

/-- C19 as amended: if the virtual-method scan selects no result,
`canonicalSymbol` returns the declaration of the first result in list order
whose declaration is non-null, whether or not that declaration has an
enclosing scope, and returns no symbol exactly when no result has a
declaration. -/
theorem canonicalSymbol_first_declared (results : List LookupItem)
    (hscan : canonicalVirtualScan results.reverse = none) :
    (canonicalSymbolOf results = none ↔ ∀ r ∈ results, r.declaration = none) ∧
    ∀ decl, canonicalSymbolOf results = some decl →
      ∃ pre r post, results = pre ++ r :: post ∧ (∀ p ∈ pre, p.declaration = none) ∧
        r.declaration = some decl := by
  have h : canonicalSymbolOf results = canonicalFirst results := by
    unfold canonicalSymbolOf
    rw [hscan]
  rw [h]
  exact canonicalFirst_spec results

/-- C19 as amended, at the results `exOrphan`, `exDecl`. -/
theorem canonicalSymbol_first_declared_witness :
    (canonicalSymbolOf exResults = none ↔ ∀ r ∈ exResults, r.declaration = none) ∧
    ∀ decl, canonicalSymbolOf exResults = some decl →
      ∃ pre r post, exResults = pre ++ r :: post ∧ (∀ p ∈ pre, p.declaration = none) ∧
        r.declaration = some decl :=
  canonicalSymbol_first_declared exResults (by decide)

/-! ## The assertions of the worker -/

/-- C20 (queue/state assertions are valid): in every state that the engine
reaches by worker steps, `index` calls and reader steps, no assertion on the
state has failed; a non-empty job queue implies state `Indexing`; where the
worker tests `state == Idle` (queue empty at the top of the loop or on a
wake-up) the state is `Idle`, and where it tests `state == Starting ||
state == Indexing` (worker start) the state is one of the two. -/
theorem assertions_never_fail (events : List Event) :
    (Engine.init.exec events).pc ≠ WorkerPc.Aborted ∧
    ((Engine.init.exec events).step Event.worker).pc ≠ WorkerPc.Aborted ∧
    ((Engine.init.exec events).jobs ≠ [] → (Engine.init.exec events).state = State.Indexing) ∧
    (((Engine.init.exec events).pc = WorkerPc.LoopTop ∨
        (Engine.init.exec events).pc = WorkerPc.Waiting) →
      (Engine.init.exec events).jobs = [] → (Engine.init.exec events).state = State.Idle) ∧
    ((Engine.init.exec events).pc = WorkerPc.Init →
      (Engine.init.exec events).state = State.Starting ∨
        (Engine.init.exec events).state = State.Indexing) := by
  have h := inv_reachable events
  have h2 := inv_step _ Event.worker h
  generalize Engine.init.exec events = s at h h2
  refine ⟨?_, ?_, ?_, ?_, ?_⟩
  · intro hp
    simp [Engine.Inv, hp] at h
  · intro hp
    simp [Engine.Inv, hp] at h2
  · obtain ⟨state, jobs, pc, reader⟩ := s
    cases pc <;> cases state <;> cases jobs <;> cases reader <;> simp_all [Engine.Inv]
  · obtain ⟨state, jobs, pc, reader⟩ := s
    cases pc <;> cases state <;> cases jobs <;> cases reader <;> simp_all [Engine.Inv]
  · obtain ⟨state, jobs, pc, reader⟩ := s
    cases pc <;> cases state <;> cases jobs <;> cases reader <;> simp_all [Engine.Inv]

/-! ## Index keys agree with nameMatch -/

theorem mem_suffixes {α : Type} {suf l : List α} :
    suf ∈ suffixes l ↔ suf ≠ [] ∧ suf <:+ l := by
  induction l with
  | nil =>
    simp only [suffixes, List.not_mem_nil, false_iff, not_and]
    intro hne hs
    exact hne (List.suffix_nil.mp hs)
  | cons a as ih =>
    simp only [suffixes, List.mem_cons, ih, List.suffix_cons_iff]
    constructor
    · rintro (h | ⟨h1, h2⟩)
      · exact ⟨by rw [h]; simp, Or.inl h⟩
      · exact ⟨h1, Or.inr h2⟩
    · rintro ⟨h1, h2 | h2⟩
      · exact Or.inl h2
      · exact Or.inr ⟨h1, h2⟩

theorem cons_tailJoin (c : Str) (cs : List Str) : c ++ tailJoin cs = joinNames (c :: cs) := by
  induction cs generalizing c with
  | nil => simp [tailJoin, joinNames]
  | cons b rest ih => simp [tailJoin, joinNames, ← ih b]

theorem foldl_appendName (rest : List Str) (full : Str) (seps : List Nat) (hfull : full ≠ []) :
    rest.foldl appendName (full, seps) =
      (full ++ tailJoin rest, seps ++ sepsFrom full.length rest) := by
  induction rest generalizing full seps with
  | nil => simp [tailJoin, sepsFrom]
  | cons c cs ih =>
    have hstep : appendName (full, seps) c =
        (full ++ sep ++ c, seps ++ [full.length + 2]) := by
      simp [appendName, hfull, sep]
    simp only [List.foldl_cons, hstep]
    rw [ih (full ++ sep ++ c) _ (by simp [hfull])]
    have hl : (full ++ sep ++ c).length = full.length + 2 + c.length := by
      simp only [sep, List.length_append, List.length_cons, List.length_nil]
    rw [hl]
    simp [tailJoin, sepsFrom]

theorem map_mid_sepsFrom (rest : List Str) (full : Str) :
    (sepsFrom full.length rest).map (mid (full ++ tailJoin rest)) =
      (suffixes rest).map joinNames := by
  induction rest generalizing full with
  | nil => rfl
  | cons c cs ih =>
    simp only [sepsFrom, tailJoin, suffixes, List.map_cons]
    have h1 : mid (full ++ (sep ++ c ++ tailJoin cs)) (full.length + 2) = joinNames (c :: cs) := by
      have : full ++ (sep ++ c ++ tailJoin cs) = (full ++ sep) ++ (c ++ tailJoin cs) := by simp
      rw [this, ← cons_tailJoin]
      have hl : full.length + 2 = (full ++ sep).length := by simp [sep]
      rw [hl, mid_append]
    have h2 := ih (full ++ sep ++ c)
    have hl2 : (full ++ sep ++ c).length = full.length + 2 + c.length := by
      simp only [sep, List.length_append, List.length_cons, List.length_nil]
    have he : full ++ sep ++ c ++ tailJoin cs = full ++ (sep ++ c ++ tailJoin cs) := by simp
    rw [hl2, he] at h2
    rw [h1, h2]

/-- The keys of a symbol whose first name component is not empty are the
`"::"`-joins of the non-empty right-suffixes of its components. -/
theorem symbolKeys_eq (symbol : Symbol)
    (hne : ∀ c ∈ symbol.fullyQualifiedName, c ≠ []) :
    symbolKeys symbol = (suffixes symbol.fullyQualifiedName).map joinNames := by
  unfold symbolKeys qualifiedName
  cases hf : symbol.fullyQualifiedName with
  | nil => simp [suffixes]
  | cons c cs =>
    have hc : c ≠ [] := hne c (by rw [hf]; exact List.mem_cons_self _ _)
    have h0 : appendName ([], []) c = (c, []) := by simp [appendName]
    simp only [List.foldl_cons, h0]
    rw [foldl_appendName cs c [] hc]
    have hq : (c ++ tailJoin cs).isEmpty = false := by
      cases c with
      | nil => exact absurd rfl hc
      | cons x xs => rfl
    simp only [hq, List.nil_append, suffixes, List.map_cons]
    rw [map_mid_sepsFrom cs c, cons_tailJoin]
    simp

theorem keys_insertSuffix_fold {q : Str} (seps : List Nat) (cur : RParserName)
    (names : NameMap) (k : Str) :
    k ∈ (seps.foldl (insertSuffix q) (cur, names)).2.map Prod.fst ↔
      k ∈ names.map Prod.fst ∨ ∃ s ∈ seps, k = mid q s := by
  induction seps generalizing cur names with
  | nil => simp
  | cons s rest ih =>
    simp only [List.foldl_cons]
    rw [ih]
    simp only [insertSuffix, keys_mapMerge, List.mem_cons, exists_eq_or_imp]
    tauto

/-- The keys of the name map after the pre-visit of a symbol are the keys
before and the keys of the symbol. -/
theorem keys_preVisitNames (names : NameMap) (symbol : Symbol) (k : Str) :
    k ∈ (preVisitNames names symbol).map Prod.fst ↔
      k ∈ names.map Prod.fst ∨ k ∈ symbolKeys symbol := by
  unfold preVisitNames symbolKeys
  by_cases hq : (qualifiedName symbol.fullyQualifiedName).1.isEmpty = true
  · simp [hq]
  · simp only [hq, Bool.false_eq_true, if_false]
    rw [keys_insertSuffix_fold, keys_mapMerge]
    simp only [List.mem_cons, List.mem_map]
    constructor
    · rintro ((h | h) | ⟨s, hs, h⟩)
      · exact Or.inr (Or.inl h)
      · exact Or.inl h
      · exact Or.inr (Or.inr ⟨s, hs, h.symm⟩)
    · rintro (h | h | ⟨s, hs, h⟩)
      · exact Or.inl (Or.inr h)
      · exact Or.inl (Or.inl h)
      · exact Or.inr ⟨s, hs, h.symm⟩

theorem symbolLoop_mem {ids : FileIds} {name : Str} (syms : List Symbol) (cs : List Cursor)
    {symbol : Symbol} (hs : symbol ∈ syms) (hm : nameMatch symbol name = true) :
    makeCursor ids symbol ∈ syms.foldl
      (fun cs sym => if nameMatch sym name then cursorInsert (makeCursor ids sym) cs else cs) cs := by
  induction syms generalizing cs with
  | nil => simp at hs
  | cons s rest ih =>
    simp only [List.foldl_cons]
    by_cases he : s = symbol
    · subst he
      apply symbolLoop_mono
      rw [if_pos hm]
      exact mem_cursorInsert.mpr (Or.inl rfl)
    · rcases List.mem_cons.mp hs with h | h
      · exact absurd h.symm he
      · exact ih _ h

/-- The candidate loop of `findCursors` adds the cursor of every symbol of a
candidate document for which `nameMatch` holds. -/
theorem symbolCursor_mem_foldl {ids : FileIds} {self : Project} {name : Str} (cand : List Path)
    (cs : List Cursor) (p : Path) (doc : Document) (visited : List Symbol) (symbol : Symbol)
    (hp : p ∈ cand) (hdoc : self.documents p = some doc)
    (hns : doc.globalNamespace = some visited) (hs : symbol ∈ visited)
    (hm : nameMatch symbol name = true) :
    makeCursor ids symbol ∈ cand.foldl (findCursorsIn ids self name) cs := by
  induction cand generalizing cs with
  | nil => simp at hp
  | cons q rest ih =>
    simp only [List.foldl_cons]
    by_cases hq : q = p
    · subst hq
      apply foldl_findCursorsIn_mono
      unfold findCursorsIn
      simp only [hdoc, hns, call_syms]
      have h1 := @symbolLoop_mem ids name visited cs symbol hs hm
      by_cases he : endsWith q name = true
      · rw [if_pos he]
        exact mem_cursorInsert.mpr (Or.inr h1)
      · rw [if_neg he]
        exact h1
    · rcases List.mem_cons.mp hp with h | h
      · exact absurd h.symm hq
      · exact ih _ h

/-- A key of a symbol of the document of `p`, a file of the batch, whose file
is `p`, is in the index with `p` after `collectNames`. -/
theorem hasPath_of_symbolKey (self : Project) (batch : List Path) (p : Path) (doc : Document)
    (visited : List Symbol) (symbol : Symbol) (k : Str) (hwf : MapWF self.names)
    (hp : p ∈ batch) (hdoc : self.documents p = some doc)
    (hns : doc.globalNamespace = some visited) (hs : symbol ∈ visited)
    (hfile : symbol.fileName = p) (hk : k ∈ symbolKeys symbol) :
    HasPath k p (collectNames self batch).names := by
  unfold symbolKeys at hk
  by_cases hq : (qualifiedName symbol.fullyQualifiedName).1.isEmpty = true
  · simp [hq] at hk
  · simp only [hq, Bool.false_eq_true, if_false, List.mem_cons, List.mem_map] at hk
    have hne : (qualifiedName symbol.fullyQualifiedName).1 ≠ [] := by
      simpa [List.isEmpty_iff] using hq
    obtain ⟨hfull, hsub⟩ := (foldl_preVisitNames visited [] mapWF_nil).2.2 symbol hs hne
    rw [hfile] at hfull hsub
    have hloc : HasPath k p (visited.foldl preVisitNames []) := by
      rcases hk with h | ⟨s, hs2, h⟩
      · rw [h]
        exact hfull
      · rw [← h]
        exact hsub s hs2
    exact collectNames_of_round self batch p k p hwf hp
      (fun names hn => collectFile_of_local _ names p doc visited k p hn hdoc hns hloc)

/-- C21 (index keys agree with nameMatch): for a symbol whose name components
are all non-empty, `nameMatch(symbol, n)` holds iff `n` is one of the keys that
`FindSymbols::preVisit` (mode `ListSymbols`) inserts for the symbol, which are
the `"::"`-joins of the non-empty right-suffixes of the components; so every
key under which a symbol of an indexed file is filed finds that symbol again
in `findCursors`. -/
theorem keys_agree_with_nameMatch (symbol : Symbol)
    (hne : ∀ c ∈ symbol.fullyQualifiedName, c ≠ []) :
    (∀ n, nameMatch symbol n = true ↔ n ∈ symbolKeys symbol) ∧
    (∀ n, n ∈ symbolKeys symbol ↔
      ∃ suf, suf ≠ [] ∧ suf <:+ symbol.fullyQualifiedName ∧ n = joinNames suf) ∧
    (∀ (names : NameMap) k, k ∈ (preVisitNames names symbol).map Prod.fst ↔
      k ∈ names.map Prod.fst ∨ k ∈ symbolKeys symbol) ∧
    (∀ (ids : FileIds) (self : Project) (batch : List Path) (p : Path) (doc : Document)
      (visited : List Symbol) (k : Str), MapWF self.names → p ∈ batch →
      self.documents p = some doc → doc.globalNamespace = some visited → symbol ∈ visited →
      symbol.fileName = p → k ∈ symbolKeys symbol →
      makeCursor ids symbol ∈ findCursors ids (collectNames self batch) k []) := by
  have hkeys : ∀ n, n ∈ symbolKeys symbol ↔
      ∃ suf, suf ≠ [] ∧ suf <:+ symbol.fullyQualifiedName ∧ n = joinNames suf := by
    intro n
    rw [symbolKeys_eq symbol hne]
    simp only [List.mem_map, mem_suffixes]
    constructor
    · rintro ⟨suf, ⟨h1, h2⟩, h3⟩
      exact ⟨suf, h1, h2, h3.symm⟩
    · rintro ⟨suf, h1, h2, h3⟩
      exact ⟨suf, ⟨h1, h2⟩, h3.symm⟩
  have hmatch : ∀ n, nameMatch symbol n = true ↔ n ∈ symbolKeys symbol := by
    intro n
    rw [nameMatch_iff symbol n hne, hkeys]
  refine ⟨hmatch, hkeys, fun names k => keys_preVisitNames names symbol k, ?_⟩
  intro ids self batch p doc visited k hwf hp hdoc hns hs hfile hk
  obtain ⟨e, he, hpe⟩ := hasPath_of_symbolKey self batch p doc visited symbol k hwf hp hdoc hns
    hs hfile hk
  unfold findCursors
  apply symbolCursor_mem_foldl _ _ p doc visited symbol _ hdoc hns hs ((hmatch k).mpr hk)
  unfold findCandidates
  simp only [he]
  have hpass : (toSet ([] : List Path)).isEmpty = true := rfl
  rw [if_pos hpass]
  exact mem_setUnite.mpr (Or.inr hpe)

/-- C21 at the symbol `Outer::Inner::method`. -/
theorem keys_agree_with_nameMatch_witness :
    (∀ n, nameMatch exMethod n = true ↔ n ∈ symbolKeys exMethod) ∧
    (∀ n, n ∈ symbolKeys exMethod ↔
      ∃ suf, suf ≠ [] ∧ suf <:+ exMethod.fullyQualifiedName ∧ n = joinNames suf) ∧
    (∀ (names : NameMap) k, k ∈ (preVisitNames names exMethod).map Prod.fst ↔
      k ∈ names.map Prod.fst ∨ k ∈ symbolKeys exMethod) ∧
    (∀ (ids : FileIds) (self : Project) (batch : List Path) (p : Path) (doc : Document)
      (visited : List Symbol) (k : Str), MapWF self.names → p ∈ batch →
      self.documents p = some doc → doc.globalNamespace = some visited → exMethod ∈ visited →
      exMethod.fileName = p → k ∈ symbolKeys exMethod →
      makeCursor ids exMethod ∈ findCursors ids (collectNames self batch) k []) :=
  keys_agree_with_nameMatch exMethod (by decide)

/-! ## The end-token scan stays in the node -/

/-- The backward scan from `n - 1` stops at the greatest index below `n` whose
token starts at or before `(line, column)`, when some index `f < n` has such a
token. -/
theorem scanEndIndex_spec (tokens : List Token) (line column f : Nat)
    (hf : (tokens.getD f {}).startsAtOrBefore line column) :
    ∀ n, f < n → ∃ e : Nat, scanEndIndex tokens line column n = (e : Int) ∧ f ≤ e ∧ e < n ∧
      (tokens.getD e {}).startsAtOrBefore line column ∧
      ∀ i, e < i → i < n → ¬ (tokens.getD i {}).startsAtOrBefore line column := by
  intro n
  induction n with
  | zero => intro h; omega
  | succ n ih =>
    intro hlt
    by_cases hn : (tokens.getD n {}).startsAtOrBefore line column
    · refine ⟨n, ?_, by omega, by omega, hn, fun i h1 h2 => by omega⟩
      unfold scanEndIndex
      exact if_pos hn
    · have hfn : f ≠ n := fun h => hn (h ▸ hf)
      obtain ⟨e, he, h1, h2, h3, h4⟩ := ih (by omega)
      refine ⟨e, ?_, h1, by omega, h3, ?_⟩
      · unfold scanEndIndex
        exact (if_neg hn).trans he
      · intro i hi1 hi2
        by_cases hin : i = n
        · rw [hin]
          exact hn
        · exact h4 i hi1 (by omega)

/-- With non-decreasing token starts, every token up to one that starts at or
before `(line, column)` starts at or before it too. -/
theorem startsAtOrBefore_of_le (tokens : List Token) (line column i e : Nat)
    (hmono : MonotoneTokens tokens) (hie : i ≤ e) (he : e < tokens.length)
    (hs : (tokens.getD e {}).startsAtOrBefore line column) :
    (tokens.getD i {}).startsAtOrBefore line column := by
  have h := hmono e he i hie
  unfold Token.startsAtOrBefore at hs ⊢
  omega

/-- C22 (end-token scan stays in range): with token start positions
non-decreasing in the token index, for every AST node of the path with
`firstToken < lastToken` whose first token starts at or before
`(line, column)`, the backward scan for `endIndex` stops at an index `e` with
`firstToken <= e <= lastToken - 1`, the last token of the node that starts at
or before `(line, column)` (no later token of the node does, every earlier
token does), so `assert(startIndex <= endIndex && endIndex >= 0)` holds, and
the loop over such a path never fails the assertion. -/
theorem end_token_scan_in_range (ids : FileIds) (fe : FrontEnd) (doc lookupDoc : Document)
    (scope : Option Scope) (line column : Nat) (asts : List AstNode)
    (hmono : MonotoneTokens doc.tokens)
    (hasts : ∀ ast ∈ asts, ast.firstToken < ast.lastToken ∧
      (doc.tokens.getD ast.firstToken {}).startsAtOrBefore line column) :
    (∀ ast ∈ asts, ∃ e : Nat,
      scanEndIndex doc.tokens line column ast.lastToken = (e : Int) ∧
      ast.firstToken ≤ e ∧ e ≤ ast.lastToken - 1 ∧
      (doc.tokens.getD e {}).startsAtOrBefore line column ∧
      (∀ i, e < i → i < ast.lastToken →
        ¬ (doc.tokens.getD i {}).startsAtOrBefore line column) ∧
      (ast.lastToken ≤ doc.tokens.length →
        ∀ i, i ≤ e → (doc.tokens.getD i {}).startsAtOrBefore line column) ∧
      ((ast.firstToken : Int) ≤ scanEndIndex doc.tokens line column ast.lastToken ∧
        0 ≤ scanEndIndex doc.tokens line column ast.lastToken)) ∧
    findByExpression ids fe doc lookupDoc scope line column asts ≠ FindResult.assertFailed := by
  have hnode : ∀ ast ∈ asts, ∃ e : Nat,
      scanEndIndex doc.tokens line column ast.lastToken = (e : Int) ∧
      ast.firstToken ≤ e ∧ e ≤ ast.lastToken - 1 ∧
      (doc.tokens.getD e {}).startsAtOrBefore line column ∧
      (∀ i, e < i → i < ast.lastToken →
        ¬ (doc.tokens.getD i {}).startsAtOrBefore line column) ∧
      (ast.lastToken ≤ doc.tokens.length →
        ∀ i, i ≤ e → (doc.tokens.getD i {}).startsAtOrBefore line column) ∧
      ((ast.firstToken : Int) ≤ scanEndIndex doc.tokens line column ast.lastToken ∧
        0 ≤ scanEndIndex doc.tokens line column ast.lastToken) := by
    intro ast hast
    obtain ⟨hlt, hstart⟩ := hasts ast hast
    obtain ⟨e, he, h1, h2, h3, h4⟩ :=
      scanEndIndex_spec doc.tokens line column ast.firstToken hstart ast.lastToken hlt
    refine ⟨e, he, h1, by omega, h3, h4, ?_, ?_⟩
    · intro hlen i hi
      exact startsAtOrBefore_of_le doc.tokens line column i e hmono hi (by omega) h3
    · rw [he]
      omega
  refine ⟨hnode, ?_⟩
  clear hasts
  induction asts with
  | nil => simp [findByExpression]
  | cons ast rest ih =>
    have hrest := ih (fun a ha => hnode a (List.mem_cons_of_mem _ ha))
    obtain ⟨e, -, -, -, -, -, -, hassert⟩ := hnode ast (List.mem_cons_self _ _)
    unfold findByExpression
    simp only [hassert, and_self, not_true_eq_false, if_false]
    split
    · exact hrest
    · split
      · simp
      · exact hrest

/-- C22 at the AST path of `(3, 10)` in `x = obj.method(1);`. -/
theorem end_token_scan_in_range_witness :
    (∀ ast ∈ exAsts, ∃ e : Nat,
      scanEndIndex exTokens 3 10 ast.lastToken = (e : Int) ∧
      ast.firstToken ≤ e ∧ e ≤ ast.lastToken - 1 ∧
      (exTokens.getD e {}).startsAtOrBefore 3 10 ∧
      (∀ i, e < i → i < ast.lastToken → ¬ (exTokens.getD i {}).startsAtOrBefore 3 10) ∧
      (ast.lastToken ≤ exTokens.length →
        ∀ i, i ≤ e → (exTokens.getD i {}).startsAtOrBefore 3 10) ∧
      ((ast.firstToken : Int) ≤ scanEndIndex exTokens 3 10 ast.lastToken ∧
        0 ≤ scanEndIndex exTokens 3 10 ast.lastToken)) ∧
    findByExpression exIds exFrontEnd { tokens := exTokens } {} none 3 10 exAsts ≠
      FindResult.assertFailed :=
  end_token_scan_in_range exIds exFrontEnd { tokens := exTokens } {} none 3 10 exAsts
    (by decide) (by decide)

/-! ## The cache of define documents -/

/-- A define list whose key is not in the cache gets the document made from
its own source, and the document is stored under the key. -/
theorem defineDocument_fresh (defineDocs : List (Str × DefineDocument)) (name : Str)
    (defines : List Str) (h : mapGet (defineKey defines) defineDocs = none) :
    (defineDocument defineDocs name defines).2.source = defineSource defines ∧
    mapGet (defineKey defines) (defineDocument defineDocs name defines).1 =
      some (defineDocument defineDocs name defines).2 := by
  unfold defineDocument
  simp only [h]
  exact ⟨trivial, mapGet_mapSet_self _ _ _⟩

/-- C23 (define cache returns the document of the requested defines), at the
calls `defineDocument(_, "/src/a.cpp", [A=1:B, __GNUC__=4])` then
`defineDocument(_, "/src/b.cpp", [A=1, B, __GNUC__=4])` on an empty cache: the
two define lists differ and so do their sources, both have the key
`A=1:B:__GNUC__=4`, and the second call returns the document that the first
call made, whose source is the one of the first list and not
`#define A 1`, `#define B`, `#define __GNUC__ 4`. -/
theorem defineDocument_key_collision :
    exDefinesA ≠ exDefinesB ∧
    defineKey exDefinesA = str "A=1:B:__GNUC__=4" ∧
    defineKey exDefinesB = str "A=1:B:__GNUC__=4" ∧
    defineSource exDefinesA = str "#define A 1:B\n#define __GNUC__ 4\n" ∧
    defineSource exDefinesB = str "#define A 1\n#define B\n#define __GNUC__ 4\n" ∧
    (defineDocument [] (str "/src/b.cpp") exDefinesB).2.source = defineSource exDefinesB ∧
    (defineDocument (defineDocument [] (str "/src/a.cpp") exDefinesA).1
        (str "/src/b.cpp") exDefinesB).2 =
      (defineDocument [] (str "/src/a.cpp") exDefinesA).2 ∧
    (defineDocument (defineDocument [] (str "/src/a.cpp") exDefinesA).1
        (str "/src/b.cpp") exDefinesB).2.source = defineSource exDefinesA ∧
    (defineDocument (defineDocument [] (str "/src/a.cpp") exDefinesA).1
        (str "/src/b.cpp") exDefinesB).2.source ≠ defineSource exDefinesB ∧
    (defineDocument (defineCalls [] [(str "/src/a.cpp", exDefinesA)])
        (str "/src/b.cpp") exDefinesB).2.source ≠ defineSource exDefinesB := by
  decide

end RParser
